import Mathlib

/-!
Verification of the Amazon product scraper (src/amazon_scraper.py) against its
natural-language specification.  The Python code is shallowly embedded: Python
str is modelled as List Char, Python dict (as produced by parse_qs) as an
association list whose keys are distinct, BeautifulSoup documents as a tree of
element and text nodes, and the network as an oracle mapping (keyword, page)
to an optionally fetched, already-parsed page.  Functions of the standard
library used by the code (urllib.parse of CPython 3.11.6, re patterns) are
embedded from their CPython sources.  Exceptions raised by library calls are
modelled with Option: none stands for a raised exception.
-/

namespace Scraper

/-- Python str is modelled as a list of unicode characters. -/
abbrev Str := List Char

/-- Conversion from Lean string literals to the model of Python str. -/
def strL (s : String) : Str := s.toList

/-! ### Small list utilities shared by the embedded library functions -/

/-- Split at the first occurrence of a character: some (before, after) with the
occurrence removed, or none when the character does not occur.  This models the
combination of str.find plus slicing used throughout urllib.parse. -/
def splitFirst (c : Char) : Str → Option (Str × Str)
  | [] => none
  | x :: xs =>
    if x = c then some ([], xs)
    else (splitFirst c xs).map (fun p => (x :: p.1, p.2))

/-- Split at the last occurrence of a character (used for str.rfind). -/
def splitLastChar (c : Char) (l : Str) : Option (Str × Str) :=
  (splitFirst c l.reverse).map (fun p => (p.2.reverse, p.1.reverse))

/-- Model of Python str.split(sep) for a one-character separator: returns the
list of fragments; the empty string yields one empty fragment. -/
def splitOnSep (c : Char) : Str → List Str
  | [] => [[]]
  | x :: xs =>
    if x = c then [] :: splitOnSep c xs
    else
      match splitOnSep c xs with
      | [] => [[x]]
      | f :: fs => (x :: f) :: fs

/-- Model of Python sep.join for a one-character separator. -/
def joinSep (c : Char) : List Str → Str
  | [] => []
  | [f] => f
  | f :: fs => f ++ c :: joinSep c fs

/-! ### Percent-quoting (urllib.parse.quote_plus / unquote) -/

/-- Characters in _ALWAYS_SAFE of urllib.parse: ASCII letters, digits and the
four marks underscore, dot, dash, tilde. -/
def isAlwaysSafe (c : Char) : Bool :=
  c.isAlphanum || c = '_' || c = '.' || c = '-' || c = '~'

/-- Uppercase hex digit of a value below 16 (quote uses the %XX uppercase form). -/
def hexUp (n : Nat) : Char :=
  Char.ofNat (if n < 10 then 48 + n else 55 + n)

/-- Percent-escape of one byte, as emitted by urllib.parse.quote. -/
def percentHex (b : Nat) : Str :=
  ['%', hexUp (b / 16), hexUp (b % 16)]

/-- Recognizer for hex digits accepted by unquote (_hextobyte covers both cases). -/
def isHexDig (c : Char) : Bool :=
  c.isDigit || ('a' ≤ c && c ≤ 'f') || ('A' ≤ c && c ≤ 'F')

/-- Numeric value of a hex digit. -/
def hexDigitVal (c : Char) : Nat :=
  if c.isDigit then c.toNat - 48
  else if 'a' ≤ c && c ≤ 'f' then c.toNat - 87
  else c.toNat - 55

/-- UTF-8 encoding of one code point, as a list of byte values. -/
def utf8EncodeChar (n : Nat) : List Nat :=
  if n < 128 then [n]
  else if n < 2048 then [192 + n / 64, 128 + n % 64]
  else if n < 65536 then [224 + n / 4096, 128 + n / 64 % 64, 128 + n % 64]
  else [240 + n / 262144, 128 + n / 4096 % 64, 128 + n / 64 % 64, 128 + n % 64]

/-- The replacement character U+FFFD produced by the errors=replace handler. -/
def replacementChar : Char := Char.ofNat 65533

/-- State of the byte-at-a-time UTF-8 decoder: either between characters, or
inside a multi-byte sequence with the accumulated value, the number of
continuation bytes still needed, and the admissible range [lo, hi) for the
next continuation byte (the first continuation byte of a sequence has a
restricted range for leads E0, ED, F0 and F4, ruling out overlong encodings
and surrogates exactly as CPython does). -/
inductive Utf8State where
  | start : Utf8State
  | need (val k lo hi : Nat) : Utf8State
deriving DecidableEq, Repr

/-- Classification of a byte in the start state: output characters and the
successor state. -/
def utf8Lead (b : Nat) : List Char × Utf8State :=
  if b < 128 then ([Char.ofNat b], .start)
  else if b < 194 then ([replacementChar], .start)
  else if b < 224 then ([], .need (b - 192) 1 128 192)
  else if b < 240 then
    ([], .need (b - 224) 2 (if b = 224 then 160 else 128) (if b = 237 then 160 else 192))
  else if b < 245 then
    ([], .need (b - 240) 3 (if b = 240 then 144 else 128) (if b = 244 then 144 else 192))
  else ([replacementChar], .start)

/-- One step of the UTF-8 decoder with errors=replace: when a continuation
byte is out of range, a replacement character is emitted and the byte is
reclassified as a lead, matching the maximal-subpart error rule. -/
def utf8Step (st : Utf8State) (b : Nat) : List Char × Utf8State :=
  match st with
  | .start => utf8Lead b
  | .need val k lo hi =>
    if lo ≤ b && b < hi then
      if k = 1 then ([Char.ofNat (val * 64 + (b - 128))], .start)
      else ([], .need (val * 64 + (b - 128)) (k - 1) 128 192)
    else
      match utf8Lead b with
      | (out, st2) => (replacementChar :: out, st2)

/-- Decoding a byte list as UTF-8 with errors=replace from a given state, as
done by bytes.decode(encoding, errors) inside unquote; a sequence left
unfinished at the end of input yields one replacement character. -/
def utf8DecodeFrom (st : Utf8State) : List Nat → List Char
  | [] => match st with | .start => [] | .need _ _ _ _ => [replacementChar]
  | b :: bs =>
    match utf8Step st b with
    | (out, st2) => out ++ utf8DecodeFrom st2 bs

/-- Decoding a byte list as UTF-8 with errors=replace. -/
def utf8DecodeReplace (bs : List Nat) : List Char := utf8DecodeFrom .start bs

/-- Model of urllib.parse.quote_plus with safe set empty: each always-safe
character stands for itself, a space becomes a plus, and every other character
is percent-escaped through its UTF-8 bytes. -/
def quotePlusChar (c : Char) : Str :=
  if isAlwaysSafe c then [c]
  else if c = ' ' then ['+']
  else (utf8EncodeChar c.toNat).flatMap percentHex

/-- Model of urllib.parse.quote_plus on a whole string. -/
def quote_plus (s : Str) : Str := s.flatMap quotePlusChar

/-- Scanner at the heart of unquote: ASCII characters and percent-escapes are
accumulated as bytes (acc holds them in reverse) and flushed through the UTF-8
decoder at the end of each maximal ASCII run, while non-ASCII characters pass
through unchanged.  This mirrors the _asciire splitting plus unquote_to_bytes
plus bytes.decode pipeline of CPython unquote. -/
def unquoteAux : List Nat → Str → Str
  | acc, [] => utf8DecodeReplace acc.reverse
  | acc, '%' :: a :: b :: rest =>
    if isHexDig a && isHexDig b then
      unquoteAux ((hexDigitVal a * 16 + hexDigitVal b) :: acc) rest
    else unquoteAux (37 :: acc) (a :: b :: rest)
  | acc, c :: rest =>
    if 128 ≤ c.toNat then utf8DecodeReplace acc.reverse ++ c :: unquoteAux [] rest
    else unquoteAux (c.toNat :: acc) rest

/-- Model of urllib.parse.unquote with encoding utf-8 and errors replace. -/
def unquote (s : Str) : Str := unquoteAux [] s

/-- Replacement of plus signs by spaces done by parse_qsl before unquoting. -/
def plusToSpace (c : Char) : Char := if c = '+' then ' ' else c

/-- The name.replace of plus by space followed by unquote, applied by parse_qsl
to each field name and value. -/
def unquote_plus (s : Str) : Str := unquote (s.map plusToSpace)

/-! ### URL parsing (urllib.parse of CPython 3.11.6)

Functions that can raise ValueError are modelled with Option, none standing
for the raised exception. -/

/-- Characters allowed in a scheme after the first one (scheme_chars). -/
def isSchemeChar (c : Char) : Bool :=
  c.isAlpha || c.isDigit || c = '+' || c = '-' || c = '.'

/-- ASCII lowercasing used on the extracted scheme (the scheme has been
validated to contain ASCII characters only, so only the ASCII case matters). -/
def lowerChar (c : Char) : Char :=
  if 'A' ≤ c && c ≤ 'Z' then Char.ofNat (c.toNat + 32) else c

/-- The C0-control-or-space class stripped from the left of a URL
(_WHATWG_C0_CONTROL_OR_SPACE). -/
def isC0OrSpace (c : Char) : Bool := c.toNat ≤ 32

/-- Removal of tab, carriage return and line feed everywhere in the URL
(_UNSAFE_URL_BYTES_TO_REMOVE). -/
def removeUnsafeBytes (s : Str) : Str :=
  s.filter (fun c => !(c = '\t' || c = '\r' || c = '\n'))

/-- Scheme list uses_relative of urllib.parse. -/
def uses_relative : List Str :=
  [strL "", strL "ftp", strL "http", strL "gopher", strL "nntp", strL "imap",
   strL "wais", strL "file", strL "https", strL "shttp", strL "mms",
   strL "prospero", strL "rtsp", strL "rtsps", strL "rtspu", strL "sftp",
   strL "svn", strL "svn+ssh", strL "ws", strL "wss"]

/-- Scheme list uses_netloc of urllib.parse. -/
def uses_netloc : List Str :=
  [strL "", strL "ftp", strL "http", strL "gopher", strL "nntp", strL "telnet",
   strL "imap", strL "wais", strL "file", strL "mms", strL "https", strL "shttp",
   strL "snews", strL "prospero", strL "rtsp", strL "rtsps", strL "rtspu",
   strL "rsync", strL "svn", strL "svn+ssh", strL "sftp", strL "nfs",
   strL "git", strL "git+ssh", strL "ws", strL "wss"]

/-- Scheme list uses_params of urllib.parse. -/
def uses_params : List Str :=
  [strL "", strL "ftp", strL "hdl", strL "prospero", strL "http", strL "imap",
   strL "https", strL "shttp", strL "rtsp", strL "rtsps", strL "rtspu",
   strL "sip", strL "sips", strL "mms", strL "sftp", strL "tel"]

/-- One hex group of an IPv6 address: one to four hex digits. -/
def isHexGroup (g : Str) : Bool :=
  decide (g ≠ []) && decide (g.length ≤ 4) && g.all isHexDig

/-- Simplified acceptor for bracketed IPv6 hosts, standing in for
ipaddress.ip_address inside _check_bracketed_host: plain colon-separated hex
groups with at most one double colon are accepted; embedded IPv4 tails and
zone identifiers, which CPython also accepts, are not modelled (no claim
depends on them). -/
def ipv6Ok (s : Str) : Bool :=
  match splitFirst ':' s with
  | none => false
  | some _ =>
    let groups := splitOnSep ':' s
    let emptyIdx := (List.range groups.length).filter
      (fun i => (groups.getD i (strL "x")) = [])
    match emptyIdx with
    | [] => decide (groups.length = 8) && groups.all isHexGroup
    | [i] =>
      decide (0 < i) && decide (i + 1 < groups.length) && decide (groups.length ≤ 8) &&
        groups.all (fun g => isHexGroup g || g.isEmpty)
    | [i, j] =>
      (decide (i = 0) && decide (j = 1) || decide (i + 2 = groups.length) && decide (j + 1 = groups.length)) &&
        decide (groups.length ≤ 9) && groups.all (fun g => isHexGroup g || g.isEmpty)
    | [_, _, _] => decide (s = strL "::")
    | _ => false

/-- Model of _check_bracketed_host: an IPvFuture literal v<hex>+.<anything>+,
or an IPv6 address (via the simplified acceptor above). -/
def bracketedHostOk (h : Str) : Bool :=
  match h with
  | 'v' :: rest =>
    let hexPart := rest.takeWhile isHexDig
    let dotPart := rest.dropWhile isHexDig
    decide (hexPart ≠ []) && (match dotPart with | '.' :: tl => decide (tl ≠ []) | _ => false)
  | _ => ipv6Ok h

/-- The text between the first opening bracket and the following closing
bracket of a netloc, as computed by netloc.partition chains in urlsplit. -/
def bracketedPart (netloc : Str) : Str :=
  match splitFirst '[' netloc with
  | none => []
  | some (_, after) =>
    match splitFirst ']' after with
    | none => after
    | some (inside, _) => inside

/-- Result of urlsplit: the five components scheme, netloc, path, query,
fragment. -/
structure SplitResult where
  scheme : Str
  netloc : Str
  path : Str
  query : Str
  fragment : Str
deriving DecidableEq, Repr

/-- Model of urllib.parse.urlsplit of CPython 3.11.6 with allow_fragments
true.  none models a raised ValueError (unbalanced brackets or an invalid
bracketed host).  The NFKC-normalization check of _checknetloc, which can
raise only for exotic non-ASCII netlocs, is not modelled. -/
def urlsplit (url0 scheme0 : Str) : Option SplitResult :=
  let url := removeUnsafeBytes (url0.dropWhile isC0OrSpace)
  let schemeD := removeUnsafeBytes
    ((scheme0.dropWhile isC0OrSpace).reverse.dropWhile isC0OrSpace).reverse
  let sr :=
    match splitFirst ':' url with
    | some (before, after) =>
      if decide (before ≠ []) && (match before.head? with
          | some c0 => decide (c0.toNat < 128) && c0.isAlpha
          | none => false) && before.all isSchemeChar then
        (before.map lowerChar, after)
      else (schemeD, url)
    | none => (schemeD, url)
  let scheme := sr.1
  let rest := sr.2
  let nr :=
    if rest.take 2 = ['/', '/'] then
      ((rest.drop 2).takeWhile (fun c => !(c = '/' || c = '?' || c = '#')),
       (rest.drop 2).dropWhile (fun c => !(c = '/' || c = '?' || c = '#')))
    else ([], rest)
  let netloc := nr.1
  let rest2 := nr.2
  if (netloc.contains '[' && !netloc.contains ']') ||
     (netloc.contains ']' && !netloc.contains '[') then none
  else if netloc.contains '[' && netloc.contains ']' &&
          !bracketedHostOk (bracketedPart netloc) then none
  else
    let fr :=
      match splitFirst '#' rest2 with
      | some (a, b) => (a, b)
      | none => (rest2, [])
    let qr :=
      match splitFirst '?' fr.1 with
      | some (a, b) => (a, b)
      | none => (fr.1, [])
    some ⟨scheme, netloc, qr.1, qr.2, fr.2⟩

/-- Model of _splitparams.  In urlparse it is called only when the path
contains a semicolon, so the fallthrough cases return the input unchanged. -/
def splitparams (url : Str) : Str × Str :=
  if url.contains '/' then
    match splitLastChar '/' url with
    | some (a, b) =>
      (match splitFirst ';' b with
       | some (b1, b2) => (a ++ '/' :: b1, b2)
       | none => (url, []))
    | none => (url, [])
  else
    match splitFirst ';' url with
    | some (u1, u2) => (u1, u2)
    | none => (url, [])

/-- Result of urlparse: the six components scheme, netloc, path, params,
query, fragment. -/
structure ParseResult where
  scheme : Str
  netloc : Str
  path : Str
  params : Str
  query : Str
  fragment : Str
deriving DecidableEq, Repr

/-- Model of urllib.parse.urlparse of CPython 3.11.6. -/
def urlparse (url scheme0 : Str) : Option ParseResult :=
  (urlsplit url scheme0).map (fun r =>
    if uses_params.contains r.scheme && r.path.contains ';' then
      let pp := splitparams r.path
      ⟨r.scheme, r.netloc, pp.1, pp.2, r.query, r.fragment⟩
    else ⟨r.scheme, r.netloc, r.path, [], r.query, r.fragment⟩)

/-- Model of urllib.parse.urlunsplit of CPython 3.11.6 (note the condition on
scheme membership in uses_netloc, newer than the pre-3.11.4 one). -/
def urlunsplit (scheme netloc path query fragment : Str) : Str :=
  let url :=
    if decide (netloc ≠ []) ||
       (decide (scheme ≠ []) && uses_netloc.contains scheme && decide (path.take 2 ≠ ['/', '/'])) then
      let url2 := if decide (path ≠ []) && decide (path.take 1 ≠ ['/']) then '/' :: path else path
      '/' :: '/' :: (netloc ++ url2)
    else path
  let url := if scheme ≠ [] then scheme ++ ':' :: url else url
  let url := if query ≠ [] then url ++ '?' :: query else url
  if fragment ≠ [] then url ++ '#' :: fragment else url

/-- Model of urllib.parse.urlunparse of CPython 3.11.6. -/
def urlunparse (scheme netloc path params query fragment : Str) : Str :=
  urlunsplit scheme netloc (if params ≠ [] then path ++ ';' :: params else path) query fragment

/-- Model of urllib.parse.parse_qsl with default arguments: fields are split
on ampersands; empty fields, fields without an equal sign and fields with an
empty value are dropped; names and values have plus signs replaced by spaces
and are percent-unquoted. -/
def parse_qsl (qs : Str) : List (Str × Str) :=
  let query_args := if qs = [] then [] else splitOnSep '&' qs
  query_args.filterMap (fun nv =>
    if nv = [] then none
    else
      match splitFirst '=' nv with
      | none => none
      | some (n, v) =>
        if v = [] then none else some (unquote_plus n, unquote_plus v))

/-- Insertion step of parse_qs: append the value to an existing key, keeping
dictionary insertion order, or add a new key at the end. -/
def qsInsert (d : List (Str × List Str)) (n : Str) (v : Str) : List (Str × List Str) :=
  if d.any (fun e => e.1 = n) then
    d.map (fun e => if e.1 = n then (e.1, e.2 ++ [v]) else e)
  else d ++ [(n, [v])]

/-- Model of urllib.parse.parse_qs: a Python dict in insertion order, as an
association list. -/
def parse_qs (qs : Str) : List (Str × List Str) :=
  (parse_qsl qs).foldl (fun d p => qsInsert d p.1 p.2) []

/-- Dictionary assignment d[k] = vs on the association-list model of a dict:
an existing key keeps its position, a new key is appended. -/
def dictSet (d : List (Str × List Str)) (k : Str) (vs : List Str) : List (Str × List Str) :=
  if d.any (fun e => e.1 = k) then
    d.map (fun e => if e.1 = k then (e.1, vs) else e)
  else d ++ [(k, vs)]

/-- Model of urllib.parse.urlencode with doseq true on a dict whose values are
lists of strings: each value yields one quoted key=value field, fields joined
by ampersands. -/
def urlencode (d : List (Str × List Str)) : Str :=
  joinSep '&' (d.flatMap (fun e => e.2.map (fun v => quote_plus e.1 ++ '=' :: quote_plus v)))

/-- Model of AmazonScraper._add_affiliate_tag (src/amazon_scraper.py lines
106-138): parse the URL, overwrite the tag query parameter with the affiliate
id, re-encode the query and rebuild the URL.  none models a ValueError
escaping from urlparse. -/
def _add_affiliate_tag (affiliate_id url : Str) : Option Str :=
  if url = [] ∨ affiliate_id = [] then some url
  else
    (urlparse url []).map (fun p =>
      let query_params := parse_qs p.query
      let query_params := dictSet query_params (strL "tag") [affiliate_id]
      let new_query := urlencode query_params
      urlunparse p.scheme p.netloc p.path p.params new_query p.fragment)

/-- The filter of segments[1:-1] by truthiness done in urljoin. -/
def filterMiddle (l : List Str) : List Str :=
  match l with
  | [] => []
  | [a] => [a]
  | a :: b :: rest =>
    a :: ((b :: rest).dropLast.filter (fun s => !s.isEmpty)) ++ [(b :: rest).getLast (by simp)]

/-- The resolution loop of urljoin over path segments: double dots pop (on an
empty stack they are ignored), single dots are skipped. -/
def resolveSegments (segs : List Str) : List Str :=
  segs.foldl (fun acc seg =>
    if seg = strL ".." then acc.dropLast
    else if seg = strL "." then acc
    else acc ++ [seg]) []

/-- Model of urllib.parse.urljoin of CPython 3.11.6. -/
def urljoin (base url : Str) : Option Str :=
  if base = [] then some url
  else if url = [] then some base
  else
    (urlparse base []).bind (fun b =>
      (urlparse url b.scheme).map (fun p =>
        if p.scheme ≠ b.scheme ∨ ¬ uses_relative.contains p.scheme then url
        else if uses_netloc.contains p.scheme ∧ p.netloc ≠ [] then
          urlunparse p.scheme p.netloc p.path p.params p.query p.fragment
        else
          let netloc := if uses_netloc.contains p.scheme then b.netloc else p.netloc
          if p.path = [] ∧ p.params = [] then
            let query := if p.query = [] then b.query else p.query
            urlunparse p.scheme netloc b.path b.params query p.fragment
          else
            let base_parts := splitOnSep '/' b.path
            let base_parts :=
              if base_parts.getLastD [] ≠ [] then base_parts.dropLast else base_parts
            let segments :=
              if p.path.take 1 = ['/'] then splitOnSep '/' p.path
              else filterMiddle (base_parts ++ splitOnSep '/' p.path)
            let resolved := resolveSegments segments
            let resolved :=
              if segments.getLastD [] = strL ".." ∨ segments.getLastD [] = strL "." then
                resolved ++ [[]]
              else resolved
            let joined := joinSep '/' resolved
            urlunparse p.scheme netloc (if joined = [] then ['/'] else joined)
              p.params p.query p.fragment))

/-! ### Parsed documents (BeautifulSoup trees)

A parsed page is a tree of element and text nodes.  Attribute values are kept
as plain strings; the class attribute is tokenized on whitespace as the parser
does for multi-valued attributes. -/

mutual
inductive Node where
  | text (s : String) : Node
  | elem (tag : String) (attrs : List (String × String)) (children : NodeList) : Node
inductive NodeList where
  | nil : NodeList
  | cons (n : Node) (ns : NodeList) : NodeList
end

/-- Building a NodeList from a Lean list literal. -/
def nlist (l : List Node) : NodeList := l.foldr NodeList.cons NodeList.nil

/-- Tag name of a node (text nodes have none; they are never returned by the
element searches below). -/
def nodeName : Node → String
  | .text _ => ""
  | .elem t _ _ => t

/-- First value of an attribute on an element. -/
def attrOf (n : Node) (key : String) : Option String :=
  match n with
  | .text _ => none
  | .elem _ attrs _ => (attrs.find? (fun p => p.1 = key)).map (fun p => p.2)

/-- Whitespace tokenizer for the class attribute: tok accumulates the current
token in reverse. -/
def splitWhitespaceAux : Str → Str → List Str
  | tok, [] => if tok = [] then [] else [tok.reverse]
  | tok, c :: rest =>
    if c.isWhitespace then
      if tok = [] then splitWhitespaceAux [] rest
      else tok.reverse :: splitWhitespaceAux [] rest
    else splitWhitespaceAux (c :: tok) rest

/-- Class tokens of an element: the class attribute split on whitespace. -/
def nodeClasses (n : Node) : List String :=
  (splitWhitespaceAux [] ((attrOf n "class").getD "").toList).map String.mk

mutual
/-- Element descendants of a node paired with their chains of ancestors that
lie strictly below the root of the search (outermost first), in document
order (pre-order). -/
def descsNode (anc : List Node) : Node → List (Node × List Node)
  | .text _ => []
  | .elem t a cs => (Node.elem t a cs, anc) :: descsList (anc ++ [Node.elem t a cs]) cs
/-- List version of descsNode. -/
def descsList (anc : List Node) : NodeList → List (Node × List Node)
  | .nil => []
  | .cons n ns => descsNode anc n ++ descsList anc ns
end

/-- Element descendants of a root with ancestor chains; the root itself is not
included, matching find and select of BeautifulSoup which search descendants
only. -/
def descendantsWithAnc : Node → List (Node × List Node)
  | .text _ => []
  | .elem _ _ cs => descsList [] cs

/-- Element descendants of a root in document order. -/
def descendantElems (root : Node) : List Node :=
  (descendantsWithAnc root).map (fun p => p.1)

/-- One segment of a CSS selector: an optional tag name plus required classes. -/
structure SimpleSel where
  tag : Option String
  classes : List String

/-- A descendant-combinator CSS selector: the required ancestor segments, in
outer-to-inner order, and the segment the matched element itself satisfies. -/
structure Sel where
  ancs : List SimpleSel
  target : SimpleSel

/-- Matching one selector segment against an element. -/
def matchesSimple (s : SimpleSel) (n : Node) : Bool :=
  (match s.tag with
   | some t => nodeName n = t
   | none => true) &&
  s.classes.all (fun c => (nodeClasses n).contains c)

/-- Matching the ancestor segments of a selector against an ancestor chain
(outermost first): an order-preserving embedding must exist. -/
def ancsMatch : List SimpleSel → List Node → Bool
  | [], _ => true
  | _ :: _, [] => false
  | s :: rest, a :: as2 =>
    (matchesSimple s a && ancsMatch rest as2) || ancsMatch (s :: rest) as2

/-- Model of element.select_one(selector): the first descendant in document
order matching the selector, with the required ancestors found inside the
searched subtree. -/
def select_one (sel : Sel) (root : Node) : Option Node :=
  ((descendantsWithAnc root).find?
    (fun p => matchesSimple sel.target p.1 && ancsMatch sel.ancs p.2)).map (fun p => p.1)

/-- Model of element.find(tag, class_=cls): first descendant with the tag
whose class tokens include cls. -/
def findTagClass (root : Node) (tag cls : String) : Option Node :=
  (descendantElems root).find? (fun n => nodeName n = tag && (nodeClasses n).contains cls)

/-- Model of element.find(tag): first descendant with the tag. -/
def findTag (root : Node) (tag : String) : Option Node :=
  (descendantElems root).find? (fun n => nodeName n = tag)

/-- Model of element.find(tag, {attr: value}): first descendant with the tag
carrying the attribute with that exact value. -/
def findTagAttr (root : Node) (tag attr val : String) : Option Node :=
  (descendantElems root).find? (fun n => nodeName n = tag && attrOf n attr = some val)

/-- Model of soup.find_all(tag, {attr: value}). -/
def findAllTagAttr (root : Node) (tag attr val : String) : List Node :=
  (descendantElems root).filter (fun n => nodeName n = tag && attrOf n attr = some val)

/-- Model of soup.find_all(tag, class_=cls). -/
def findAllTagClass (root : Node) (tag cls : String) : List Node :=
  (descendantElems root).filter (fun n => nodeName n = tag && (nodeClasses n).contains cls)

mutual
/-- Model of element.get_text(): concatenation of all text in the subtree. -/
def textContentN : Node → Str
  | .text s => s.toList
  | .elem _ _ cs => textContentL cs
/-- List version of textContentN. -/
def textContentL : NodeList → Str
  | .nil => []
  | .cons n ns => textContentN n ++ textContentL ns
end

/-- Whitespace stripped by str.strip() (the ASCII whitespace class; the claims
do not involve the exotic unicode spaces Python also strips). -/
def isPySpace (c : Char) : Bool :=
  c = ' ' || c = '\t' || c = '\n' || c = '\r' || c = '\x0b' || c = '\x0c'

/-- Model of str.strip(). -/
def pystrip (s : Str) : Str :=
  ((s.dropWhile isPySpace).reverse.dropWhile isPySpace).reverse

/-! ### The regular expressions used by _extract_product_data -/

/-- Characters kept by the price cleanup re.sub([^\d.], ...): digits and the
decimal point (ASCII digits; the page never carries other unicode digits). -/
def keepDigitDot (c : Char) : Bool := c.isDigit || c = '.'

/-- Model of re.sub removing every character that is not a digit or a dot
(src/amazon_scraper.py line 257). -/
def cleanPrice (s : Str) : Str := s.filter keepDigitDot

/-- First match of the rating pattern (\d+\.?\d*): the leftmost maximal digit
run, optionally followed by a dot and further digits. -/
def firstNumToken : Str → Option Str
  | [] => none
  | c :: rest =>
    if c.isDigit then
      let ds := (c :: rest).takeWhile Char.isDigit
      let r2 := (c :: rest).dropWhile Char.isDigit
      match r2 with
      | '.' :: r3 => some (ds ++ '.' :: r3.takeWhile Char.isDigit)
      | _ => some ds
    else firstNumToken rest

/-- Numeric value of a digit run. -/
def digitsVal (ds : Str) : Nat := ds.foldl (fun a c => a * 10 + (c.toNat - 48)) 0

/-- Model of float() on a token matched by the rating pattern, idealized as an
exact rational (the token values the claims involve are exactly representable
either way). -/
def pyFloat (t : Str) : ℚ :=
  match splitFirst '.' t with
  | some (a, b) => (digitsVal a : ℚ) + (digitsVal b : ℚ) / (10 : ℚ) ^ b.length
  | none => (digitsVal t : ℚ)

/-- Comma-separated digit groups consumed greedily by (?:,\d+)* after the
first digit run; the fuel argument (an upper bound on the input length) makes
the recursion structural. -/
def commaGroups : Nat → Str → Str
  | 0, _ => []
  | _ + 1, [] => []
  | fuel + 1, s =>
    match s with
    | ',' :: c :: rest =>
      if c.isDigit then
        ',' :: ((c :: rest).takeWhile Char.isDigit ++
          commaGroups fuel ((c :: rest).dropWhile Char.isDigit))
      else []
    | _ => []

/-- First match of the reviews pattern group (\d+(?:,\d+)*): leftmost digit
run with following comma groups. -/
def firstIntToken : Str → Option Str
  | [] => none
  | c :: rest =>
    if c.isDigit then
      let run := (c :: rest).takeWhile Char.isDigit
      let after := (c :: rest).dropWhile Char.isDigit
      some (run ++ commaGroups after.length after)
    else firstIntToken rest

/-- Characters accepted inside an ASIN ([A-Z0-9]). -/
def asinChar (c : Char) : Bool := ('A' ≤ c && c ≤ 'Z') || c.isDigit

/-- Model of re.search(/dp/([A-Z0-9]{10}), url): the leftmost /dp/ marker
followed by ten ASIN characters. -/
def asinSearch : Str → Option Str
  | '/' :: 'd' :: 'p' :: '/' :: rest =>
    let cand := rest.take 10
    if decide (cand.length = 10) && cand.all asinChar then some cand
    else asinSearch ('d' :: 'p' :: '/' :: rest)
  | _ :: rest => asinSearch rest
  | [] => none

/-! ### Field extraction (_extract_product_data) -/

/-- One extracted product record; each field mirrors a key of the product_data
dict, with none for the Python None. -/
structure ProductRecord where
  title : Option Str
  url : Option Str
  price : Option Str
  rating : Option ℚ
  reviews_count : Option Nat
  image_url : Option String
  asin : Option Str
  search_keyword : Option Str
deriving DecidableEq, Repr

/-- The title selector cascade (src/amazon_scraper.py lines 211-218), one Sel
per CSS selector string in source order. -/
def title_selectors : List Sel :=
  [⟨[⟨some "h2", ["a-size-mini"]⟩], ⟨some "a", ["a-link-normal"]⟩⟩,
   ⟨[⟨some "h2", ["a-size-medium"]⟩], ⟨some "a", ["a-link-normal"]⟩⟩,
   ⟨[⟨some "span", ["a-size-medium"]⟩], ⟨some "a", ["a-link-normal"]⟩⟩,
   ⟨[⟨some "span", ["a-size-base-plus"]⟩], ⟨some "a", ["a-link-normal"]⟩⟩,
   ⟨[⟨some "a", ["a-link-normal"]⟩], ⟨some "h2", []⟩⟩,
   ⟨[⟨some "a", ["a-link-normal"]⟩], ⟨some "span", ["a-text-normal"]⟩⟩]

/-- The price selector cascade (src/amazon_scraper.py lines 245-250). -/
def price_selectors : List Sel :=
  [⟨[⟨some "span", ["a-price"]⟩], ⟨none, ["a-offscreen"]⟩⟩,
   ⟨[], ⟨some "span", ["a-price-whole"]⟩⟩,
   ⟨[], ⟨some "span", ["a-color-base"]⟩⟩,
   ⟨[⟨none, ["a-price"]⟩], ⟨none, ["a-offscreen"]⟩⟩]

/-- The for-loop over title selectors breaking at the first hit. -/
def firstMatch (sels : List Sel) (el : Node) : Option Node :=
  match sels with
  | [] => none
  | s :: rest =>
    match select_one s el with
    | some e => some e
    | none => firstMatch rest el

/-- The for-loop over price selectors: first selector whose matched text,
stripped and cleaned, is non-empty (a hit that cleans to the empty string is
skipped and the cascade continues). -/
def priceLoop (sels : List Sel) (el : Node) : Option Str :=
  match sels with
  | [] => none
  | s :: rest =>
    match select_one s el with
    | some pe =>
      let pt := cleanPrice (pystrip (textContentN pe))
      if pt ≠ [] then some pt else priceLoop rest el
    | none => priceLoop rest el

/-- The fixed site origin self.base_url. -/
def base_url : Str := strL "https://www.amazon.com"

/-- Truthiness of the url field as used by the ASIN branch. -/
def urlTruthy : Option Str → Bool
  | some u => !u.isEmpty
  | none => false

/-- The title element lookup (src/amazon_scraper.py lines 210-227): the
selector cascade, then the broader find fallback. -/
def title_elem_of (el : Node) : Option Node :=
  match firstMatch title_selectors el with
  | some e => some e
  | none => findTagClass el "a" "a-link-normal"

/-- The link element lookup (src/amazon_scraper.py lines 232-235): the title
element itself when it is an anchor, the first generic anchor otherwise. -/
def link_elem_of (el : Node) : Option Node :=
  match title_elem_of el with
  | some e => if nodeName e = "a" then some e else findTagClass el "a" "a-link-normal"
  | none => findTagClass el "a" "a-link-normal"

/-- The url computation (src/amazon_scraper.py lines 237-241): join the href
against the site origin and pass it to the affiliate rewriter.  The outer
Option is the exception channel: none when a ValueError escapes urljoin or
_add_affiliate_tag, some url with the field value otherwise. -/
def url_step (affiliate_id : Str) (el : Node) : Option (Option Str) :=
  match link_elem_of el with
  | some e =>
    match attrOf e "href" with
    | some href =>
      match urljoin base_url (strL href) with
      | none => none
      | some raw =>
        match _add_affiliate_tag affiliate_id raw with
        | none => none
        | some u => some (some u)
    | none => some none
  | none => some none

/-- The rating element lookup (src/amazon_scraper.py lines 265-266). -/
def rating_elem_of (el : Node) : Option Node :=
  match findTagClass el "span" "a-icon-alt" with
  | some e => some e
  | none => select_one ⟨[⟨some "i", ["a-icon-star-small"]⟩], ⟨some "span", ["a-icon-alt"]⟩⟩ el

/-- The rating field (src/amazon_scraper.py lines 267-273): first numeric
token of the element text, coerced to a float. -/
def rating_of (el : Node) : Option ℚ :=
  (rating_elem_of el).bind (fun e => (firstNumToken (pystrip (textContentN e))).map pyFloat)

/-- The reviews element lookup (src/amazon_scraper.py lines 276-277). -/
def reviews_elem_of (el : Node) : Option Node :=
  match findTagClass el "span" "a-size-base" with
  | some e => some e
  | none => select_one ⟨[⟨some "span", ["a-size-small"]⟩], ⟨some "span", ["a-link-normal"]⟩⟩ el

/-- The reviews_count field (src/amazon_scraper.py lines 278-286). -/
def reviews_of (el : Node) : Option Nat :=
  (reviews_elem_of el).bind (fun e =>
    (firstIntToken (pystrip (textContentN e))).map
      (fun t => digitsVal (t.filter (fun c => c ≠ ','))))

/-- The image_url field (src/amazon_scraper.py lines 289-291). -/
def image_of (el : Node) : Option String :=
  (match findTagClass el "img" "s-image" with
   | some e => some e
   | none => findTag el "img").bind (fun e => attrOf e "src")

/-- Model of AmazonScraper._extract_product_data (src/amazon_scraper.py lines
196-304).  The returned none corresponds to the catch-all except: the only
exception reachable in the model is a ValueError escaping urljoin or
_add_affiliate_tag. -/
def _extract_product_data (affiliate_id : Str) (product_element : Node) :
    Option ProductRecord :=
  match url_step affiliate_id product_element with
  | none => none
  | some url =>
    some ⟨(title_elem_of product_element).map (fun e => pystrip (textContentN e)),
      url, priceLoop price_selectors product_element, rating_of product_element,
      reviews_of product_element, image_of product_element,
      (if urlTruthy url then asinSearch (url.getD []) else none), none⟩

/-! ### The search orchestration (search_products) -/

/-- The network and parser, abstracted as an oracle: for a keyword and a
1-based page number, either the parsed page or none when the fetch failed or
returned falsy markup. -/
structure SearchEnv where
  fetch : Str → Nat → Option Node

/-- The next-page probe soup.find(a, aria-label=Go to next page)
(src/amazon_scraper.py line 367). -/
def next_page_of (soup : Node) : Option Node :=
  findTagAttr soup "a" "aria-label" "Go to next page"

/-- Container discovery (src/amazon_scraper.py lines 348-352): the primary
attribute selector, falling back to the class selector when it finds
nothing. -/
def containers_of (soup : Node) : List Node :=
  let products := findAllTagAttr soup "div" "data-component-type" "s-search-result"
  if products.isEmpty then findAllTagClass soup "div" "s-result-item" else products

/-- Truthiness test applied to the extracted record before retention:
product_data and product_data[title]. -/
def titleTruthy (r : ProductRecord) : Bool :=
  match r.title with
  | some t => !t.isEmpty
  | none => false

/-- The inner for-loop over product containers (src/amazon_scraper.py lines
357-364), with the cap check before each extraction. -/
def extractLoop (affiliate_id keyword : Str) (max_products : Nat) :
    List Node → List ProductRecord → List ProductRecord
  | [], acc => acc
  | c :: cs, acc =>
    if max_products ≤ acc.length then acc
    else
      let acc2 :=
        match _extract_product_data affiliate_id c with
        | some r =>
          if titleTruthy r then acc ++ [{ r with search_keyword := some keyword }] else acc
        | none => acc
      extractLoop affiliate_id keyword max_products cs acc2

/-- The per-keyword page loop (src/amazon_scraper.py lines 323-372): fuel
counts the remaining pages of range(1, max_pages + 1); a failed fetch skips to
the next page, a page without a next-page anchor ends the loop after its
containers were processed. -/
def pageLoop (env : SearchEnv) (affiliate_id keyword : Str) (max_products : Nat) :
    Nat → Nat → List ProductRecord → List ProductRecord
  | 0, _, acc => acc
  | fuel + 1, page, acc =>
    if max_products ≤ acc.length then acc
    else
      match env.fetch keyword page with
      | none => pageLoop env affiliate_id keyword max_products fuel (page + 1) acc
      | some soup =>
        let products := containers_of soup
        let acc2 := extractLoop affiliate_id keyword max_products products acc
        match next_page_of soup with
        | none => acc2
        | some _ => pageLoop env affiliate_id keyword max_products fuel (page + 1) acc2

/-- The keyword loop of search_products (src/amazon_scraper.py lines 320-375),
breaking once the global cap is reached. -/
def keywordLoop (env : SearchEnv) (affiliate_id : Str) (max_pages max_products : Nat) :
    List Str → List ProductRecord → List ProductRecord
  | [], acc => acc
  | kw :: rest, acc =>
    let acc2 := pageLoop env affiliate_id kw max_products max_pages 1 acc
    if max_products ≤ acc2.length then acc2
    else keywordLoop env affiliate_id max_pages max_products rest acc2

/-- Model of AmazonScraper.search_products (src/amazon_scraper.py lines
306-378). -/
def search_products (env : SearchEnv) (affiliate_id : Str) (keywords : List Str)
    (max_pages max_products : Nat) : List ProductRecord :=
  keywordLoop env affiliate_id max_pages max_products keywords []

/-! ### The rendered backend (_init_selenium and _selenium_get_page) -/

/-- The scraper state relevant to the rendered backend: the use_selenium flag
and the browser handle (present or absent). -/
structure ScraperState where
  use_selenium : Bool
  driver : Option Unit
deriving DecidableEq, Repr

/-- Model of AmazonScraper._init_selenium (src/amazon_scraper.py lines 74-91):
ok tells whether browser construction succeeded; on failure use_selenium is
cleared and no driver is stored. -/
def _init_selenium (ok : Bool) (st : ScraperState) : ScraperState :=
  if ok then { st with driver := some () }
  else { st with use_selenium := false }

/-- Model of AmazonScraper._selenium_get_page (src/amazon_scraper.py lines
178-194).  The outcome argument abstracts driver.get plus the marker wait:
some src is the rendered page source, none is any raised exception (timeout,
browser error), which the except clause turns into a None result.  The
returned state records that the method mutates neither driver nor
use_selenium. -/
def _selenium_get_page (st : ScraperState) (outcome : Option Str) :
    Option Str × ScraperState :=
  match st.driver with
  | none => (none, st)
  | some _ =>
    match outcome with
    | some src => (some src, st)
    | none => (none, st)

end Scraper

namespace Scraper

/-! ### Derived notions used to state the claims -/

/-- The key-value pairs listed by a dict of parse_qs shape, one pair per
value, in encoding order. -/
def pairsOf (d : List (Str × List Str)) : List (Str × Str) :=
  d.flatMap (fun e => e.2.map (fun v => (e.1, v)))

/-- The query component of a URL string, read off syntactically the way
urlsplit does (text after the first question mark of the part before the
first hash). -/
def queryPart (r : Str) : Str :=
  let r1 := match splitFirst '#' r with
    | some pr => pr.1
    | none => r
  match splitFirst '?' r1 with
  | some pr => pr.2
  | none => []

/-! ### Concrete documents and environments used by witnesses and
counterexamples -/

/-- A container whose only extractable field is a rating element carrying the
stray text 10 (no out-of-5 context). -/
def containerRating10 : Node :=
  .elem "div" [] (nlist [.elem "span" [("class", "a-icon-alt")] (nlist [.text "10"])])

/-- A container with a normally formatted rating element. -/
def containerRating45 : Node :=
  .elem "div" [] (nlist
    [.elem "span" [("class", "a-icon-alt")] (nlist [.text "4.5 out of 5 stars"])])

/-- A container whose price element text cleans to a string with two decimal
points. -/
def containerPriceDots : Node :=
  .elem "div" [] (nlist [.elem "span" [("class", "a-color-base")] (nlist [.text "v1.2.3"])])

/-- A container with a normally formatted price element. -/
def containerPriceNormal : Node :=
  .elem "div" [] (nlist [.elem "span" [("class", "a-color-base")] (nlist [.text "$29.99"])])

/-- A container carrying a data-asin attribute but no link: no title rule and
no anchor matches, so the extracted url is absent. -/
def containerDataAsin : Node :=
  .elem "div" [("data-asin", "B0TESTASIN")] (nlist [.elem "span" [] (nlist [.text "hello"])])

/-- A container with a title reachable through the a.a-link-normal h2 selector
but no href on the anchor, so a record with a title and no url is produced. -/
def titledContainer : Node :=
  .elem "div" [("data-component-type", "s-search-result")] (nlist
    [.elem "a" [("class", "a-link-normal")] (nlist
      [.elem "h2" [] (nlist [.text "Linkless Title"])])])

/-- A parsed page holding ten product containers and a next-page anchor. -/
def pageOf10 : Node :=
  .elem "html" [] (nlist (List.replicate 10 titledContainer ++
    [.elem "a" [("aria-label", "Go to next page")] (nlist [])]))

/-- An environment in which every keyword and page yields the ten-container
page. -/
def envC2 : SearchEnv := ⟨fun _ _ => some pageOf10⟩

/-- The record produced for titledContainer under the keyword kw1. -/
def recTitled : ProductRecord :=
  ⟨some (strL "Linkless Title"), none, none, none, none, none, none, some (strL "kw1")⟩

/-- A parsed page with no product container under either container selector
but with a next-page anchor. -/
def emptyButNext : Node :=
  .elem "html" [] (nlist [.elem "a" [("aria-label", "Go to next page")] (nlist [])])

/-- A parsed page with one titled product container and no next-page anchor. -/
def pageOneProduct : Node :=
  .elem "html" [] (nlist [titledContainer])

/-- An environment whose first page has no containers but advertises a next
page, and whose second page carries one product. -/
def envC6 : SearchEnv :=
  ⟨fun _ page => if page = 1 then some emptyButNext
    else if page = 2 then some pageOneProduct else none⟩

/-- A parsed page with no containers and no next-page anchor. -/
def emptyNoNext : Node := .elem "html" [] (nlist [.elem "p" [] (nlist [.text "nothing"])])

/-- An environment that always returns the empty page. -/
def envEmpty : SearchEnv := ⟨fun _ _ => some emptyNoNext⟩

end Scraper

namespace Scraper

/-! ### Shared helper lemmas about the extractor -/

/-- Destructuring a successful extraction into its field computations. -/
theorem extract_eq_some_iff (aid : Str) (c : Node) (r : ProductRecord)
    (h : _extract_product_data aid c = some r) :
    ∃ url, url_step aid c = some url ∧
      r = ⟨(title_elem_of c).map (fun e => pystrip (textContentN e)), url,
        priceLoop price_selectors c, rating_of c, reviews_of c, image_of c,
        (if urlTruthy url then asinSearch (url.getD []) else none), none⟩ := by
  unfold _extract_product_data at h
  cases hu : url_step aid c with
  | none => rw [hu] at h; exact absurd h (by simp)
  | some url =>
    rw [hu] at h
    exact ⟨url, rfl, (Option.some_inj.mp h).symm⟩

/-- The rating of pyFloat is nonnegative: both branchs are sums and quotients
of nonnegative values. -/
theorem pyFloat_nonneg (t : Str) : 0 ≤ pyFloat t := by
  unfold pyFloat
  split
  · exact add_nonneg (Nat.cast_nonneg _)
      (div_nonneg (Nat.cast_nonneg _) (pow_nonneg (by norm_num) _))
  · exact Nat.cast_nonneg _

/-- A price delivered by the selector cascade is a non-empty cleanup result. -/
theorem priceLoop_chars (sels : List Sel) (el : Node) (p : Str)
    (h : priceLoop sels el = some p) :
    p ≠ [] ∧ ∀ ch ∈ p, ch.isDigit = true ∨ ch = '.' := by
  induction sels with
  | nil => simp [priceLoop] at h
  | cons s rest ih =>
    rw [priceLoop] at h
    cases hso : select_one s el with
    | none => rw [hso] at h; exact ih h
    | some pe =>
      rw [hso] at h
      dsimp only at h
      by_cases hne : cleanPrice (pystrip (textContentN pe)) = []
      · rw [if_neg (not_not_intro hne)] at h
        exact ih h
      · rw [if_pos hne] at h
        obtain rfl := Option.some_inj.mp h
        refine ⟨hne, fun ch hch => ?_⟩
        have := List.of_mem_filter hch
        simp only [keepDigitDot, Bool.or_eq_true] at this
        rcases this with h1 | h1
        · exact Or.inl h1
        · exact Or.inr (by simpa using h1)

end Scraper

namespace Scraper

/-! ### Claim C9: price normalization is idempotent -/

/-- C9: the price normalization (stripping every character that is not a digit
or a decimal point) is idempotent: normalizing a normalized string, in
particular an already-normalized numeric string, returns it unchanged. -/
theorem claim9_normalize_idempotent (s : Str) :
    cleanPrice (cleanPrice s) = cleanPrice s := by
  simp [cleanPrice, List.filter_filter]

/-! ### Claim C3: the rating range -/

/-- C3 counterexample: a container whose rating element text is the stray
token 10 (no out-of-5 context) yields rating 10.0, outside [0.0, 5.0]; the
numeric token is coerced into the field although the expected context is
absent. -/
theorem claim3_counterexample :
    (_extract_product_data (strL "cyberheroes-20") containerRating10).map
      (fun r => r.rating) = some (some 10) ∧ ¬ ((10 : ℚ) ≤ 5) :=
  ⟨rfl, by norm_num⟩

/-- C3 as amended: the rating, when present, is the float of the first numeric
token found in the rating element text, with no out-of-5 context required; it
is always nonnegative but not bounded by 5.0. -/
theorem claim3_rating_nonneg (aid : Str) (c : Node) (r : ProductRecord) (q : ℚ)
    (h : _extract_product_data aid c = some r) (hr : r.rating = some q) : 0 ≤ q := by
  obtain ⟨url, -, rfl⟩ := extract_eq_some_iff aid c r h
  simp only [rating_of, Option.bind_eq_some, Option.map_eq_some'] at hr
  obtain ⟨e, -, t, -, rfl⟩ := hr
  exact pyFloat_nonneg t

/-- C3 witness: the amended theorem applied to a container whose rating text
is 4.5 out of 5 stars. -/
theorem claim3_witness : (0 : ℚ) ≤ pyFloat (strL "4.5") :=
  claim3_rating_nonneg (strL "cyberheroes-20") containerRating45
    ⟨none, none, none, some (pyFloat (strL "4.5")), none, none, none, none⟩
    (pyFloat (strL "4.5")) rfl rfl

/-! ### Claim C5: the ASIN fallback -/

/-- C5 counterexample: a container carrying a data-asin attribute whose
extracted url is absent still gets an absent asin: no data-attribute fallback
exists in the code. -/
theorem claim5_counterexample :
    (_extract_product_data (strL "cyberheroes-20") containerDataAsin).map
      (fun r => (r.url, r.asin)) = some (none, none) ∧
    attrOf containerDataAsin "data-asin" = some "B0TESTASIN" :=
  ⟨rfl, rfl⟩

/-- C5 as amended: whenever the extracted url field is absent, the asin field
is unconditionally absent; no data attribute of the container or of a
descendant is consulted. -/
theorem claim5_url_absent_asin_absent (aid : Str) (c : Node) (r : ProductRecord)
    (h : _extract_product_data aid c = some r) (hu : r.url = none) : r.asin = none := by
  obtain ⟨url, -, rfl⟩ := extract_eq_some_iff aid c r h
  simp only at hu
  subst hu
  rfl

/-- C5 witness: the amended theorem applied to the data-asin container. -/
theorem claim5_witness :
    (⟨none, none, none, none, none, none, none, none⟩ : ProductRecord).asin = none :=
  claim5_url_absent_asin_absent (strL "cyberheroes-20") containerDataAsin
    ⟨none, none, none, none, none, none, none, none⟩ rfl rfl

/-! ### Claim C8: the price shape -/

/-- C8 counterexample: a container whose price element text is v1.2.3 yields
the price 1.2.3, which has two decimal points, not a single one. -/
theorem claim8_counterexample :
    (_extract_product_data (strL "cyberheroes-20") containerPriceDots).map
      (fun r => r.price) = some (some (strL "1.2.3")) ∧
    (strL "1.2.3").count '.' ≠ 1 :=
  ⟨rfl, by decide⟩

/-- C8 as amended: the price, when present, is a non-empty string whose
characters are digits and decimal points, but possibly several points or no
digit at all. -/
theorem claim8_price_chars (aid : Str) (c : Node) (r : ProductRecord) (p : Str)
    (h : _extract_product_data aid c = some r) (hp : r.price = some p) :
    p ≠ [] ∧ ∀ ch ∈ p, ch.isDigit = true ∨ ch = '.' := by
  obtain ⟨url, -, rfl⟩ := extract_eq_some_iff aid c r h
  exact priceLoop_chars price_selectors c p hp

/-- C8 witness: the amended theorem applied to a normally priced container. -/
theorem claim8_witness :
    strL "29.99" ≠ [] ∧ ∀ ch ∈ strL "29.99", ch.isDigit = true ∨ ch = '.' :=
  claim8_price_chars (strL "cyberheroes-20") containerPriceNormal
    ⟨none, none, some (strL "29.99"), none, none, none, none, none⟩ (strL "29.99")
    rfl rfl

/-! ### Claim C7: render failures and backend disabling -/

/-- C7 counterexample: after a rendered fetch failure the state is unchanged
and the very next call attempts rendering again and succeeds, so the backend
is not disabled for the remainder of the run. -/
theorem claim7_counterexample :
    _selenium_get_page ⟨true, some ()⟩ none = (none, ⟨true, some ()⟩) ∧
    _selenium_get_page ⟨true, some ()⟩ (some (strL "page")) =
      (some (strL "page"), ⟨true, some ()⟩) :=
  ⟨rfl, rfl⟩

/-- C7 as amended: a rendered fetch failure reports failure for that call but
mutates nothing, so later calls attempt rendering again (and succeed whenever
the browser succeeds); only a failure inside _init_selenium clears
use_selenium and thereby disables the rendered backend for the run. -/
theorem claim7_failure_not_permanent (st : ScraperState) (src : Str) (outcome : Option Str)
    (h : st.driver = some ()) :
    (_selenium_get_page st outcome).2 = st ∧
    (_selenium_get_page st (some src)).1 = some src ∧
    ∀ st2 : ScraperState, (_init_selenium false st2).use_selenium = false ∧
      (_init_selenium false st2).driver = st2.driver := by
  refine ⟨?_, ?_, fun st2 => ⟨rfl, rfl⟩⟩
  · unfold _selenium_get_page
    rw [h]
    cases outcome <;> rfl
  · unfold _selenium_get_page
    rw [h]

/-- C7 witness: the amended theorem applied to a live-driver state. -/
theorem claim7_witness :
    (_selenium_get_page ⟨true, some ()⟩ none).2 = ⟨true, some ()⟩ ∧
    (_selenium_get_page ⟨true, some ()⟩ (some (strL "page"))).1 = some (strL "page") ∧
    ∀ st2 : ScraperState, (_init_selenium false st2).use_selenium = false ∧
      (_init_selenium false st2).driver = st2.driver :=
  claim7_failure_not_permanent ⟨true, some ()⟩ (strL "page") none rfl

/-! ### Claim C6: termination on empty pages -/

/-- C6 counterexample: a fetched page with zero containers under both
selectors but with a next-page anchor does not terminate the keyword loop:
with such a first page and a productive second page, a record from page two is
returned. -/
theorem claim6_counterexample :
    containers_of emptyButNext = [] ∧
    (search_products envC6 (strL "cyberheroes-20") [strL "k"] 2 50).length = 1 :=
  ⟨rfl, rfl⟩

/-- C6 as amended: a fetched page with zero containers under both selectors
terminates the keyword page loop only when it also lacks a next-page
affordance; in that case the loop stops at that page with the accumulator
unchanged. -/
theorem claim6_empty_page_no_next_stops (env : SearchEnv) (aid kw : Str)
    (mx fuel page : Nat) (acc : List ProductRecord) (soup : Node)
    (hf : env.fetch kw page = some soup) (hc : containers_of soup = [])
    (hn : next_page_of soup = none) :
    pageLoop env aid kw mx (fuel + 1) page acc = acc := by
  rw [pageLoop]
  by_cases hlen : mx ≤ acc.length
  · rw [if_pos hlen]
  · rw [if_neg hlen, hf]
    dsimp only
    rw [hc, hn]
    dsimp only [extractLoop]

/-- C6 witness: the amended theorem applied to an environment serving an
empty page with no next-page anchor. -/
theorem claim6_witness :
    pageLoop envEmpty (strL "a") (strL "k") 50 3 1 [] = [] :=
  claim6_empty_page_no_next_stops envEmpty (strL "a") (strL "k") 50 2 1 []
    emptyNoNext rfl rfl rfl

end Scraper

namespace Scraper

/-! ### Loop invariants for the orchestrator -/

/-- Any property of records granted by retention is preserved by the container
loop. -/
theorem extractLoop_pres (P : ProductRecord → Prop)
    (hadd : ∀ r kw, titleTruthy r = true → P { r with search_keyword := some kw })
    (aid kw : Str) (mx : Nat) :
    ∀ (cs : List Node) (acc : List ProductRecord), (∀ r ∈ acc, P r) →
      ∀ r ∈ extractLoop aid kw mx cs acc, P r := by
  intro cs
  induction cs with
  | nil => intro acc hacc r hr; rw [extractLoop] at hr; exact hacc r hr
  | cons c cs ih =>
    intro acc hacc r hr
    rw [extractLoop] at hr
    by_cases hlen : mx ≤ acc.length
    · rw [if_pos hlen] at hr; exact hacc r hr
    · rw [if_neg hlen] at hr
      dsimp only at hr
      cases hx : _extract_product_data aid c with
      | none => rw [hx] at hr; exact ih acc hacc r hr
      | some r0 =>
        rw [hx] at hr
        dsimp only at hr
        by_cases ht : titleTruthy r0
        · rw [if_pos ht] at hr
          refine ih _ (fun x hx2 => ?_) r hr
          rcases List.mem_append.mp hx2 with h1 | h1
          · exact hacc x h1
          · rw [List.mem_singleton.mp h1]
            exact hadd r0 kw ht
        · rw [if_neg ht] at hr
          exact ih acc hacc r hr

/-- The page loop preserves the retention property. -/
theorem pageLoop_pres (P : ProductRecord → Prop)
    (hadd : ∀ r kw, titleTruthy r = true → P { r with search_keyword := some kw })
    (env : SearchEnv) (aid kw : Str) (mx : Nat) :
    ∀ (fuel page : Nat) (acc : List ProductRecord), (∀ r ∈ acc, P r) →
      ∀ r ∈ pageLoop env aid kw mx fuel page acc, P r := by
  intro fuel
  induction fuel with
  | zero => intro page acc hacc r hr; rw [pageLoop] at hr; exact hacc r hr
  | succ fuel ih =>
    intro page acc hacc r hr
    rw [pageLoop] at hr
    by_cases hlen : mx ≤ acc.length
    · rw [if_pos hlen] at hr; exact hacc r hr
    · rw [if_neg hlen] at hr
      cases hx : env.fetch kw page with
      | none => rw [hx] at hr; exact ih _ acc hacc r hr
      | some soup =>
        rw [hx] at hr
        dsimp only at hr
        have hacc2 := extractLoop_pres P hadd aid kw mx (containers_of soup) acc hacc
        cases hn : next_page_of soup with
        | none => rw [hn] at hr; exact hacc2 r hr
        | some a => rw [hn] at hr; exact ih _ _ hacc2 r hr

/-- The keyword loop preserves the retention property. -/
theorem keywordLoop_pres (P : ProductRecord → Prop)
    (hadd : ∀ r kw, titleTruthy r = true → P { r with search_keyword := some kw })
    (env : SearchEnv) (aid : Str) (mp mx : Nat) :
    ∀ (kws : List Str) (acc : List ProductRecord), (∀ r ∈ acc, P r) →
      ∀ r ∈ keywordLoop env aid mp mx kws acc, P r := by
  intro kws
  induction kws with
  | nil => intro acc hacc r hr; rw [keywordLoop] at hr; exact hacc r hr
  | cons kw kws ih =>
    intro acc hacc r hr
    rw [keywordLoop] at hr
    have hacc2 := pageLoop_pres P hadd env aid kw mx mp 1 acc hacc
    by_cases hlen : mx ≤ (pageLoop env aid kw mx mp 1 acc).length
    · rw [if_pos hlen] at hr; exact hacc2 r hr
    · rw [if_neg hlen] at hr; exact ih _ hacc2 r hr

/-- The container loop never grows the accumulator beyond the cap. -/
theorem extractLoop_len (aid kw : Str) (mx : Nat) :
    ∀ (cs : List Node) (acc : List ProductRecord), acc.length ≤ mx →
      (extractLoop aid kw mx cs acc).length ≤ mx := by
  intro cs
  induction cs with
  | nil => intro acc h; rw [extractLoop]; exact h
  | cons c cs ih =>
    intro acc h
    rw [extractLoop]
    by_cases hlen : mx ≤ acc.length
    · rw [if_pos hlen]; exact h
    · rw [if_neg hlen]
      refine ih _ ?_
      have hlt : acc.length < mx := Nat.lt_of_not_le hlen
      cases _extract_product_data aid c with
      | none => exact h
      | some r0 =>
        by_cases ht : titleTruthy r0
        · simp only [if_pos ht, List.length_append, List.length_singleton]
          omega
        · simp only [if_neg ht]; exact h

/-- The page loop never grows the accumulator beyond the cap. -/
theorem pageLoop_len (env : SearchEnv) (aid kw : Str) (mx : Nat) :
    ∀ (fuel page : Nat) (acc : List ProductRecord), acc.length ≤ mx →
      (pageLoop env aid kw mx fuel page acc).length ≤ mx := by
  intro fuel
  induction fuel with
  | zero => intro page acc h; rw [pageLoop]; exact h
  | succ fuel ih =>
    intro page acc h
    rw [pageLoop]
    by_cases hlen : mx ≤ acc.length
    · rw [if_pos hlen]; exact h
    · rw [if_neg hlen]
      cases env.fetch kw page with
      | none => exact ih _ acc h
      | some soup =>
        dsimp only
        have h2 := extractLoop_len aid kw mx (containers_of soup) acc h
        cases next_page_of soup with
        | none => exact h2
        | some a => exact ih _ _ h2

/-- The keyword loop never grows the accumulator beyond the cap. -/
theorem keywordLoop_len (env : SearchEnv) (aid : Str) (mp mx : Nat) :
    ∀ (kws : List Str) (acc : List ProductRecord), acc.length ≤ mx →
      (keywordLoop env aid mp mx kws acc).length ≤ mx := by
  intro kws
  induction kws with
  | nil => intro acc h; rw [keywordLoop]; exact h
  | cons kw kws ih =>
    intro acc h
    rw [keywordLoop]
    have h2 := pageLoop_len env aid kw mx mp 1 acc h
    by_cases hlen : mx ≤ (pageLoop env aid kw mx mp 1 acc).length
    · rw [if_pos hlen]; exact h2
    · rw [if_neg hlen]; exact ih _ h2

/-! ### Claim C1: every returned record has a non-empty title -/

/-- C1: every record returned by search_products carries a present, non-empty
title; a container for which no title rule yields text is filtered out before
retention, so no returned record lacks a title. -/
theorem claim1_titles_present (env : SearchEnv) (aid : Str) (keywords : List Str)
    (mp mx : Nat) (r : ProductRecord)
    (h : r ∈ search_products env aid keywords mp mx) :
    ∃ t, r.title = some t ∧ t ≠ [] := by
  refine keywordLoop_pres (fun r => ∃ t, r.title = some t ∧ t ≠ [])
    (fun r0 kw ht => ?_) env aid mp mx keywords [] (by simp) r h
  unfold titleTruthy at ht
  cases htt : r0.title with
  | none => rw [htt] at ht; exact absurd ht (by simp)
  | some t =>
    rw [htt] at ht
    exact ⟨t, by simp [htt], by simpa using ht⟩

/-- C1 witness: the theorem applied to a record returned in the concrete
ten-container environment. -/
theorem claim1_witness : ∃ t, recTitled.title = some t ∧ t ≠ [] :=
  claim1_titles_present envC2 (strL "cyberheroes-20") [strL "kw1", strL "kw2"] 3 5
    recTitled (by decide)

/-! ### Claim C2: the global product cap -/

/-- C2: search_products never returns more than maxProducts records, for every
environment, keyword list and cap; and in the concrete scenario with
maxProducts 5 and two keywords whose pages each hold ten titled containers,
exactly five records are returned, all tagged with the first keyword (the
second keyword is never consulted because the loop stops at the cap). -/
theorem claim2_cap_and_scenario :
    (∀ (env : SearchEnv) (aid : Str) (kws : List Str) (mp mx : Nat),
      (search_products env aid kws mp mx).length ≤ mx) ∧
    (search_products envC2 (strL "cyberheroes-20") [strL "kw1", strL "kw2"] 3 5).length = 5 ∧
    (search_products envC2 (strL "cyberheroes-20") [strL "kw1", strL "kw2"] 3 5).all
      (fun r => r.search_keyword == some (strL "kw1")) = true := by
  refine ⟨fun env aid kws mp mx => ?_, rfl, rfl⟩
  exact keywordLoop_len env aid mp mx kws [] (by simp)

end Scraper

namespace Scraper

/-! ### Lemmas about splitFirst, splitLastChar and takeWhile -/

/-- Characterization of a successful splitFirst. -/
theorem splitFirst_eq_some {c : Char} :
    ∀ {l a b : Str}, splitFirst c l = some (a, b) → l = a ++ c :: b ∧ c ∉ a := by
  intro l
  induction l with
  | nil => intro a b h; exact absurd h (by simp [splitFirst])
  | cons x xs ih =>
    intro a b h
    rw [splitFirst] at h
    by_cases hx : x = c
    · rw [if_pos hx] at h
      obtain ⟨rfl, rfl⟩ := Prod.mk.injEq .. ▸ Option.some_inj.mp h
      simpa using hx
    · rw [if_neg hx] at h
      cases hs : splitFirst c xs with
      | none => rw [hs] at h; exact absurd h (by simp)
      | some p =>
        rw [hs] at h
        obtain ⟨ha, hb⟩ := Prod.mk.injEq .. ▸ Option.some_inj.mp h
        obtain ⟨h1, h2⟩ := ih hs
        subst hb
        rw [← ha]
        constructor
        · simp [h1]
        · simp only [List.mem_cons, not_or]
          exact ⟨fun hcc => hx hcc.symm, h2⟩

/-- A failing splitFirst means the character is absent. -/
theorem splitFirst_eq_none {c : Char} :
    ∀ {l : Str}, splitFirst c l = none → c ∉ l := by
  intro l
  induction l with
  | nil => intro _; simp
  | cons x xs ih =>
    intro h
    rw [splitFirst] at h
    by_cases hx : x = c
    · rw [if_pos hx] at h; exact absurd h (by simp)
    · rw [if_neg hx] at h
      cases hs : splitFirst c xs with
      | none =>
        simp only [List.mem_cons, not_or]
        exact ⟨fun hcc => hx hcc.symm, ih hs⟩
      | some p => rw [hs] at h; exact absurd h (by simp)

/-- Computing splitFirst on a decomposed list. -/
theorem splitFirst_of_not_mem {c : Char} :
    ∀ {a : Str}, c ∉ a → ∀ b, splitFirst c (a ++ c :: b) = some (a, b) := by
  intro a
  induction a with
  | nil => intro _ b; simp [splitFirst]
  | cons x xs ih =>
    intro h b
    simp only [List.mem_cons, not_or] at h
    rw [List.cons_append, splitFirst, if_neg (fun hx => h.1 hx.symm), ih h.2 b]
    rfl

/-- Computing a failing splitFirst. -/
theorem splitFirst_none_of_not_mem {c : Char} :
    ∀ {l : Str}, c ∉ l → splitFirst c l = none := by
  intro l
  induction l with
  | nil => intro _; rfl
  | cons x xs ih =>
    intro h
    simp only [List.mem_cons, not_or] at h
    rw [splitFirst, if_neg (fun hx => h.1 hx.symm), ih h.2]
    rfl

/-- takeWhile over a satisfying prefix followed by a failing head. -/
theorem takeWhile_all_append {p : Char → Bool} :
    ∀ {a : Str}, (∀ x ∈ a, p x = true) → ∀ {x r}, p x = false →
      (a ++ x :: r).takeWhile p = a := by
  intro a
  induction a with
  | nil => intro _ x r hx; simp [List.takeWhile, hx]
  | cons y ys ih =>
    intro ha x r hx
    rw [List.cons_append, List.takeWhile_cons]
    simp only [ha y (by simp), if_true]
    rw [ih (fun z hz => ha z (by simp [hz])) hx]

/-- dropWhile over a satisfying prefix followed by a failing head. -/
theorem dropWhile_all_append {p : Char → Bool} :
    ∀ {a : Str}, (∀ x ∈ a, p x = true) → ∀ {x r}, p x = false →
      (a ++ x :: r).dropWhile p = x :: r := by
  intro a
  induction a with
  | nil => intro _ x r hx; simp [List.dropWhile, hx]
  | cons y ys ih =>
    intro ha x r hx
    rw [List.cons_append, List.dropWhile_cons_of_pos (ha y (by simp))]
    exact ih (fun z hz => ha z (by simp [hz])) hx

/-- takeWhile of an entirely satisfying list. -/
theorem takeWhile_of_all {p : Char → Bool} :
    ∀ {a : Str}, (∀ x ∈ a, p x = true) → a.takeWhile p = a := by
  intro a
  induction a with
  | nil => intro _; rfl
  | cons y ys ih =>
    intro ha
    rw [List.takeWhile_cons]
    simp only [ha y (by simp), if_true]
    rw [ih (fun z hz => ha z (by simp [hz]))]

/-- dropWhile of an entirely satisfying list. -/
theorem dropWhile_of_all {p : Char → Bool} :
    ∀ {a : Str}, (∀ x ∈ a, p x = true) → a.dropWhile p = [] := by
  intro a
  induction a with
  | nil => intro _; rfl
  | cons y ys ih =>
    intro ha
    rw [List.dropWhile_cons_of_pos (ha y (by simp))]
    exact ih (fun z hz => ha z (by simp [hz]))

end Scraper

namespace Scraper

/-! ### The alphabet of quote_plus and urlencode output -/

/-- Valid code point bound extracted from the Char invariant. -/
theorem char_toNat_valid (c : Char) :
    c.toNat < 55296 ∨ (57344 ≤ c.toNat ∧ c.toNat < 1114112) := by
  have h := c.valid
  unfold UInt32.isValidChar Nat.isValidChar at h
  exact h

/-- Code points are below the Unicode bound. -/
theorem char_toNat_lt (c : Char) : c.toNat < 1114112 := by
  rcases char_toNat_valid c with h | h
  · omega
  · exact h.2

/-- Alphanumeric characters are ASCII. -/
theorem alphanum_ascii {c : Char} (h : c.isAlphanum = true) : c.toNat < 128 := by
  simp only [Char.isAlphanum, Char.isAlpha, Char.isDigit, Char.isUpper, Char.isLower,
    Bool.or_eq_true, Bool.and_eq_true, decide_eq_true_eq, UInt32.le_def,
    BitVec.le_def] at h
  have hg : c.toNat = c.val.toBitVec.toNat := rfl
  rw [hg]
  rcases h with (⟨h1, h2⟩ | ⟨h1, h2⟩) | ⟨h1, h2⟩ <;>
    · simp only [show (UInt32.toBitVec 90).toNat = 90 from rfl,
        show (UInt32.toBitVec 122).toNat = 122 from rfl,
        show (UInt32.toBitVec 57).toNat = 57 from rfl] at h2
      omega

/-- The bytes of a UTF-8 encoding are below 256. -/
theorem utf8EncodeChar_lt_256 {n : Nat} (hn : n < 1114112) :
    ∀ b ∈ utf8EncodeChar n, b < 256 := by
  intro b hb
  unfold utf8EncodeChar at hb
  split at hb
  · simp only [List.mem_singleton] at hb; omega
  · split at hb
    · simp only [List.mem_cons, List.mem_singleton, List.not_mem_nil, or_false] at hb
      rcases hb with rfl | rfl <;> omega
    · split at hb
      · simp only [List.mem_cons, List.mem_singleton, List.not_mem_nil, or_false] at hb
        rcases hb with rfl | rfl | rfl <;> omega
      · simp only [List.mem_cons, List.mem_singleton, List.not_mem_nil, or_false] at hb
        rcases hb with rfl | rfl | rfl | rfl <;> omega

/-- Hex digits emitted by percentHex are alphanumeric. -/
theorem hexUp_alphanum {x : Nat} (hx : x < 16) : (hexUp x).isAlphanum = true := by
  interval_cases x <;> decide

/-- Hex digits emitted by percentHex are accepted by unquote. -/
theorem isHexDig_hexUp {x : Nat} (hx : x < 16) : isHexDig (hexUp x) = true := by
  interval_cases x <;> decide

/-- Unquoting recovers the value of an emitted hex digit. -/
theorem hexDigitVal_hexUp {x : Nat} (hx : x < 16) : hexDigitVal (hexUp x) = x := by
  interval_cases x <;> decide

/-- Characters of one quoted chunk: alphanumeric or one of the six marks. -/
theorem mem_quotePlusChar {d c : Char} (h : c ∈ quotePlusChar d) :
    c.isAlphanum = true ∨ c ∈ ['_', '.', '-', '~', '+', '%'] := by
  unfold quotePlusChar at h
  split at h
  · next hsafe =>
    rw [List.mem_singleton.mp h]
    simp only [isAlwaysSafe, Bool.or_eq_true, decide_eq_true_eq] at hsafe
    rcases hsafe with (((h1 | h1) | h1) | h1) | h1
    · exact Or.inl h1
    all_goals subst h1
    all_goals simp
  · split at h
    · rw [List.mem_singleton.mp h]; simp
    · rw [List.mem_flatMap] at h
      obtain ⟨b, hb, hcb⟩ := h
      have hb256 := utf8EncodeChar_lt_256 (char_toNat_lt d) b hb
      unfold percentHex at hcb
      simp only [List.mem_cons, List.mem_singleton, List.not_mem_nil, or_false] at hcb
      rcases hcb with rfl | rfl | rfl
      · simp
      · exact Or.inl (hexUp_alphanum (by omega))
      · exact Or.inl (hexUp_alphanum (by omega))

/-- Characters of a quoted string: alphanumeric or one of the six marks. -/
theorem mem_quote_plus {s : Str} {c : Char} (h : c ∈ quote_plus s) :
    c.isAlphanum = true ∨ c ∈ ['_', '.', '-', '~', '+', '%'] := by
  rw [quote_plus, List.mem_flatMap] at h
  obtain ⟨d, _, hd⟩ := h
  exact mem_quotePlusChar hd

/-- A character that is neither alphanumeric nor one of the six marks never
appears in quote_plus output. -/
theorem not_mem_quote_plus {s : Str} {c : Char} (h1 : c.isAlphanum = false)
    (h2 : c ∉ (['_', '.', '-', '~', '+', '%'] : List Char)) : c ∉ quote_plus s := by
  intro hc
  rcases mem_quote_plus hc with h | h
  · rw [h1] at h; exact absurd h (by simp)
  · exact h2 h

/-- Quoting a non-empty string yields a non-empty string. -/
theorem quote_plus_ne_nil {s : Str} (h : s ≠ []) : quote_plus s ≠ [] := by
  cases s with
  | nil => exact absurd rfl h
  | cons c cs =>
    rw [quote_plus, List.flatMap_cons]
    intro hx
    rcases List.append_eq_nil.mp hx with ⟨h1, -⟩
    unfold quotePlusChar at h1
    split at h1
    · exact absurd h1 (by simp)
    · split at h1
      · exact absurd h1 (by simp)
      · have hnil := List.flatMap_eq_nil_iff.mp h1
        have hmem : (utf8EncodeChar c.toNat) ≠ [] := by
          unfold utf8EncodeChar
          split
          · simp
          · split
            · simp
            · split <;> simp
        cases hb : utf8EncodeChar c.toNat with
        | nil => exact hmem hb
        | cons b bs =>
          have := hnil b (by rw [hb]; simp)
          exact absurd this (by simp [percentHex])

/-- Membership in a joinSep list. -/
theorem mem_joinSep {sep : Char} {c : Char} :
    ∀ {parts : List Str}, c ∈ joinSep sep parts → c = sep ∨ ∃ p ∈ parts, c ∈ p := by
  intro parts
  induction parts with
  | nil => intro h; exact absurd h (by simp [joinSep])
  | cons f fs ih =>
    intro h
    cases fs with
    | nil =>
      exact Or.inr ⟨f, by simp, h⟩
    | cons g gs =>
      have he : joinSep sep (f :: g :: gs) = f ++ sep :: joinSep sep (g :: gs) := rfl
      rw [he] at h
      rcases List.mem_append.mp h with h1 | h1
      · exact Or.inr ⟨f, by simp, h1⟩
      · rcases List.mem_cons.mp h1 with rfl | h2
        · exact Or.inl rfl
        · rcases ih h2 with h3 | ⟨p, hp, hcp⟩
          · exact Or.inl h3
          · exact Or.inr ⟨p, by simp [hp], hcp⟩

/-- Characters of urlencode output: the quote alphabet plus the two
separators. -/
theorem mem_urlencode {d : List (Str × List Str)} {c : Char} (h : c ∈ urlencode d) :
    c.isAlphanum = true ∨ c ∈ ['_', '.', '-', '~', '+', '%', '&', '='] := by
  unfold urlencode at h
  rcases mem_joinSep h with rfl | ⟨p, hp, hcp⟩
  · simp
  · rw [List.mem_flatMap] at hp
    obtain ⟨e, -, hpe⟩ := hp
    rw [List.mem_map] at hpe
    obtain ⟨v, -, rfl⟩ := hpe
    rcases List.mem_append.mp hcp with h1 | h1
    · rcases mem_quote_plus h1 with h2 | h2
      · exact Or.inl h2
      · right; simp at h2 ⊢; tauto
    · rcases List.mem_cons.mp h1 with rfl | h2
      · simp
      · rcases mem_quote_plus h2 with h3 | h3
        · exact Or.inl h3
        · right; simp at h3 ⊢; tauto

/-- A character outside the urlencode alphabet never appears in its output. -/
theorem not_mem_urlencode {d : List (Str × List Str)} {c : Char} (h1 : c.isAlphanum = false)
    (h2 : c ∉ (['_', '.', '-', '~', '+', '%', '&', '='] : List Char)) :
    c ∉ urlencode d := by
  intro hc
  rcases mem_urlencode hc with h | h
  · rw [h1] at h; exact absurd h (by simp)
  · exact h2 h

end Scraper

namespace Scraper

/-! ### The UTF-8 round trip -/

/-- Unfolding one decoder step. -/
theorem utf8DecodeFrom_cons (st : Utf8State) (b : Nat) (bs : List Nat) :
    utf8DecodeFrom st (b :: bs) =
      (utf8Step st b).1 ++ utf8DecodeFrom (utf8Step st b).2 bs := rfl

/-- The decoder step in the start state. -/
theorem utf8Step_start (b : Nat) : utf8Step .start b = utf8Lead b := rfl

/-- The final continuation byte of a sequence. -/
theorem utf8Step_need_last {val lo hi b : Nat} (h1 : lo ≤ b) (h2 : b < hi) :
    utf8Step (.need val 1 lo hi) b = ([Char.ofNat (val * 64 + (b - 128))], .start) := by
  simp only [utf8Step]
  rw [if_pos (by simp [h1, h2])]
  simp

/-- An intermediate continuation byte of a sequence. -/
theorem utf8Step_need_more {val k lo hi b : Nat} (h1 : lo ≤ b) (h2 : b < hi) (hk : k ≠ 1) :
    utf8Step (.need val k lo hi) b = ([], .need (val * 64 + (b - 128)) (k - 1) 128 192) := by
  simp only [utf8Step]
  rw [if_pos (by simp [h1, h2]), if_neg hk]

/-- Lead classification of an ASCII byte. -/
theorem utf8Lead_ascii {b : Nat} (h : b < 128) : utf8Lead b = ([Char.ofNat b], .start) := by
  unfold utf8Lead; rw [if_pos h]

/-- Lead classification of a two-byte lead. -/
theorem utf8Lead_two {b : Nat} (h1 : 194 ≤ b) (h2 : b < 224) :
    utf8Lead b = ([], .need (b - 192) 1 128 192) := by
  unfold utf8Lead
  rw [if_neg (by omega), if_neg (by omega), if_pos h2]

/-- Lead classification of a three-byte lead. -/
theorem utf8Lead_three {b : Nat} (h1 : 224 ≤ b) (h2 : b < 240) :
    utf8Lead b = ([], .need (b - 224) 2 (if b = 224 then 160 else 128)
      (if b = 237 then 160 else 192)) := by
  unfold utf8Lead
  rw [if_neg (by omega), if_neg (by omega), if_neg (by omega), if_pos h2]

/-- Lead classification of a four-byte lead. -/
theorem utf8Lead_four {b : Nat} (h1 : 240 ≤ b) (h2 : b < 245) :
    utf8Lead b = ([], .need (b - 240) 3 (if b = 240 then 144 else 128)
      (if b = 244 then 144 else 192)) := by
  unfold utf8Lead
  rw [if_neg (by omega), if_neg (by omega), if_neg (by omega), if_neg (by omega), if_pos h2]

/-- Decoding the encoding of one character peels it off exactly. -/
theorem utf8DecodeFrom_encode (c : Char) (bs : List Nat) :
    utf8DecodeFrom .start (utf8EncodeChar c.toNat ++ bs) =
      c :: utf8DecodeFrom .start bs := by
  have hv := char_toNat_valid c
  have hofnat : Char.ofNat c.toNat = c := Char.ofNat_toNat c
  by_cases h1 : c.toNat < 128
  · rw [utf8EncodeChar, if_pos h1]
    rw [List.cons_append, List.nil_append, utf8DecodeFrom_cons, utf8Step_start,
      utf8Lead_ascii h1]
    rw [hofnat]
    rfl
  · by_cases h2 : c.toNat < 2048
    · rw [utf8EncodeChar, if_neg h1, if_pos h2]
      rw [List.cons_append, List.cons_append, List.nil_append]
      rw [utf8DecodeFrom_cons, utf8Step_start, utf8Lead_two (by omega) (by omega)]
      have e1 : 192 + c.toNat / 64 - 192 = c.toNat / 64 := by omega
      rw [e1, List.nil_append, utf8DecodeFrom_cons,
        utf8Step_need_last (by omega) (by omega)]
      have e2 : c.toNat / 64 * 64 + (128 + c.toNat % 64 - 128) = c.toNat := by omega
      rw [e2, hofnat]
      rfl
    · by_cases h3 : c.toNat < 65536
      · rw [utf8EncodeChar, if_neg h1, if_neg h2, if_pos h3]
        rw [List.cons_append, List.cons_append, List.cons_append, List.nil_append]
        rw [utf8DecodeFrom_cons, utf8Step_start, utf8Lead_three (by omega) (by omega)]
        have e1 : 224 + c.toNat / 4096 - 224 = c.toNat / 4096 := by omega
        rw [e1, List.nil_append, utf8DecodeFrom_cons]
        have hlo : (if 224 + c.toNat / 4096 = 224 then 160 else 128) ≤ 128 + c.toNat / 64 % 64 := by
          by_cases hb : 224 + c.toNat / 4096 = 224
          · rw [if_pos hb]; omega
          · rw [if_neg hb]; omega
        have hhi : 128 + c.toNat / 64 % 64 < (if 224 + c.toNat / 4096 = 237 then 160 else 192) := by
          by_cases hb : 224 + c.toNat / 4096 = 237
          · rw [if_pos hb]
            rcases hv with hv1 | hv2
            · omega
            · omega
          · rw [if_neg hb]; omega
        rw [utf8Step_need_more hlo hhi (by omega)]
        have e2 : c.toNat / 4096 * 64 + (128 + c.toNat / 64 % 64 - 128) =
            c.toNat / 4096 * 64 + c.toNat / 64 % 64 := by omega
        rw [e2, List.nil_append, utf8DecodeFrom_cons,
          utf8Step_need_last (by omega) (by omega)]
        have e3 : (c.toNat / 4096 * 64 + c.toNat / 64 % 64) * 64 + (128 + c.toNat % 64 - 128) =
            c.toNat := by omega
        rw [e3, hofnat]
        rfl
      · have h4 : c.toNat < 1114112 := char_toNat_lt c
        rw [utf8EncodeChar, if_neg h1, if_neg h2, if_neg h3]
        rw [List.cons_append, List.cons_append, List.cons_append, List.cons_append,
          List.nil_append]
        rw [utf8DecodeFrom_cons, utf8Step_start, utf8Lead_four (by omega) (by omega)]
        have e1 : 240 + c.toNat / 262144 - 240 = c.toNat / 262144 := by omega
        rw [e1, List.nil_append, utf8DecodeFrom_cons]
        have hlo : (if 240 + c.toNat / 262144 = 240 then 144 else 128) ≤
            128 + c.toNat / 4096 % 64 := by
          by_cases hb : 240 + c.toNat / 262144 = 240
          · rw [if_pos hb]; omega
          · rw [if_neg hb]; omega
        have hhi : 128 + c.toNat / 4096 % 64 <
            (if 240 + c.toNat / 262144 = 244 then 144 else 192) := by
          by_cases hb : 240 + c.toNat / 262144 = 244
          · rw [if_pos hb]; omega
          · rw [if_neg hb]; omega
        rw [utf8Step_need_more hlo hhi (by omega)]
        have e2 : c.toNat / 262144 * 64 + (128 + c.toNat / 4096 % 64 - 128) =
            c.toNat / 262144 * 64 + c.toNat / 4096 % 64 := by omega
        rw [e2, List.nil_append, utf8DecodeFrom_cons,
          utf8Step_need_more (by omega : 128 ≤ 128 + c.toNat / 64 % 64) (by omega) (by omega)]
        have e3 : (c.toNat / 262144 * 64 + c.toNat / 4096 % 64) * 64 +
            (128 + c.toNat / 64 % 64 - 128) =
            c.toNat / 262144 * 4096 + c.toNat / 4096 % 64 * 64 + c.toNat / 64 % 64 := by omega
        rw [e3, List.nil_append, utf8DecodeFrom_cons,
          utf8Step_need_last (by omega) (by omega)]
        have e4 : (c.toNat / 262144 * 4096 + c.toNat / 4096 % 64 * 64 + c.toNat / 64 % 64) * 64 +
            (128 + c.toNat % 64 - 128) = c.toNat := by omega
        rw [e4, hofnat]
        rfl

/-- Decoding the concatenated encodings of a character list recovers it. -/
theorem utf8_decode_encode (cs : List Char) :
    utf8DecodeReplace (cs.flatMap (fun c => utf8EncodeChar c.toNat)) = cs := by
  induction cs with
  | nil => rfl
  | cons c cs ih =>
    rw [List.flatMap_cons, utf8DecodeReplace, utf8DecodeFrom_encode]
    rw [utf8DecodeReplace] at ih
    rw [ih]

end Scraper

namespace Scraper

/-! ### The unquote-quote round trip -/

/-- Safe characters are ASCII. -/
theorem isAlwaysSafe_ascii {c : Char} (h : isAlwaysSafe c = true) : c.toNat < 128 := by
  simp only [isAlwaysSafe, Bool.or_eq_true, decide_eq_true_eq] at h
  rcases h with (((h1 | h1) | h1) | h1) | h1
  · exact alphanum_ascii h1
  all_goals subst h1
  all_goals decide

/-- The percent sign is not a safe character, so a safe character never equals
it. -/
theorem isAlwaysSafe_ne_pct {c : Char} (h : isAlwaysSafe c = true) : c ≠ '%' := by
  intro hc
  subst hc
  exact absurd h (by decide)

/-- The plus sign is not a safe character. -/
theorem isAlwaysSafe_ne_plus {c : Char} (h : isAlwaysSafe c = true) : c ≠ '+' := by
  intro hc
  subst hc
  exact absurd h (by decide)

/-- Scanner step on an ASCII character other than the percent sign. -/
theorem unquoteAux_ascii_step {c : Char} (h1 : c.toNat < 128) (h2 : c ≠ '%')
    (acc : List Nat) (rest : Str) :
    unquoteAux acc (c :: rest) = unquoteAux (c.toNat :: acc) rest := by
  rw [unquoteAux.eq_3 acc c rest (fun a b r hc _ => h2 hc)]
  rw [if_neg (by omega)]

/-- Scanner step on one emitted percent escape: the byte is recovered. -/
theorem unquoteAux_percentHex (bt : Nat) (h : bt < 256) (acc : List Nat) (tail : Str) :
    unquoteAux acc (percentHex bt ++ tail) = unquoteAux (bt :: acc) tail := by
  show unquoteAux acc ('%' :: hexUp (bt / 16) :: hexUp (bt % 16) :: tail) = _
  simp only [unquoteAux]
  rw [if_pos (by simp [isHexDig_hexUp (by omega : bt / 16 < 16),
    isHexDig_hexUp (by omega : bt % 16 < 16)])]
  rw [hexDigitVal_hexUp (by omega : bt / 16 < 16), hexDigitVal_hexUp (by omega : bt % 16 < 16)]
  have e : bt / 16 * 16 + bt % 16 = bt := by omega
  rw [e]

/-- Scanner pass over a block of emitted percent escapes. -/
theorem unquoteAux_bytes (bts : List Nat) (h : ∀ b ∈ bts, b < 256) :
    ∀ (acc : List Nat) (tail : Str),
      unquoteAux acc (bts.flatMap percentHex ++ tail) = unquoteAux (bts.reverse ++ acc) tail := by
  induction bts with
  | nil => intro acc tail; simp
  | cons b bs ih =>
    intro acc tail
    rw [List.flatMap_cons, List.append_assoc, unquoteAux_percentHex b (h b (by simp))]
    rw [ih (fun x hx => h x (by simp [hx])) (b :: acc)]
    simp [List.append_assoc]

/-- Scanner pass over the whole quoted string, accumulating exactly the UTF-8
bytes of the original. -/
theorem unquoteAux_quote (s : Str) : ∀ acc : List Nat,
    unquoteAux acc ((quote_plus s).map plusToSpace) =
      utf8DecodeReplace (acc.reverse ++ s.flatMap (fun c => utf8EncodeChar c.toNat)) := by
  induction s with
  | nil =>
    intro acc
    simp only [quote_plus, List.flatMap_nil, List.map_nil, List.append_nil]
    rw [unquoteAux]
  | cons c cs ih =>
    intro acc
    rw [quote_plus, List.flatMap_cons, List.map_append, ← quote_plus]
    by_cases hsafe : isAlwaysSafe c = true
    · have hchunk : (quotePlusChar c).map plusToSpace = [c] := by
        rw [quotePlusChar, if_pos hsafe]
        simp [plusToSpace, isAlwaysSafe_ne_plus hsafe]
      rw [hchunk, List.singleton_append,
        unquoteAux_ascii_step (isAlwaysSafe_ascii hsafe) (isAlwaysSafe_ne_pct hsafe)]
      rw [ih (c.toNat :: acc)]
      rw [List.flatMap_cons]
      have he : utf8EncodeChar c.toNat = [c.toNat] := by
        rw [utf8EncodeChar, if_pos (isAlwaysSafe_ascii hsafe)]
      rw [he]
      simp [List.append_assoc]
    · by_cases hsp : c = ' '
      · subst hsp
        have hchunk : (quotePlusChar ' ').map plusToSpace = [' '] := by decide
        rw [hchunk, List.singleton_append,
          unquoteAux_ascii_step (by decide) (by decide),
          show (' ').toNat = 32 from rfl]
        rw [ih (32 :: acc), List.flatMap_cons]
        have he : utf8EncodeChar (' ').toNat = [32] := by decide
        rw [he]
        simp [List.append_assoc]
      · have hchunk : (quotePlusChar c).map plusToSpace =
            (utf8EncodeChar c.toNat).flatMap percentHex := by
          rw [quotePlusChar, if_neg (by simp [hsafe]), if_neg hsp]
          have hnp : ∀ x ∈ (utf8EncodeChar c.toNat).flatMap percentHex, plusToSpace x = x := by
            intro x hx
            rw [List.mem_flatMap] at hx
            obtain ⟨b, hb, hxb⟩ := hx
            have hb256 := utf8EncodeChar_lt_256 (char_toNat_lt c) b hb
            unfold percentHex at hxb
            simp only [List.mem_cons, List.mem_singleton, List.not_mem_nil, or_false] at hxb
            have hplus : x ≠ '+' := by
              rcases hxb with rfl | rfl | rfl
              · decide
              · have := hexUp_alphanum (by omega : b / 16 < 16)
                intro hx2; rw [hx2] at this; exact absurd this (by decide)
              · have := hexUp_alphanum (by omega : b % 16 < 16)
                intro hx2; rw [hx2] at this; exact absurd this (by decide)
            simp [plusToSpace, hplus]
          exact List.map_congr_left hnp ▸ (List.map_id _) ▸ rfl
        rw [hchunk, unquoteAux_bytes _ (utf8EncodeChar_lt_256 (char_toNat_lt c))]
        rw [ih _, List.flatMap_cons]
        simp [List.append_assoc]

/-- The fundamental round trip: unquote_plus inverts quote_plus. -/
theorem unquote_plus_quote_plus (s : Str) : unquote_plus (quote_plus s) = s := by
  rw [unquote_plus, unquote, unquoteAux_quote s []]
  simpa using utf8_decode_encode s

end Scraper

namespace Scraper

/-! ### parse_qsl inverts urlencode -/

/-- splitOnSep of a separator-free string is one fragment. -/
theorem splitOnSep_of_not_mem {sep : Char} :
    ∀ {f : Str}, sep ∉ f → splitOnSep sep f = [f] := by
  intro f
  induction f with
  | nil => intro _; rfl
  | cons x xs ih =>
    intro h
    simp only [List.mem_cons, not_or] at h
    rw [splitOnSep, if_neg (fun hx => h.1 hx.symm), ih h.2]

/-- splitOnSep peels one separator-free fragment before a separator. -/
theorem splitOnSep_append {sep : Char} :
    ∀ {f : Str}, sep ∉ f → ∀ rest, splitOnSep sep (f ++ sep :: rest) = f :: splitOnSep sep rest := by
  intro f
  induction f with
  | nil => intro _ rest; rw [List.nil_append, splitOnSep, if_pos rfl]
  | cons x xs ih =>
    intro h rest
    simp only [List.mem_cons, not_or] at h
    rw [List.cons_append, splitOnSep, if_neg (fun hx => h.1 hx.symm), ih h.2 rest]

/-- splitOnSep inverts joinSep on fragments free of the separator. -/
theorem splitOnSep_joinSep {sep : Char} :
    ∀ {parts : List Str}, parts ≠ [] → (∀ p ∈ parts, sep ∉ p) →
      splitOnSep sep (joinSep sep parts) = parts := by
  intro parts
  induction parts with
  | nil => intro h _; exact absurd rfl h
  | cons f fs ih =>
    intro _ hp
    cases fs with
    | nil => exact splitOnSep_of_not_mem (hp f (by simp))
    | cons g gs =>
      have he : joinSep sep (f :: g :: gs) = f ++ sep :: joinSep sep (g :: gs) := rfl
      rw [he, splitOnSep_append (hp f (by simp)), ih (by simp) (fun p hmem => hp p (by simp [hmem]))]

/-- Processing one encoded field recovers the decoded pair. -/
theorem qsl_step (k v : Str) (hvne : v ≠ []) :
    (if (quote_plus k ++ '=' :: quote_plus v) = [] then none
     else
       match splitFirst '=' (quote_plus k ++ '=' :: quote_plus v) with
       | none => none
       | some (n, w) => if w = [] then none else some (unquote_plus n, unquote_plus w)) =
    some (k, v) := by
  rw [if_neg (by simp)]
  rw [splitFirst_of_not_mem (not_mem_quote_plus (by decide) (by decide)) (quote_plus v)]
  dsimp only
  rw [if_neg (quote_plus_ne_nil hvne), unquote_plus_quote_plus, unquote_plus_quote_plus]

/-- Field-by-field decoding of the encoded chunks gives the pair list of the
dict. -/
theorem filterMap_urlencode_chunks :
    ∀ (d : List (Str × List Str)), (∀ e ∈ d, ∀ v ∈ e.2, v ≠ []) →
    (d.flatMap (fun e => e.2.map (fun v => quote_plus e.1 ++ '=' :: quote_plus v))).filterMap
      (fun nv =>
        if nv = [] then none
        else
          match splitFirst '=' nv with
          | none => none
          | some (n, v) =>
            if v = [] then none else some (unquote_plus n, unquote_plus v)) = pairsOf d := by
  intro d
  induction d with
  | nil => intro _; rfl
  | cons e es ih =>
    intro hv
    rw [List.flatMap_cons, List.filterMap_append, ih (fun x hx => hv x (by simp [hx]))]
    simp only [pairsOf, List.flatMap_cons]
    congr 1
    rw [List.filterMap_map]
    have hcongr : ∀ v ∈ e.2,
        ((fun nv =>
          if nv = [] then none
          else
            match splitFirst '=' nv with
            | none => none
            | some (n, v) =>
              if v = [] then none else some (unquote_plus n, unquote_plus v)) ∘
          (fun v => quote_plus e.1 ++ '=' :: quote_plus v)) v =
        (fun v => some (e.1, v)) v := by
      intro v hvm
      exact qsl_step e.1 v (hv e (by simp) v hvm)
    rw [List.filterMap_congr hcongr]
    exact List.filterMap_eq_map _ ▸ rfl

/-- parse_qsl inverts urlencode on dicts whose values are non-empty strings. -/
theorem parse_qsl_urlencode (d : List (Str × List Str))
    (hv : ∀ e ∈ d, ∀ v ∈ e.2, v ≠ []) :
    parse_qsl (urlencode d) = pairsOf d := by
  have hnoamp : ∀ p ∈ d.flatMap (fun e => e.2.map (fun v => quote_plus e.1 ++ '=' :: quote_plus v)),
      '&' ∉ p := by
    intro p hp
    rw [List.mem_flatMap] at hp
    obtain ⟨e, -, hpe⟩ := hp
    rw [List.mem_map] at hpe
    obtain ⟨v, -, rfl⟩ := hpe
    intro hmem
    rcases List.mem_append.mp hmem with h1 | h1
    · exact not_mem_quote_plus (by decide) (by decide) h1
    · rcases List.mem_cons.mp h1 with h2 | h2
      · exact absurd h2 (by decide)
      · exact not_mem_quote_plus (by decide) (by decide) h2
  unfold parse_qsl urlencode
  cases hd : d.flatMap (fun e => e.2.map (fun v => quote_plus e.1 ++ '=' :: quote_plus v)) with
  | nil =>
    have hvals : ∀ e ∈ d, e.2 = [] := fun e he =>
      List.map_eq_nil_iff.mp (List.flatMap_eq_nil_iff.mp hd e he)
    have hpairs : pairsOf d = [] := by
      rw [pairsOf, List.flatMap_eq_nil_iff]
      intro e he
      rw [hvals e he]
      rfl
    rw [hpairs]
    simp [joinSep]
  | cons p parts =>
    have hpn : p ≠ [] := by
      have hp : p ∈ d.flatMap (fun e => e.2.map (fun v => quote_plus e.1 ++ '=' :: quote_plus v)) := by
        rw [hd]; simp
      rw [List.mem_flatMap] at hp
      obtain ⟨e, -, hpe⟩ := hp
      rw [List.mem_map] at hpe
      obtain ⟨v, -, rfl⟩ := hpe
      simp
    have hjoin : joinSep '&' (p :: parts) ≠ [] := by
      cases parts with
      | nil => rw [joinSep]; exact hpn
      | cons g gs =>
        have he : joinSep '&' (p :: g :: gs) = p ++ '&' :: joinSep '&' (g :: gs) := rfl
        rw [he]
        simp [hpn]
    rw [if_neg hjoin]
    rw [← hd] at hjoin ⊢
    rw [hd, splitOnSep_joinSep (by simp) (fun q hq => hnoamp q (hd ▸ hq)), ← hd]
    exact filterMap_urlencode_chunks d hv

end Scraper

namespace Scraper

/-! ### Nonemptiness of decoding and joining -/

/-- A continuation byte out of range flushes a replacement character. -/
theorem utf8Step_need_out {val k lo hi b : Nat} (h : ¬(lo ≤ b ∧ b < hi)) :
    utf8Step (.need val k lo hi) b =
      (replacementChar :: (utf8Lead b).1, (utf8Lead b).2) := by
  simp only [utf8Step]
  rw [if_neg (by simpa using h)]

/-- From inside a sequence the decoder always emits at least one character. -/
theorem utf8DecodeFrom_need_ne_nil :
    ∀ (bs : List Nat) (val k lo hi : Nat), utf8DecodeFrom (.need val k lo hi) bs ≠ [] := by
  intro bs
  induction bs with
  | nil => intro val k lo hi; simp [utf8DecodeFrom]
  | cons b bs ih =>
    intro val k lo hi
    rw [utf8DecodeFrom_cons]
    by_cases h1 : lo ≤ b
    · by_cases h2 : b < hi
      · by_cases hk : k = 1
        · subst hk
          rw [utf8Step_need_last h1 h2]
          simp
        · rw [utf8Step_need_more h1 h2 hk]
          simpa using ih (val * 64 + (b - 128)) (k - 1) 128 192
      · rw [utf8Step_need_out (by omega)]
        simp
    · rw [utf8Step_need_out (by omega)]
      simp

/-- A lead byte either emits a character or opens a sequence. -/
theorem utf8Lead_out_or_need (b : Nat) :
    (utf8Lead b).1 ≠ [] ∨ ∃ val k lo hi, utf8Lead b = ([], .need val k lo hi) := by
  unfold utf8Lead
  split_ifs <;> simp

/-- Decoding a non-empty byte list yields a non-empty string. -/
theorem utf8DecodeReplace_ne_nil : ∀ {bs : List Nat}, bs ≠ [] → utf8DecodeReplace bs ≠ [] := by
  intro bs h
  cases bs with
  | nil => exact absurd rfl h
  | cons b bs =>
    rw [utf8DecodeReplace, utf8DecodeFrom_cons, utf8Step_start]
    rcases utf8Lead_out_or_need b with h1 | ⟨val, k, lo, hi, h1⟩
    · cases hout : (utf8Lead b).1 with
      | nil => exact absurd hout h1
      | cons c cs => simp
    · rw [h1]
      simpa using utf8DecodeFrom_need_ne_nil bs val k lo hi

/-- The unquote scanner never produces an empty string when fed a non-empty
input or a non-empty byte accumulator. -/
theorem unquoteAux_ne_nil : ∀ (n : Nat) (s : Str), s.length ≤ n →
    ∀ acc : List Nat, s ≠ [] ∨ acc ≠ [] → unquoteAux acc s ≠ [] := by
  intro n
  induction n with
  | zero =>
    intro s hlen acc hne
    have hs : s = [] := by
      cases s with
      | nil => rfl
      | cons c cs => simp at hlen
    subst hs
    rw [unquoteAux]
    exact utf8DecodeReplace_ne_nil (by simpa using hne.resolve_left (fun hh => hh rfl))
  | succ n ih =>
    intro s hlen acc hne
    cases s with
    | nil =>
      rw [unquoteAux]
      exact utf8DecodeReplace_ne_nil (by simpa using hne.resolve_left (fun hh => hh rfl))
    | cons c rest =>
      by_cases hc : c = '%'
      · subst hc
        cases rest with
        | nil =>
          rw [unquoteAux.eq_3 acc '%' [] (fun a b r _ hr => List.noConfusion hr)]
          rw [if_neg (by decide)]
          exact ih [] (by simp) _ (Or.inr (by simp))
        | cons a rest1 =>
          cases rest1 with
          | nil =>
            rw [unquoteAux.eq_3 acc '%' [a]
              (fun x y r _ hr => by injection hr with h1 h2; exact List.noConfusion h2)]
            rw [if_neg (by decide)]
            exact ih [a] (by simp only [List.length_cons, List.length_nil] at hlen ⊢; omega) _
              (Or.inr (by simp))
          | cons b rest2 =>
            have hstep : unquoteAux acc ('%' :: a :: b :: rest2) =
                if isHexDig a && isHexDig b then
                  unquoteAux ((hexDigitVal a * 16 + hexDigitVal b) :: acc) rest2
                else unquoteAux (37 :: acc) (a :: b :: rest2) := by
              rw [unquoteAux]
            rw [hstep]
            by_cases hhex : (isHexDig a && isHexDig b) = true
            · rw [if_pos hhex]
              exact ih rest2 (by simp only [List.length_cons] at hlen; omega) _
                (Or.inr (by simp))
            · rw [if_neg hhex]
              exact ih (a :: b :: rest2)
                (by simp only [List.length_cons] at hlen ⊢; omega) _ (Or.inr (by simp))
      · by_cases hbig : 128 ≤ c.toNat
        · rw [unquoteAux.eq_3 acc c rest (fun x y r hcc _ => hc hcc)]
          rw [if_pos hbig]
          simp
        · rw [unquoteAux_ascii_step (by omega) hc]
          exact ih rest (by simp only [List.length_cons] at hlen; omega) _ (Or.inr (by simp))

/-- unquote_plus of a non-empty string is non-empty. -/
theorem unquote_plus_ne_nil {s : Str} (h : s ≠ []) : unquote_plus s ≠ [] := by
  rw [unquote_plus, unquote]
  exact unquoteAux_ne_nil (s.map plusToSpace).length _ le_rfl [] (Or.inl (by simpa using h))

/-- joinSep of non-empty fragments is non-empty. -/
theorem joinSep_ne_nil {sep : Char} :
    ∀ {parts : List Str}, parts ≠ [] → (∀ p ∈ parts, p ≠ []) → joinSep sep parts ≠ [] := by
  intro parts hne hp
  cases parts with
  | nil => exact absurd rfl hne
  | cons f fs =>
    cases fs with
    | nil =>
      have he : joinSep sep [f] = f := rfl
      rw [he]
      exact hp f (by simp)
    | cons g gs =>
      have he : joinSep sep (f :: g :: gs) = f ++ sep :: joinSep sep (g :: gs) := rfl
      rw [he]
      simp

end Scraper

namespace Scraper

/-! ### Invariants of the parse_qs dictionary -/

/-- Every value produced by parse_qsl is non-empty (fields with an empty value
are dropped, and unquoting preserves nonemptiness). -/
theorem parse_qsl_val_ne_nil {qs : Str} {p : Str × Str} (h : p ∈ parse_qsl qs) :
    p.2 ≠ [] := by
  simp only [parse_qsl, List.mem_filterMap] at h
  obtain ⟨nv, -, hnv⟩ := h
  split at hnv
  · exact absurd hnv (by simp)
  · split at hnv
    · exact absurd hnv (by simp)
    · next n v heq =>
      split at hnv
      · exact absurd hnv (by simp)
      · next hv =>
        injection hnv with hnv
        rw [← hnv]
        exact unquote_plus_ne_nil hv

/-- qsInsert of a non-empty value preserves nonemptiness of all stored
values. -/
theorem qsInsert_vals {d : List (Str × List Str)} {n v : Str}
    (hd : ∀ e ∈ d, ∀ w ∈ e.2, w ≠ []) (hv : v ≠ []) :
    ∀ e ∈ qsInsert d n v, ∀ w ∈ e.2, w ≠ [] := by
  intro e he w hw
  rw [qsInsert] at he
  split at he
  · rw [List.mem_map] at he
    obtain ⟨x, hx, hxe⟩ := he
    by_cases hxk : x.1 = n
    · rw [if_pos hxk] at hxe
      subst hxe
      rcases List.mem_append.mp hw with hw1 | hw1
      · exact hd x hx w hw1
      · rw [List.mem_singleton] at hw1
        subst hw1
        exact hv
    · rw [if_neg hxk] at hxe
      subst hxe
      exact hd x hx w hw
  · rcases List.mem_append.mp he with he1 | he1
    · exact hd e he1 w hw
    · rw [List.mem_singleton] at he1
      subst he1
      rw [List.mem_singleton] at hw
      subst hw
      exact hv

/-- All values stored by parse_qs are non-empty strings. -/
theorem parse_qs_vals {qs : Str} : ∀ e ∈ parse_qs qs, ∀ w ∈ e.2, w ≠ [] := by
  rw [parse_qs]
  have hgen : ∀ (l : List (Str × Str)), (∀ p ∈ l, p.2 ≠ []) →
      ∀ (d : List (Str × List Str)), (∀ e ∈ d, ∀ w ∈ e.2, w ≠ []) →
      ∀ e ∈ l.foldl (fun d p => qsInsert d p.1 p.2) d, ∀ w ∈ e.2, w ≠ [] := by
    intro l
    induction l with
    | nil => intro _ d hd; simpa using hd
    | cons p ps ih =>
      intro hl d hd
      rw [List.foldl_cons]
      exact ih (fun q hq => hl q (by simp [hq])) _ (qsInsert_vals hd (hl p (by simp)))
  exact hgen (parse_qsl qs) (fun p hp => parse_qsl_val_ne_nil hp) [] (by simp)

/-- qsInsert keeps the dictionary keys distinct. -/
theorem qsInsert_keys_nodup {d : List (Str × List Str)} {n v : Str}
    (h : (d.map Prod.fst).Nodup) : ((qsInsert d n v).map Prod.fst).Nodup := by
  rw [qsInsert]
  split
  · have hkeys : (d.map (fun e => if e.1 = n then (e.1, e.2 ++ [v]) else e)).map Prod.fst =
        d.map Prod.fst := by
      rw [List.map_map]
      apply List.map_congr_left
      intro e _
      by_cases he : e.1 = n
      · simp [he]
      · simp [he]
    rw [hkeys]
    exact h
  · next hany =>
    rw [List.map_append]
    refine List.Nodup.append h (by simp) ?_
    intro a ha hb
    simp only [List.map_cons, List.map_nil, List.mem_singleton] at hb
    subst hb
    rw [List.mem_map] at ha
    obtain ⟨e, he, hfst⟩ := ha
    exact hany (List.any_eq_true.mpr ⟨e, he, by simp [hfst]⟩)

/-- The keys of a parse_qs dictionary are pairwise distinct. -/
theorem parse_qs_keys_nodup {qs : Str} : ((parse_qs qs).map Prod.fst).Nodup := by
  rw [parse_qs]
  have hgen : ∀ (l : List (Str × Str)) (d : List (Str × List Str)),
      (d.map Prod.fst).Nodup →
      ((l.foldl (fun d p => qsInsert d p.1 p.2) d).map Prod.fst).Nodup := by
    intro l
    induction l with
    | nil => intro d hd; simpa using hd
    | cons p ps ih =>
      intro d hd
      rw [List.foldl_cons]
      exact ih _ (qsInsert_keys_nodup hd)
  exact hgen _ [] (by simp)

end Scraper

namespace Scraper

/-! ### The dictionary after dictSet, and its pair listing -/

/-- dictSet preserves nonemptiness of stored values when the assigned values
are non-empty. -/
theorem dictSet_vals {d : List (Str × List Str)} {k : Str} {vs : List Str}
    (hd : ∀ e ∈ d, ∀ w ∈ e.2, w ≠ []) (hvs : ∀ w ∈ vs, w ≠ []) :
    ∀ e ∈ dictSet d k vs, ∀ w ∈ e.2, w ≠ [] := by
  intro e he w hw
  rw [dictSet] at he
  split at he
  · rw [List.mem_map] at he
    obtain ⟨x, hx, hxe⟩ := he
    by_cases hxk : x.1 = k
    · rw [if_pos hxk] at hxe
      subst hxe
      exact hvs w hw
    · rw [if_neg hxk] at hxe
      subst hxe
      exact hd x hx w hw
  · rcases List.mem_append.mp he with he1 | he1
    · exact hd e he1 w hw
    · rw [List.mem_singleton] at he1
      subst he1
      exact hvs w hw

/-- Overwriting the unique entry holding a key leaves exactly one entry with
that key, carrying the assigned values. -/
theorem filter_overwrite {k : Str} {vs : List Str} :
    ∀ {d : List (Str × List Str)}, (d.map Prod.fst).Nodup →
      d.any (fun e => e.1 = k) = true →
      (d.map (fun e => if e.1 = k then (e.1, vs) else e)).filter (fun e => e.1 = k) =
        [(k, vs)] := by
  intro d
  induction d with
  | nil => intro _ hany; simp at hany
  | cons e es ih =>
    intro hnd hany
    rw [List.map_cons, List.nodup_cons] at hnd
    rw [List.map_cons]
    by_cases hek : e.1 = k
    · rw [if_pos hek, List.filter_cons, if_pos (by simp [hek])]
      have hrest : (es.map (fun x => if x.1 = k then (x.1, vs) else x)).filter
          (fun x => x.1 = k) = [] := by
        rw [List.filter_eq_nil_iff]
        intro y hy
        rw [List.mem_map] at hy
        obtain ⟨x, hx, rfl⟩ := hy
        have hxk : x.1 ≠ k := by
          intro hxx
          exact hnd.1 (by rw [hek, ← hxx]; exact List.mem_map_of_mem Prod.fst hx)
        rw [if_neg hxk]
        simp [hxk]
      rw [hrest, hek]
    · rw [if_neg hek, List.filter_cons, if_neg (by simp [hek])]
      have hany2 : es.any (fun x => x.1 = k) = true := by
        rw [List.any_cons] at hany
        rcases Bool.or_eq_true_iff.mp hany with h1 | h1
        · exact absurd (of_decide_eq_true h1) hek
        · exact h1
      exact ih hnd.2 hany2

/-- Appending a fresh key to a dictionary free of it leaves exactly one entry
with that key. -/
theorem filter_append_new {k : Str} {vs : List Str} {d : List (Str × List Str)}
    (h : ∀ e ∈ d, e.1 ≠ k) :
    (d ++ [(k, vs)]).filter (fun e => e.1 = k) = [(k, vs)] := by
  rw [List.filter_append]
  rw [List.filter_eq_nil_iff.mpr (fun e he => by simp [h e he])]
  rw [List.nil_append, List.filter_cons, if_pos (by simp)]
  rfl

/-- After dictSet on a dictionary with distinct keys, exactly one entry holds
the key, and it carries the assigned values. -/
theorem dictSet_filter {d : List (Str × List Str)} {k : Str} {vs : List Str}
    (h : (d.map Prod.fst).Nodup) :
    (dictSet d k vs).filter (fun e => e.1 = k) = [(k, vs)] := by
  rw [dictSet]
  split
  · next hany => exact filter_overwrite h hany
  · next hany =>
    apply filter_append_new
    intro e he hek
    exact hany (List.any_eq_true.mpr ⟨e, he, by simp [hek]⟩)

/-- Filtering the pair listing of a dictionary by key is listing the
key-filtered dictionary. -/
theorem pairsOf_filter (k : Str) :
    ∀ d : List (Str × List Str),
      (pairsOf d).filter (fun pr => pr.1 = k) = pairsOf (d.filter (fun e => e.1 = k)) := by
  intro d
  induction d with
  | nil => rfl
  | cons e es ih =>
    have h1 : pairsOf (e :: es) = e.2.map (fun v => (e.1, v)) ++ pairsOf es := rfl
    rw [h1, List.filter_append, ih, List.filter_cons]
    by_cases hek : e.1 = k
    · rw [if_pos (by simp [hek])]
      have h2 : pairsOf (e :: es.filter (fun x => x.1 = k)) =
          e.2.map (fun v => (e.1, v)) ++ pairsOf (es.filter (fun x => x.1 = k)) := rfl
      rw [h2]
      congr 1
      apply List.filter_eq_self.mpr
      intro a ha
      rw [List.mem_map] at ha
      obtain ⟨v, -, rfl⟩ := ha
      simp [hek]
    · rw [if_neg (by simp [hek])]
      have hnil : (e.2.map (fun v => (e.1, v))).filter (fun pr => pr.1 = k) = [] := by
        rw [List.filter_eq_nil_iff]
        intro a ha
        rw [List.mem_map] at ha
        obtain ⟨v, -, rfl⟩ := ha
        simp [hek]
      rw [hnil, List.nil_append]

end Scraper

namespace Scraper

/-! ### Delimiter-freeness of the urlsplit components -/

/-- Lowercasing an upper-case letter shifts the code point by 32. -/
theorem lowerChar_toNat_of_upper {x : Char} (hr : ('A' ≤ x && x ≤ 'Z') = true) :
    (lowerChar x).toNat = x.toNat + 32 ∧ 65 ≤ x.toNat ∧ x.toNat ≤ 90 := by
  have h65 : 65 ≤ x.toNat ∧ x.toNat ≤ 90 := by
    simp only [Bool.and_eq_true, decide_eq_true_eq, Char.le_def, UInt32.le_def,
      BitVec.le_def] at hr
    have hg : x.toNat = x.val.toBitVec.toNat := rfl
    rw [hg]
    obtain ⟨h1, h2⟩ := hr
    simp only [show ('A').val.toBitVec.toNat = 65 from rfl,
      show ('Z').val.toBitVec.toNat = 90 from rfl] at h1 h2
    omega
  refine ⟨?_, h65⟩
  rw [lowerChar, if_pos hr]
  have hv : (x.toNat + 32).isValidChar := Or.inl (by omega)
  rw [Char.ofNat, dif_pos hv]
  simp [Char.ofNatAux, Char.toNat, UInt32.toNat, UInt32.ofNatCore]

/-- Lowercasing a scheme character never yields a hash. -/
theorem lowerChar_ne_hash {x : Char} (hx : isSchemeChar x = true) : lowerChar x ≠ '#' := by
  intro hc
  by_cases hr : ('A' ≤ x && x ≤ 'Z') = true
  · obtain ⟨ht, h1, h2⟩ := lowerChar_toNat_of_upper hr
    rw [hc] at ht
    have h35 : ('#').toNat = 35 := rfl
    omega
  · rw [lowerChar, if_neg hr] at hc
    subst hc
    exact absurd hx (by decide)

/-- Lowercasing a scheme character never yields a question mark. -/
theorem lowerChar_ne_query {x : Char} (hx : isSchemeChar x = true) : lowerChar x ≠ '?' := by
  intro hc
  by_cases hr : ('A' ≤ x && x ≤ 'Z') = true
  · obtain ⟨ht, h1, h2⟩ := lowerChar_toNat_of_upper hr
    rw [hc] at ht
    have h63 : ('?').toNat = 63 := rfl
    omega
  · rw [lowerChar, if_neg hr] at hc
    subst hc
    exact absurd hx (by decide)

/-- A successful splitLastChar decomposes its input around the character. -/
theorem splitLastChar_eq_some {c : Char} {l a b : Str}
    (h : splitLastChar c l = some (a, b)) : l = a ++ c :: b := by
  rw [splitLastChar] at h
  cases hs : splitFirst c l.reverse with
  | none => rw [hs] at h; exact absurd h (by simp)
  | some pr =>
    rw [hs] at h
    simp only [Option.map_some'] at h
    injection h with h
    obtain ⟨ha, hb⟩ := Prod.mk.injEq .. ▸ h
    obtain ⟨h1, -⟩ := splitFirst_eq_some hs
    have h2 := congrArg List.reverse h1
    rw [List.reverse_reverse] at h2
    rw [h2, List.reverse_append, List.reverse_cons, ← ha, ← hb]
    simp [List.append_assoc]

/-- Characters of the splitparams components come from the input path, apart
from the rejoined slash. -/
theorem splitparams_mem {url : Str} :
    (∀ c ∈ (splitparams url).1, c ∈ url ∨ c = '/') ∧
      (∀ c ∈ (splitparams url).2, c ∈ url) := by
  rw [splitparams]
  split
  · cases hs : splitLastChar '/' url with
    | none =>
      exact ⟨fun c hc => Or.inl hc, fun c hc => absurd hc (List.not_mem_nil c)⟩
    | some pr =>
      obtain ⟨a, b⟩ := pr
      have hab := splitLastChar_eq_some hs
      show (∀ c ∈ (match splitFirst ';' b with
            | some (b1, b2) => (a ++ '/' :: b1, b2)
            | none => (url, ([] : Str))).1, c ∈ url ∨ c = '/') ∧
          (∀ c ∈ (match splitFirst ';' b with
            | some (b1, b2) => (a ++ '/' :: b1, b2)
            | none => (url, ([] : Str))).2, c ∈ url)
      cases hsf : splitFirst ';' b with
      | none =>
        exact ⟨fun c hc => Or.inl hc, fun c hc => absurd hc (List.not_mem_nil c)⟩
      | some qr =>
        obtain ⟨b1, b2⟩ := qr
        obtain ⟨hb, -⟩ := splitFirst_eq_some hsf
        constructor
        · intro c hc
          rw [hab, hb]
          rcases List.mem_append.mp hc with h1 | h1
          · exact Or.inl (List.mem_append.mpr (Or.inl h1))
          · rcases List.mem_cons.mp h1 with rfl | h2
            · exact Or.inr rfl
            · refine Or.inl (List.mem_append.mpr (Or.inr ?_))
              refine List.mem_cons.mpr (Or.inr ?_)
              exact List.mem_append.mpr (Or.inl h2)
        · intro c hc
          rw [hab, hb]
          refine List.mem_append.mpr (Or.inr ?_)
          refine List.mem_cons.mpr (Or.inr ?_)
          exact List.mem_append.mpr (Or.inr (List.mem_cons.mpr (Or.inr hc)))
  · split
    · next u1 u2 heq =>
      obtain ⟨hurl, -⟩ := splitFirst_eq_some heq
      constructor
      · intro c hc
        rw [hurl]
        exact Or.inl (List.mem_append.mpr (Or.inl hc))
      · intro c hc
        rw [hurl]
        exact List.mem_append.mpr (Or.inr (List.mem_cons.mpr (Or.inr hc)))
    · exact ⟨fun c hc => Or.inl hc, fun c hc => absurd hc (List.not_mem_nil c)⟩

end Scraper

namespace Scraper

/-- Query splitting keeps the pre-query part free of both delimiters. -/
theorem split_query_no_delims {s a b : Str} (hsh : '#' ∉ s)
    (h : splitFirst '?' s = some (a, b)) : '#' ∉ a ∧ '?' ∉ a := by
  obtain ⟨h1, h2⟩ := splitFirst_eq_some h
  refine ⟨fun hm => hsh ?_, h2⟩
  rw [h1]
  exact List.mem_append.mpr (Or.inl hm)

/-- The path position produced by the fragment and query splits of urlsplit
holds neither delimiter. -/
theorem path_after_splits (rest2 : Str) :
    ∀ {fr : Str × Str}, (match splitFirst '#' rest2 with
        | some (a, b) => (a, b)
        | none => (rest2, ([] : Str))) = fr →
    ∀ {qr : Str × Str}, (match splitFirst '?' fr.1 with
        | some (a, b) => (a, b)
        | none => (fr.1, ([] : Str))) = qr →
    '#' ∉ qr.1 ∧ '?' ∉ qr.1 := by
  intro fr hfr qr hqr
  have hfr1 : '#' ∉ fr.1 := by
    cases hf : splitFirst '#' rest2 with
    | none =>
      rw [hf] at hfr
      rw [← hfr]
      exact splitFirst_eq_none hf
    | some pr =>
      obtain ⟨a, b⟩ := pr
      rw [hf] at hfr
      rw [← hfr]
      exact (splitFirst_eq_some hf).2
  cases hq : splitFirst '?' fr.1 with
  | none =>
    rw [hq] at hqr
    rw [← hqr]
    exact ⟨hfr1, splitFirst_eq_none hq⟩
  | some pr =>
    obtain ⟨a, b⟩ := pr
    rw [hq] at hqr
    rw [← hqr]
    exact split_query_no_delims hfr1 hq

/-- Tail of urlsplit after the netloc has been carved out: the bracket checks
and the fragment and query splits keep all components delimiter-free. -/
theorem urlsplit_rest2_no_delims {scheme netloc rest2 : Str} {r : SplitResult}
    (hs1 : '#' ∉ scheme) (hs2 : '?' ∉ scheme) (hn1 : '#' ∉ netloc) (hn2 : '?' ∉ netloc)
    (h : (if (netloc.contains '[' && !netloc.contains ']') ||
         (netloc.contains ']' && !netloc.contains '[') then none
      else if netloc.contains '[' && netloc.contains ']' &&
              !bracketedHostOk (bracketedPart netloc) then none
      else
        let fr :=
          match splitFirst '#' rest2 with
          | some (a, b) => (a, b)
          | none => (rest2, [])
        let qr :=
          match splitFirst '?' fr.1 with
          | some (a, b) => (a, b)
          | none => (fr.1, [])
        some ⟨scheme, netloc, qr.1, qr.2, fr.2⟩) = some r) :
    ('#' ∉ r.scheme ∧ '?' ∉ r.scheme) ∧ ('#' ∉ r.netloc ∧ '?' ∉ r.netloc) ∧
      ('#' ∉ r.path ∧ '?' ∉ r.path) := by
  split at h
  · exact absurd h (by simp)
  · split at h
    · exact absurd h (by simp)
    · injection h with h
      subst h
      exact ⟨⟨hs1, hs2⟩, ⟨hn1, hn2⟩, path_after_splits rest2 rfl rfl⟩

/-- Tail of urlsplit after the scheme has been carved out. -/
theorem urlsplit_rest_no_delims {scheme rest : Str} {r : SplitResult}
    (hs1 : '#' ∉ scheme) (hs2 : '?' ∉ scheme)
    (h : (let nr :=
        if rest.take 2 = ['/', '/'] then
          ((rest.drop 2).takeWhile (fun c => !(c = '/' || c = '?' || c = '#')),
           (rest.drop 2).dropWhile (fun c => !(c = '/' || c = '?' || c = '#')))
        else ([], rest)
      let netloc := nr.1
      let rest2 := nr.2
      if (netloc.contains '[' && !netloc.contains ']') ||
         (netloc.contains ']' && !netloc.contains '[') then none
      else if netloc.contains '[' && netloc.contains ']' &&
              !bracketedHostOk (bracketedPart netloc) then none
      else
        let fr :=
          match splitFirst '#' rest2 with
          | some (a, b) => (a, b)
          | none => (rest2, [])
        let qr :=
          match splitFirst '?' fr.1 with
          | some (a, b) => (a, b)
          | none => (fr.1, [])
        some ⟨scheme, netloc, qr.1, qr.2, fr.2⟩) = some r) :
    ('#' ∉ r.scheme ∧ '?' ∉ r.scheme) ∧ ('#' ∉ r.netloc ∧ '?' ∉ r.netloc) ∧
      ('#' ∉ r.path ∧ '?' ∉ r.path) := by
  dsimp only at h
  by_cases htk : rest.take 2 = ['/', '/']
  · rw [if_pos htk] at h
    dsimp only at h
    exact urlsplit_rest2_no_delims hs1 hs2
      (fun hm => absurd (List.mem_takeWhile_imp hm) (by decide))
      (fun hm => absurd (List.mem_takeWhile_imp hm) (by decide)) h
  · rw [if_neg htk] at h
    dsimp only at h
    exact urlsplit_rest2_no_delims hs1 hs2 (List.not_mem_nil _) (List.not_mem_nil _) h

/-- The scheme, netloc and path produced by urlsplit are free of the hash and
question-mark delimiters. -/
theorem urlsplit_no_delims {url0 : Str} {r : SplitResult}
    (h : urlsplit url0 [] = some r) :
    ('#' ∉ r.scheme ∧ '?' ∉ r.scheme) ∧ ('#' ∉ r.netloc ∧ '?' ∉ r.netloc) ∧
      ('#' ∉ r.path ∧ '?' ∉ r.path) := by
  rw [urlsplit.eq_def] at h
  dsimp only at h
  cases hsp : splitFirst ':' (removeUnsafeBytes (url0.dropWhile isC0OrSpace)) with
  | none =>
    rw [hsp] at h
    dsimp only at h
    exact urlsplit_rest_no_delims (by decide) (by decide) h
  | some pr =>
    obtain ⟨before, after⟩ := pr
    rw [hsp] at h
    dsimp only at h
    by_cases hc : (decide (before ≠ []) && (match before.head? with
        | some c0 => decide (c0.toNat < 128) && c0.isAlpha
        | none => false) && before.all isSchemeChar) = true
    · rw [if_pos hc] at h
      dsimp only at h
      have hall : before.all isSchemeChar = true := by
        simp only [Bool.and_eq_true] at hc
        exact hc.2
      refine urlsplit_rest_no_delims ?_ ?_ h
      · intro hm
        rw [List.mem_map] at hm
        obtain ⟨x, hx, hlx⟩ := hm
        exact lowerChar_ne_hash (List.all_eq_true.mp hall x hx) hlx
      · intro hm
        rw [List.mem_map] at hm
        obtain ⟨x, hx, hlx⟩ := hm
        exact lowerChar_ne_query (List.all_eq_true.mp hall x hx) hlx
    · rw [if_neg hc] at h
      dsimp only at h
      exact urlsplit_rest_no_delims (by decide) (by decide) h

end Scraper

namespace Scraper

/-- All string components produced by urlparse are free of the hash and
question-mark delimiters. -/
theorem urlparse_no_delims {url0 : Str} {p : ParseResult}
    (h : urlparse url0 [] = some p) :
    ('#' ∉ p.scheme ∧ '?' ∉ p.scheme) ∧ ('#' ∉ p.netloc ∧ '?' ∉ p.netloc) ∧
      ('#' ∉ p.path ∧ '?' ∉ p.path) ∧ ('#' ∉ p.params ∧ '?' ∉ p.params) := by
  rw [urlparse] at h
  cases hs : urlsplit url0 [] with
  | none => rw [hs] at h; exact absurd h (by simp)
  | some rs =>
    rw [hs] at h
    obtain ⟨⟨hss1, hss2⟩, ⟨hn1, hn2⟩, ⟨hp1, hp2⟩⟩ := urlsplit_no_delims hs
    simp only [Option.map_some'] at h
    injection h with h
    split at h
    · subst h
      obtain ⟨hm1, hm2⟩ := @splitparams_mem rs.path
      refine ⟨⟨hss1, hss2⟩, ⟨hn1, hn2⟩, ⟨?_, ?_⟩, ⟨?_, ?_⟩⟩
      · intro hm
        rcases hm1 _ hm with hh | hh
        · exact hp1 hh
        · exact absurd hh (by decide)
      · intro hm
        rcases hm1 _ hm with hh | hh
        · exact hp2 hh
        · exact absurd hh (by decide)
      · exact fun hm => hp1 (hm2 _ hm)
      · exact fun hm => hp2 (hm2 _ hm)
    · subst h
      exact ⟨⟨hss1, hss2⟩, ⟨hn1, hn2⟩, ⟨hp1, hp2⟩, by simp, by simp⟩

/-- Characters of the base URL rebuilt by urlunsplit with empty query and
fragment come from its components or are one of the two join marks. -/
theorem mem_urlunsplit_base {scheme netloc path : Str} {c : Char}
    (h : c ∈ urlunsplit scheme netloc path [] []) :
    c ∈ scheme ∨ c ∈ netloc ∨ c ∈ path ∨ c = ':' ∨ c = '/' := by
  have hurl2 : c ∈ (if decide (path ≠ []) && decide (path.take 1 ≠ ['/']) then
      '/' :: path else path) → c ∈ path ∨ c = '/' := by
    intro h2
    split at h2
    · rcases List.mem_cons.mp h2 with rfl | h3
      · exact Or.inr rfl
      · exact Or.inl h3
    · exact Or.inl h2
  have hurl1 : c ∈ (if decide (netloc ≠ []) ||
        (decide (scheme ≠ []) && uses_netloc.contains scheme &&
          decide (path.take 2 ≠ ['/', '/'])) then
        '/' :: '/' :: (netloc ++ (if decide (path ≠ []) && decide (path.take 1 ≠ ['/']) then
          '/' :: path else path))
      else path) → c ∈ netloc ∨ c ∈ path ∨ c = '/' := by
    intro h1
    split at h1
    · rcases List.mem_cons.mp h1 with rfl | h2
      · exact Or.inr (Or.inr rfl)
      · rcases List.mem_cons.mp h2 with rfl | h3
        · exact Or.inr (Or.inr rfl)
        · rcases List.mem_append.mp h3 with h4 | h4
          · exact Or.inl h4
          · rcases hurl2 h4 with h5 | h5
            · exact Or.inr (Or.inl h5)
            · exact Or.inr (Or.inr h5)
    · exact Or.inr (Or.inl h1)
  rw [urlunsplit.eq_def] at h
  dsimp only at h
  rw [if_neg (by simp), if_neg (by simp)] at h
  by_cases hsc : scheme ≠ []
  · rw [if_pos hsc] at h
    rcases List.mem_append.mp h with h1 | h1
    · exact Or.inl h1
    · rcases List.mem_cons.mp h1 with rfl | h2
      · exact Or.inr (Or.inr (Or.inr (Or.inl rfl)))
      · rcases hurl1 h2 with h3 | h3 | h3
        · exact Or.inr (Or.inl h3)
        · exact Or.inr (Or.inr (Or.inl h3))
        · exact Or.inr (Or.inr (Or.inr (Or.inr h3)))
  · rw [if_neg hsc] at h
    rcases hurl1 h with h3 | h3 | h3
    · exact Or.inr (Or.inl h3)
    · exact Or.inr (Or.inr (Or.inl h3))
    · exact Or.inr (Or.inr (Or.inr (Or.inr h3)))

/-- urlunsplit with a non-empty query appends the query and fragment behind
the base URL rebuilt with both empty. -/
theorem urlunsplit_split (scheme netloc path query fragment : Str) (hq : query ≠ []) :
    urlunsplit scheme netloc path query fragment =
      (if fragment ≠ [] then
        (urlunsplit scheme netloc path [] [] ++ '?' :: query) ++ '#' :: fragment
      else urlunsplit scheme netloc path [] [] ++ '?' :: query) := by
  simp only [urlunsplit]
  simp [hq]

/-- Reading the query part off a URL of that appended shape recovers the
query. -/
theorem queryPart_of_shape {base query fragment : Str}
    (hb1 : '#' ∉ base) (hb2 : '?' ∉ base) (hq : '#' ∉ query) :
    queryPart (if fragment ≠ [] then (base ++ '?' :: query) ++ '#' :: fragment
               else base ++ '?' :: query) = query := by
  have hno : '#' ∉ base ++ '?' :: query := by
    simp only [List.mem_append, List.mem_cons, not_or]
    exact ⟨hb1, by decide, hq⟩
  by_cases hf : fragment ≠ []
  · rw [if_pos hf, queryPart.eq_def]
    rw [splitFirst_of_not_mem hno fragment]
    dsimp only
    rw [splitFirst_of_not_mem hb2 query]
  · rw [if_neg hf, queryPart.eq_def]
    rw [splitFirst_none_of_not_mem hno]
    dsimp only
    rw [splitFirst_of_not_mem hb2 query]

end Scraper

namespace Scraper

/-- C4: for every non-empty URL accepted by urlparse and every non-empty
affiliate id, the URL returned by _add_affiliate_tag carries the tag query
parameter exactly once, with the affiliate id as its value: filtering the
parsed query pairs of the result by the key tag yields exactly the single
pair (tag, affiliate id).  This holds in particular when the input URL
already carries a tag parameter or other query parameters, and
rewrite("https://site/dp/B000000000", "tagX") yields a URL whose query
carries tag=tagX exactly once. -/
theorem claim4_tag_exactly_once (affiliate_id url r : Str)
    (hid : affiliate_id ≠ []) (hurl : url ≠ [])
    (h : _add_affiliate_tag affiliate_id url = some r) :
    (parse_qsl (queryPart r)).filter (fun pr => pr.1 = strL "tag") =
      [(strL "tag", affiliate_id)] := by
  rw [_add_affiliate_tag, if_neg (by push_neg; exact ⟨hurl, hid⟩)] at h
  cases hp : urlparse url [] with
  | none => rw [hp] at h; exact absurd h (by simp)
  | some p =>
    rw [hp] at h
    simp only [Option.map_some'] at h
    injection h with h
    subst h
    obtain ⟨⟨hs1, hs2⟩, ⟨hn1, hn2⟩, ⟨hp1, hp2⟩, ⟨hpr1, hpr2⟩⟩ := urlparse_no_delims hp
    show (parse_qsl (queryPart (urlunparse p.scheme p.netloc p.path p.params
        (urlencode (dictSet (parse_qs p.query) (strL "tag") [affiliate_id]))
        p.fragment))).filter
        (fun pr => pr.1 = strL "tag") = [(strL "tag", affiliate_id)]
    have hvals : ∀ e ∈ dictSet (parse_qs p.query) (strL "tag") [affiliate_id],
        ∀ w ∈ e.2, w ≠ [] :=
      dictSet_vals parse_qs_vals
        (fun w hw => by rw [List.mem_singleton] at hw; subst hw; exact hid)
    have hfil : (dictSet (parse_qs p.query) (strL "tag") [affiliate_id]).filter
        (fun e => e.1 = strL "tag") = [(strL "tag", [affiliate_id])] :=
      dictSet_filter parse_qs_keys_nodup
    have hmem : (strL "tag", [affiliate_id]) ∈
        dictSet (parse_qs p.query) (strL "tag") [affiliate_id] := by
      have hx : (strL "tag", [affiliate_id]) ∈
          (dictSet (parse_qs p.query) (strL "tag") [affiliate_id]).filter
            (fun e => e.1 = strL "tag") := by
        rw [hfil]
        exact List.mem_singleton.mpr rfl
      exact List.mem_of_mem_filter hx
    have hqne : urlencode (dictSet (parse_qs p.query) (strL "tag") [affiliate_id]) ≠ [] := by
      rw [urlencode]
      apply joinSep_ne_nil
      · intro hnil
        have h0 := List.flatMap_eq_nil_iff.mp hnil _ hmem
        simp at h0
      · intro q hq
        rw [List.mem_flatMap] at hq
        obtain ⟨e, -, he⟩ := hq
        rw [List.mem_map] at he
        obtain ⟨v, -, rfl⟩ := he
        simp
    have hqh : '#' ∉ urlencode (dictSet (parse_qs p.query) (strL "tag") [affiliate_id]) :=
      not_mem_urlencode (by decide) (by decide)
    have hb1 : '#' ∉ urlunsplit p.scheme p.netloc
        (if p.params ≠ [] then p.path ++ ';' :: p.params else p.path) [] [] := by
      intro hm
      rcases mem_urlunsplit_base hm with hh | hh | hh | hh | hh
      · exact hs1 hh
      · exact hn1 hh
      · by_cases hpar : p.params ≠ []
        · rw [if_pos hpar] at hh
          rcases List.mem_append.mp hh with h2 | h2
          · exact hp1 h2
          · rcases List.mem_cons.mp h2 with h3 | h3
            · exact absurd h3 (by decide)
            · exact hpr1 h3
        · rw [if_neg hpar] at hh
          exact hp1 hh
      · exact absurd hh (by decide)
      · exact absurd hh (by decide)
    have hb2 : '?' ∉ urlunsplit p.scheme p.netloc
        (if p.params ≠ [] then p.path ++ ';' :: p.params else p.path) [] [] := by
      intro hm
      rcases mem_urlunsplit_base hm with hh | hh | hh | hh | hh
      · exact hs2 hh
      · exact hn2 hh
      · by_cases hpar : p.params ≠ []
        · rw [if_pos hpar] at hh
          rcases List.mem_append.mp hh with h2 | h2
          · exact hp2 h2
          · rcases List.mem_cons.mp h2 with h3 | h3
            · exact absurd h3 (by decide)
            · exact hpr2 h3
        · rw [if_neg hpar] at hh
          exact hp2 hh
      · exact absurd hh (by decide)
      · exact absurd hh (by decide)
    rw [urlunparse, urlunsplit_split _ _ _ _ _ hqne, queryPart_of_shape hb1 hb2 hqh]
    rw [parse_qsl_urlencode _ hvals, pairsOf_filter, hfil]
    simp [pairsOf]

/-- Witness for C4 at the concrete example of the spec: the rewrite of
https://site/dp/B000000000 with tag tagX carries tag=tagX exactly once. -/
theorem claim4_witness :
    strL "tagX" ≠ [] ∧ strL "https://site/dp/B000000000" ≠ [] ∧
    _add_affiliate_tag (strL "tagX") (strL "https://site/dp/B000000000") =
      some (strL "https://site/dp/B000000000?tag=tagX") ∧
    (parse_qsl (queryPart (strL "https://site/dp/B000000000?tag=tagX"))).filter
      (fun pr => pr.1 = strL "tag") = [(strL "tag", strL "tagX")] :=
  ⟨by decide, by decide, by decide,
   claim4_tag_exactly_once (strL "tagX") (strL "https://site/dp/B000000000")
     (strL "https://site/dp/B000000000?tag=tagX") (by decide) (by decide) (by decide)⟩

end Scraper

namespace Scraper

/-! ### Character classes, lowercasing and URL cleaning -/

/-- Code point range of alphabetic characters. -/
theorem toNat_of_isAlpha {c : Char} (h : c.isAlpha = true) :
    (65 ≤ c.toNat ∧ c.toNat ≤ 90) ∨ (97 ≤ c.toNat ∧ c.toNat ≤ 122) := by
  simp only [Char.isAlpha, Char.isUpper, Char.isLower, Bool.or_eq_true, Bool.and_eq_true,
    decide_eq_true_eq, Char.le_def, UInt32.le_def, BitVec.le_def] at h
  have hg : c.toNat = c.val.toBitVec.toNat := rfl
  have hA : (UInt32.toBitVec 65).toNat = 65 := rfl
  have hZ : (UInt32.toBitVec 90).toNat = 90 := rfl
  have ha : (UInt32.toBitVec 97).toNat = 97 := rfl
  have hz : (UInt32.toBitVec 122).toNat = 122 := rfl
  rcases h with ⟨h1, h2⟩ | ⟨h1, h2⟩
  · left; omega
  · right; omega

/-- Characters in the lower-case range are lower-case letters. -/
theorem isLower_of_toNat {c : Char} (h1 : 97 ≤ c.toNat) (h2 : c.toNat ≤ 122) :
    c.isLower = true := by
  simp only [Char.isLower, Bool.and_eq_true, decide_eq_true_eq, Char.le_def, UInt32.le_def,
    BitVec.le_def]
  have hg : c.toNat = c.val.toBitVec.toNat := rfl
  have ha : (UInt32.toBitVec 97).toNat = 97 := rfl
  have hz : (UInt32.toBitVec 122).toNat = 122 := rfl
  constructor <;> omega

/-- Lower-case letters are alphabetic. -/
theorem isAlpha_of_isLower {c : Char} (h : c.isLower = true) : c.isAlpha = true := by
  rw [Char.isAlpha, h, Bool.or_true]

/-- Lowercasing keeps an ASCII letter an ASCII letter at code point 65 or
above. -/
theorem lowerChar_props {c : Char} (hascii : c.toNat < 128) (halpha : c.isAlpha = true) :
    (lowerChar c).toNat < 128 ∧ (lowerChar c).isAlpha = true ∧ 65 ≤ (lowerChar c).toNat := by
  by_cases hr : ('A' ≤ c && c ≤ 'Z') = true
  · obtain ⟨ht, h1, h2⟩ := lowerChar_toNat_of_upper hr
    refine ⟨by omega, ?_, by omega⟩
    exact isAlpha_of_isLower (isLower_of_toNat (by omega) (by omega))
  · rw [lowerChar, if_neg hr]
    exact ⟨hascii, halpha, by rcases toNat_of_isAlpha halpha with ⟨h1, -⟩ | ⟨h1, -⟩ <;> omega⟩

/-- Lowercasing is idempotent. -/
theorem lowerChar_idem (c : Char) : lowerChar (lowerChar c) = lowerChar c := by
  by_cases hr : ('A' ≤ c && c ≤ 'Z') = true
  · obtain ⟨ht, h1, h2⟩ := lowerChar_toNat_of_upper hr
    have hr2 : ¬(('A' ≤ lowerChar c && lowerChar c ≤ 'Z') = true) := by
      intro hh
      obtain ⟨-, -, h22⟩ := lowerChar_toNat_of_upper hh
      omega
    rw [lowerChar, if_neg hr2]
  · have hcc : lowerChar c = c := by rw [lowerChar, if_neg hr]
    rw [hcc, hcc]

/-- Lowercasing a scheme character never yields a colon. -/
theorem lowerChar_ne_colon {x : Char} (hx : isSchemeChar x = true) : lowerChar x ≠ ':' := by
  intro hc
  by_cases hr : ('A' ≤ x && x ≤ 'Z') = true
  · obtain ⟨ht, h1, h2⟩ := lowerChar_toNat_of_upper hr
    rw [hc] at ht
    have h58 : (':').toNat = 58 := rfl
    omega
  · rw [lowerChar, if_neg hr] at hc
    subst hc
    exact absurd hx (by decide)

/-- Scheme characters sit at code point 43 or above. -/
theorem schemeChar_toNat {c : Char} (h : isSchemeChar c = true) : 43 ≤ c.toNat := by
  rw [isSchemeChar] at h
  simp only [Bool.or_eq_true, decide_eq_true_eq] at h
  rcases h with ((((h | h) | h) | h) | h)
  · rcases toNat_of_isAlpha h with ⟨h1, -⟩ | ⟨h1, -⟩ <;> omega
  · simp only [Char.isDigit, Bool.and_eq_true, decide_eq_true_eq, Char.le_def, UInt32.le_def,
      BitVec.le_def] at h
    have hg : c.toNat = c.val.toBitVec.toNat := rfl
    have h0 : (UInt32.toBitVec 48).toNat = 48 := rfl
    have h9 : (UInt32.toBitVec 57).toNat = 57 := rfl
    omega
  · subst h; decide
  · subst h; decide
  · subst h; decide

/-- Lowercasing a scheme character stays at code point 43 or above. -/
theorem lowerChar_toNat_ge {x : Char} (hx : isSchemeChar x = true) :
    43 ≤ (lowerChar x).toNat := by
  by_cases hr : ('A' ≤ x && x ≤ 'Z') = true
  · obtain ⟨ht, h1, h2⟩ := lowerChar_toNat_of_upper hr
    omega
  · rw [lowerChar, if_neg hr]
    exact schemeChar_toNat hx

/-- dropWhile leaves a list whose head fails the predicate unchanged. -/
theorem dropWhile_eq_self_of_head {p : Char → Bool} :
    ∀ {l : Str}, (∀ c, l.head? = some c → p c = false) → l.dropWhile p = l := by
  intro l h
  cases l with
  | nil => rfl
  | cons x xs => rw [List.dropWhile_cons_of_neg (by simp [h x rfl])]

/-- Characters surviving the unsafe-byte removal come from the input and are
not tab, carriage return or line feed. -/
theorem mem_removeUnsafeBytes {s : Str} {c : Char} (h : c ∈ removeUnsafeBytes s) :
    c ∈ s ∧ ¬(c = '\t' ∨ c = '\r' ∨ c = '\n') := by
  rw [removeUnsafeBytes] at h
  refine ⟨List.mem_of_mem_filter h, fun hor => ?_⟩
  have h3 := List.of_mem_filter h
  rcases hor with rfl | rfl | rfl <;> exact absurd h3 (by decide)

/-- Unsafe-byte removal is the identity on strings free of the three bytes. -/
theorem removeUnsafeBytes_of_clean {s : Str}
    (h : ∀ c ∈ s, ¬(c = '\t' ∨ c = '\r' ∨ c = '\n')) : removeUnsafeBytes s = s := by
  rw [removeUnsafeBytes]
  apply List.filter_eq_self.mpr
  intro a ha
  have h3 := h a ha
  push_neg at h3
  simp [h3.1, h3.2.1, h3.2.2]

end Scraper

namespace Scraper

/-! ### Further facts about the components of a successful urlsplit -/

/-- Alphabetic characters are scheme characters. -/
theorem isSchemeChar_of_isAlpha {c : Char} (h : c.isAlpha = true) :
    isSchemeChar c = true := by
  rw [isSchemeChar, h]
  simp

/-- Lowercasing preserves scheme characters. -/
theorem isSchemeChar_lowerChar {x : Char} (hx : isSchemeChar x = true) :
    isSchemeChar (lowerChar x) = true := by
  by_cases hr : ('A' ≤ x && x ≤ 'Z') = true
  · obtain ⟨ht, h1, h2⟩ := lowerChar_toNat_of_upper hr
    exact isSchemeChar_of_isAlpha (isAlpha_of_isLower (isLower_of_toNat (by omega) (by omega)))
  · rw [lowerChar, if_neg hr]
    exact hx

/-- Characters of the path and fragment positions of the urlsplit tail come
from the string being split. -/
theorem path_frag_mem (rest2 : Str) :
    ∀ {fr : Str × Str}, (match splitFirst '#' rest2 with
        | some (a, b) => (a, b)
        | none => (rest2, ([] : Str))) = fr →
    ∀ {qr : Str × Str}, (match splitFirst '?' fr.1 with
        | some (a, b) => (a, b)
        | none => (fr.1, ([] : Str))) = qr →
    (∀ c ∈ qr.1, c ∈ rest2) ∧ (∀ c ∈ fr.2, c ∈ rest2) := by
  intro fr hfr qr hqr
  have hfr1 : (∀ c ∈ fr.1, c ∈ rest2) ∧ (∀ c ∈ fr.2, c ∈ rest2) := by
    cases hf : splitFirst '#' rest2 with
    | none =>
      rw [hf] at hfr
      rw [← hfr]
      exact ⟨fun c hc => hc, fun c hc => absurd hc (List.not_mem_nil c)⟩
    | some pr =>
      obtain ⟨a, b⟩ := pr
      rw [hf] at hfr
      rw [← hfr]
      obtain ⟨he, -⟩ := splitFirst_eq_some hf
      constructor
      · intro c hc
        rw [he]
        exact List.mem_append.mpr (Or.inl hc)
      · intro c hc
        rw [he]
        exact List.mem_append.mpr (Or.inr (List.mem_cons.mpr (Or.inr hc)))
  refine ⟨?_, hfr1.2⟩
  cases hq : splitFirst '?' fr.1 with
  | none =>
    rw [hq] at hqr
    rw [← hqr]
    exact hfr1.1
  | some pr =>
    obtain ⟨a, b⟩ := pr
    rw [hq] at hqr
    rw [← hqr]
    intro c hc
    obtain ⟨he, -⟩ := splitFirst_eq_some hq
    exact hfr1.1 c (he ▸ List.mem_append.mpr (Or.inl hc))

/-- Bracket checks and component origins in the tail of urlsplit. -/
theorem urlsplit_rest2_facts {scheme netloc rest2 : Str} {r : SplitResult}
    (hSfix : scheme.map lowerChar = scheme)
    (hSall : ∀ c ∈ scheme, isSchemeChar c = true)
    (hShead : scheme ≠ [] → ∃ c0, scheme.head? = some c0 ∧ c0.toNat < 128 ∧ c0.isAlpha = true)
    (hnS : '/' ∉ netloc)
    (hnC : ∀ c ∈ netloc, ¬(c = '\t' ∨ c = '\r' ∨ c = '\n'))
    (hr2C : ∀ c ∈ rest2, ¬(c = '\t' ∨ c = '\r' ∨ c = '\n'))
    (h : (if (netloc.contains '[' && !netloc.contains ']') ||
         (netloc.contains ']' && !netloc.contains '[') then none
      else if netloc.contains '[' && netloc.contains ']' &&
              !bracketedHostOk (bracketedPart netloc) then none
      else
        let fr :=
          match splitFirst '#' rest2 with
          | some (a, b) => (a, b)
          | none => (rest2, [])
        let qr :=
          match splitFirst '?' fr.1 with
          | some (a, b) => (a, b)
          | none => (fr.1, [])
        some ⟨scheme, netloc, qr.1, qr.2, fr.2⟩) = some r) :
    '/' ∉ r.netloc ∧
    ((r.netloc.contains '[' && !r.netloc.contains ']') ||
       (r.netloc.contains ']' && !r.netloc.contains '[')) = false ∧
    (r.netloc.contains '[' && r.netloc.contains ']' &&
       !bracketedHostOk (bracketedPart r.netloc)) = false ∧
    r.scheme.map lowerChar = r.scheme ∧
    (∀ c ∈ r.scheme, isSchemeChar c = true) ∧
    (r.scheme ≠ [] → ∃ c0, r.scheme.head? = some c0 ∧ c0.toNat < 128 ∧ c0.isAlpha = true) ∧
    (∀ c ∈ r.netloc, ¬(c = '\t' ∨ c = '\r' ∨ c = '\n')) ∧
    (∀ c ∈ r.path, ¬(c = '\t' ∨ c = '\r' ∨ c = '\n')) ∧
    (∀ c ∈ r.fragment, ¬(c = '\t' ∨ c = '\r' ∨ c = '\n')) := by
  split at h
  · exact absurd h (by simp)
  · next hbr1 =>
    split at h
    · exact absurd h (by simp)
    · next hbr2 =>
      injection h with h
      subst h
      obtain ⟨hpm, hfm⟩ := path_frag_mem rest2 rfl rfl
      exact ⟨hnS, by simpa using hbr1, by simpa using hbr2, hSfix, hSall, hShead, hnC,
        fun c hc => hr2C c (hpm c hc), fun c hc => hr2C c (hfm c hc)⟩

/-- Netloc extraction preserves the facts of the urlsplit tail. -/
theorem urlsplit_rest_facts {scheme rest : Str} {r : SplitResult}
    (hSfix : scheme.map lowerChar = scheme)
    (hSall : ∀ c ∈ scheme, isSchemeChar c = true)
    (hShead : scheme ≠ [] → ∃ c0, scheme.head? = some c0 ∧ c0.toNat < 128 ∧ c0.isAlpha = true)
    (hrC : ∀ c ∈ rest, ¬(c = '\t' ∨ c = '\r' ∨ c = '\n'))
    (h : (let nr :=
        if rest.take 2 = ['/', '/'] then
          ((rest.drop 2).takeWhile (fun c => !(c = '/' || c = '?' || c = '#')),
           (rest.drop 2).dropWhile (fun c => !(c = '/' || c = '?' || c = '#')))
        else ([], rest)
      let netloc := nr.1
      let rest2 := nr.2
      if (netloc.contains '[' && !netloc.contains ']') ||
         (netloc.contains ']' && !netloc.contains '[') then none
      else if netloc.contains '[' && netloc.contains ']' &&
              !bracketedHostOk (bracketedPart netloc) then none
      else
        let fr :=
          match splitFirst '#' rest2 with
          | some (a, b) => (a, b)
          | none => (rest2, [])
        let qr :=
          match splitFirst '?' fr.1 with
          | some (a, b) => (a, b)
          | none => (fr.1, [])
        some ⟨scheme, netloc, qr.1, qr.2, fr.2⟩) = some r) :
    '/' ∉ r.netloc ∧
    ((r.netloc.contains '[' && !r.netloc.contains ']') ||
       (r.netloc.contains ']' && !r.netloc.contains '[')) = false ∧
    (r.netloc.contains '[' && r.netloc.contains ']' &&
       !bracketedHostOk (bracketedPart r.netloc)) = false ∧
    r.scheme.map lowerChar = r.scheme ∧
    (∀ c ∈ r.scheme, isSchemeChar c = true) ∧
    (r.scheme ≠ [] → ∃ c0, r.scheme.head? = some c0 ∧ c0.toNat < 128 ∧ c0.isAlpha = true) ∧
    (∀ c ∈ r.netloc, ¬(c = '\t' ∨ c = '\r' ∨ c = '\n')) ∧
    (∀ c ∈ r.path, ¬(c = '\t' ∨ c = '\r' ∨ c = '\n')) ∧
    (∀ c ∈ r.fragment, ¬(c = '\t' ∨ c = '\r' ∨ c = '\n')) := by
  dsimp only at h
  by_cases htk : rest.take 2 = ['/', '/']
  · rw [if_pos htk] at h
    dsimp only at h
    refine urlsplit_rest2_facts hSfix hSall hShead ?_ ?_ ?_ h
    · intro hm
      exact absurd (List.mem_takeWhile_imp hm) (by decide)
    · intro c hc
      exact hrC c (List.drop_subset 2 rest ((List.takeWhile_sublist _).subset hc))
    · intro c hc
      exact hrC c (List.drop_subset 2 rest ((List.dropWhile_sublist _).subset hc))
  · rw [if_neg htk] at h
    dsimp only at h
    exact urlsplit_rest2_facts hSfix hSall hShead (List.not_mem_nil _)
      (fun c hc => absurd hc (List.not_mem_nil c)) hrC h

/-- Facts about the components of a successful urlsplit, beyond the
delimiter-freeness already established: the netloc is slash-free and passed
the bracket checks, the scheme is a lowercase scheme-character word with an
ASCII alphabetic head, and all components are free of the removed bytes. -/
theorem urlsplit_more_facts {url0 : Str} {r : SplitResult}
    (h : urlsplit url0 [] = some r) :
    '/' ∉ r.netloc ∧
    ((r.netloc.contains '[' && !r.netloc.contains ']') ||
       (r.netloc.contains ']' && !r.netloc.contains '[')) = false ∧
    (r.netloc.contains '[' && r.netloc.contains ']' &&
       !bracketedHostOk (bracketedPart r.netloc)) = false ∧
    r.scheme.map lowerChar = r.scheme ∧
    (∀ c ∈ r.scheme, isSchemeChar c = true) ∧
    (r.scheme ≠ [] → ∃ c0, r.scheme.head? = some c0 ∧ c0.toNat < 128 ∧ c0.isAlpha = true) ∧
    (∀ c ∈ r.netloc, ¬(c = '\t' ∨ c = '\r' ∨ c = '\n')) ∧
    (∀ c ∈ r.path, ¬(c = '\t' ∨ c = '\r' ∨ c = '\n')) ∧
    (∀ c ∈ r.fragment, ¬(c = '\t' ∨ c = '\r' ∨ c = '\n')) := by
  rw [urlsplit.eq_def] at h
  dsimp only at h
  have hclean : ∀ c ∈ removeUnsafeBytes (url0.dropWhile isC0OrSpace),
      ¬(c = '\t' ∨ c = '\r' ∨ c = '\n') :=
    fun c hc => (mem_removeUnsafeBytes hc).2
  cases hsp : splitFirst ':' (removeUnsafeBytes (url0.dropWhile isC0OrSpace)) with
  | none =>
    rw [hsp] at h
    dsimp only at h
    exact urlsplit_rest_facts rfl (by decide) (fun hne => absurd rfl hne) hclean h
  | some pr =>
    obtain ⟨before, after⟩ := pr
    rw [hsp] at h
    dsimp only at h
    have hmem : ∀ c ∈ after, c ∈ removeUnsafeBytes (url0.dropWhile isC0OrSpace) := by
      intro c hc
      obtain ⟨he, -⟩ := splitFirst_eq_some hsp
      rw [he]
      exact List.mem_append.mpr (Or.inr (List.mem_cons.mpr (Or.inr hc)))
    by_cases hc : (decide (before ≠ []) && (match before.head? with
        | some c0 => decide (c0.toNat < 128) && c0.isAlpha
        | none => false) && before.all isSchemeChar) = true
    · rw [if_pos hc] at h
      dsimp only at h
      simp only [Bool.and_eq_true] at hc
      have hall : ∀ x ∈ before, isSchemeChar x = true := List.all_eq_true.mp hc.2
      have hfix : (before.map lowerChar).map lowerChar = before.map lowerChar := by
        rw [List.map_map]
        apply List.map_congr_left
        intro x _
        exact lowerChar_idem x
      have hsall : ∀ c ∈ before.map lowerChar, isSchemeChar c = true := by
        intro c hcm
        rw [List.mem_map] at hcm
        obtain ⟨x, hx, rfl⟩ := hcm
        exact isSchemeChar_lowerChar (hall x hx)
      have hshead : before.map lowerChar ≠ [] →
          ∃ c0, (before.map lowerChar).head? = some c0 ∧ c0.toNat < 128 ∧
            c0.isAlpha = true := by
        intro hne
        cases before with
        | nil => exact absurd rfl hne
        | cons c0 bs =>
          have hh := hc.1.2
          rw [List.head?_cons] at hh
          dsimp only at hh
          simp only [Bool.and_eq_true, decide_eq_true_eq] at hh
          obtain ⟨ha1, ha2, ha3⟩ := lowerChar_props hh.1 hh.2
          exact ⟨lowerChar c0, rfl, ha1, ha2⟩
      exact urlsplit_rest_facts hfix hsall hshead (fun c hcc => hclean c (hmem c hcc)) h
    · rw [if_neg hc] at h
      dsimp only at h
      exact urlsplit_rest_facts rfl (by decide) (fun hne => absurd rfl hne) hclean h

end Scraper

namespace Scraper

/-! ### urlsplit recovers the components of a rebuilt authority URL -/

/-- Evaluation of the urlsplit tail on the rebuilt netloc-carrying rest. -/
theorem urlsplit_rest_eval (scheme netloc url2 q fragment Ftail : Str)
    (hnall : ∀ x ∈ netloc, (!(x = '/' || x = '?' || x = '#')) = true)
    (hbr1 : ((netloc.contains '[' && !netloc.contains ']') ||
       (netloc.contains ']' && !netloc.contains '[')) = false)
    (hbr2 : (netloc.contains '[' && netloc.contains ']' &&
       !bracketedHostOk (bracketedPart netloc)) = false)
    (hu2 : url2 = [] ∨ ∃ t, url2 = '/' :: t)
    (hnh : '#' ∉ url2) (hnq : '?' ∉ url2) (hqh : '#' ∉ q)
    (hFt : (fragment = [] ∧ Ftail = []) ∨ Ftail = '#' :: fragment) :
    (let rest := '/' :: '/' :: ((netloc ++ url2) ++ ('?' :: q) ++ Ftail)
     let nr :=
        if rest.take 2 = ['/', '/'] then
          ((rest.drop 2).takeWhile (fun c => !(c = '/' || c = '?' || c = '#')),
           (rest.drop 2).dropWhile (fun c => !(c = '/' || c = '?' || c = '#')))
        else ([], rest)
     let netloc2 := nr.1
     let rest2 := nr.2
     if (netloc2.contains '[' && !netloc2.contains ']') ||
        (netloc2.contains ']' && !netloc2.contains '[') then none
     else if netloc2.contains '[' && netloc2.contains ']' &&
             !bracketedHostOk (bracketedPart netloc2) then none
     else
       let fr :=
         match splitFirst '#' rest2 with
         | some (a, b) => (a, b)
         | none => (rest2, [])
       let qr :=
         match splitFirst '?' fr.1 with
         | some (a, b) => (a, b)
         | none => (fr.1, [])
       some (⟨scheme, netloc2, qr.1, qr.2, fr.2⟩ : SplitResult)) =
      some (⟨scheme, netloc, url2, q, fragment⟩ : SplitResult) := by
  dsimp only
  rw [if_pos (show List.take 2
    ('/' :: '/' :: ((netloc ++ url2) ++ ('?' :: q) ++ Ftail)) = ['/', '/'] from rfl)]
  have hdrop : (('/' : Char) :: '/' :: ((netloc ++ url2) ++ ('?' :: q) ++ Ftail)).drop 2 =
      (netloc ++ url2) ++ ('?' :: q) ++ Ftail := rfl
  rw [hdrop]
  have hnoqfr : '#' ∉ url2 ++ '?' :: q := by
    simp only [List.mem_append, List.mem_cons, not_or]
    exact ⟨hnh, by decide, hqh⟩
  rcases hu2 with hu2e | ⟨t, hu2c⟩
  · subst hu2e
    have hM : (netloc ++ ([] : Str)) ++ ('?' :: q) ++ Ftail =
        netloc ++ '?' :: (q ++ Ftail) := by simp
    rw [hM, takeWhile_all_append hnall (by decide), dropWhile_all_append hnall (by decide)]
    rw [if_neg (show ¬_ from by rw [hbr1]; simp), if_neg (show ¬_ from by rw [hbr2]; simp)]
    rcases hFt with ⟨hfr, hft⟩ | hft
    · subst hfr
      subst hft
      have hq0 : ('?' : Char) :: (q ++ []) = '?' :: q := by simp
      rw [hq0]
      rw [splitFirst_none_of_not_mem (show ('#' : Char) ∉ '?' :: q from by simp [hqh])]
      dsimp only
      have hqsplit : splitFirst '?' (('?' : Char) :: q) = some ([], q) := by
        rw [splitFirst, if_pos rfl]
      rw [hqsplit]
    · subst hft
      have hsh : ('?' : Char) :: (q ++ '#' :: fragment) = ('?' :: q) ++ '#' :: fragment := by
        simp
      rw [hsh, splitFirst_of_not_mem (show ('#' : Char) ∉ '?' :: q from by simp [hqh]) fragment]
      dsimp only
      have hqsplit : splitFirst '?' (('?' : Char) :: q) = some ([], q) := by
        rw [splitFirst, if_pos rfl]
      rw [hqsplit]
  · subst hu2c
    have hM : (netloc ++ '/' :: t) ++ ('?' :: q) ++ Ftail =
        netloc ++ '/' :: (t ++ ('?' :: q) ++ Ftail) := by simp
    rw [hM, takeWhile_all_append hnall (by decide), dropWhile_all_append hnall (by decide)]
    rw [if_neg (show ¬_ from by rw [hbr1]; simp), if_neg (show ¬_ from by rw [hbr2]; simp)]
    rcases hFt with ⟨hfr, hft⟩ | hft
    · subst hfr
      subst hft
      have hsh : ('/' : Char) :: (t ++ ('?' :: q) ++ []) = ('/' :: t) ++ '?' :: q := by simp
      rw [hsh]
      rw [splitFirst_none_of_not_mem hnoqfr]
      dsimp only
      rw [splitFirst_of_not_mem hnq q]
    · subst hft
      have hsh : ('/' : Char) :: (t ++ ('?' :: q) ++ '#' :: fragment) =
          (('/' :: t) ++ '?' :: q) ++ '#' :: fragment := by simp
      rw [hsh, splitFirst_of_not_mem hnoqfr fragment]
      dsimp only
      rw [splitFirst_of_not_mem hnq q]

end Scraper

namespace Scraper

/-- Leading-strip and byte-removal leave a clean URL unchanged. -/
theorem urlsplit_clean_start {s : Str}
    (hhd : ∀ c, s.head? = some c → isC0OrSpace c = false)
    (hcl : ∀ c ∈ s, ¬(c = '\t' ∨ c = '\r' ∨ c = '\n')) :
    removeUnsafeBytes (s.dropWhile isC0OrSpace) = s := by
  rw [dropWhile_eq_self_of_head hhd]
  exact removeUnsafeBytes_of_clean hcl

/-- urlsplit inverts urlunsplit on an authority-carrying URL: parsing the
rebuilt URL recovers the scheme, netloc, query and fragment exactly, and the
path with the slash prefixed by urlunsplit when needed. -/
theorem urlsplit_rebuilt (scheme netloc X q fragment : Str)
    (hnet : netloc ≠ [])
    (hSfix : scheme.map lowerChar = scheme)
    (hSall : ∀ c ∈ scheme, isSchemeChar c = true)
    (hShead : scheme ≠ [] → ∃ c0, scheme.head? = some c0 ∧ c0.toNat < 128 ∧ c0.isAlpha = true)
    (hN1 : '/' ∉ netloc) (hN2 : '?' ∉ netloc) (hN3 : '#' ∉ netloc)
    (hbr1 : ((netloc.contains '[' && !netloc.contains ']') ||
       (netloc.contains ']' && !netloc.contains '[')) = false)
    (hbr2 : (netloc.contains '[' && netloc.contains ']' &&
       !bracketedHostOk (bracketedPart netloc)) = false)
    (hX1 : '#' ∉ X) (hX2 : '?' ∉ X)
    (hq1 : q ≠ []) (hq2 : '#' ∉ q)
    (hclean : ∀ c ∈ urlunsplit scheme netloc X q fragment,
      ¬(c = '\t' ∨ c = '\r' ∨ c = '\n')) :
    urlsplit (urlunsplit scheme netloc X q fragment) [] =
      some ⟨scheme, netloc,
        (if decide (X ≠ []) && decide (X.take 1 ≠ ['/']) then '/' :: X else X), q, fragment⟩ := by
  set U2 := (if decide (X ≠ []) && decide (X.take 1 ≠ ['/']) then '/' :: X else X) with hU2def
  have hnall : ∀ x ∈ netloc, (!(x = '/' || x = '?' || x = '#')) = true := by
    intro x hx
    have e1 : ¬(x = '/') := fun e => hN1 (e ▸ hx)
    have e2 : ¬(x = '?') := fun e => hN2 (e ▸ hx)
    have e3 : ¬(x = '#') := fun e => hN3 (e ▸ hx)
    simp [e1, e2, e3]
  have hu2mem : ∀ c ∈ U2, c ∈ X ∨ c = '/' := by
    intro c hc
    rw [hU2def] at hc
    split at hc
    · rcases List.mem_cons.mp hc with rfl | h2
      · exact Or.inr rfl
      · exact Or.inl h2
    · exact Or.inl hc
  have hnh : '#' ∉ U2 := by
    intro hm
    rcases hu2mem _ hm with h2 | h2
    · exact hX1 h2
    · exact absurd h2 (by decide)
  have hnq : '?' ∉ U2 := by
    intro hm
    rcases hu2mem _ hm with h2 | h2
    · exact hX2 h2
    · exact absurd h2 (by decide)
  have hu2shape : U2 = [] ∨ ∃ t, U2 = '/' :: t := by
    rw [hU2def]
    split
    · exact Or.inr ⟨X, rfl⟩
    · next hcnd =>
      cases X with
      | nil => exact Or.inl rfl
      | cons x xs =>
        right
        simp only [Bool.and_eq_true, decide_eq_true_eq] at hcnd
        push_neg at hcnd
        have hx : (x :: xs).take 1 = ['/'] := hcnd (by simp)
        simp only [List.take_succ_cons, List.take_zero] at hx
        injection hx with hx1 hx2
        exact ⟨xs, by rw [hx1]⟩
  have hsd : (removeUnsafeBytes (((([] : Str).dropWhile
      isC0OrSpace).reverse.dropWhile isC0OrSpace).reverse)) = [] := rfl
  have hshape := urlunsplit_split scheme netloc X q fragment hq1
  have hbase : urlunsplit scheme netloc X [] [] =
      (if scheme ≠ [] then scheme ++ ':' :: ('/' :: '/' :: (netloc ++ U2))
       else '/' :: '/' :: (netloc ++ U2)) := by
    rw [urlunsplit.eq_def]
    dsimp only
    rw [if_neg (show ¬(([] : Str) ≠ []) by simp), if_neg (show ¬(([] : Str) ≠ []) by simp)]
    rw [if_pos (show (decide (netloc ≠ []) || (decide (scheme ≠ []) &&
      uses_netloc.contains scheme && decide (X.take 2 ≠ ['/', '/']))) = true by simp [hnet])]
  rw [hshape, hbase] at hclean ⊢
  by_cases hf : fragment ≠ []
  · rw [if_pos hf] at hclean ⊢
    by_cases hs : scheme ≠ []
    · rw [if_pos hs] at hclean ⊢
      obtain ⟨c0, hc0head, hc0a, hc0alpha⟩ := hShead hs
      obtain ⟨srest, hsch⟩ : ∃ srest, scheme = c0 :: srest := by
        cases scheme with
        | nil => exact absurd rfl hs
        | cons a l =>
          rw [List.head?_cons] at hc0head
          injection hc0head with hh
          exact ⟨l, by rw [hh]⟩
      subst hsch
      have hstart := urlsplit_clean_start (fun c hc => by
        injection hc with hcc
        rw [← hcc, isC0OrSpace]
        have hb : 65 ≤ c0.toNat := by
          rcases toNat_of_isAlpha hc0alpha with ⟨hbb, -⟩ | ⟨hbb, -⟩ <;> omega
        exact decide_eq_false (by omega)) hclean
      rw [urlsplit.eq_def]
      dsimp only
      rw [hstart]
      have hT : (((c0 :: srest) ++ ':' :: ('/' :: '/' :: (netloc ++ U2))) ++ '?' :: q) ++
          '#' :: fragment =
          (c0 :: srest) ++ ':' :: ('/' :: '/' :: ((netloc ++ U2) ++ ('?' :: q) ++
            '#' :: fragment)) := by
        simp
      rw [hT]
      rw [splitFirst_of_not_mem (show (':' : Char) ∉ c0 :: srest from
        fun hm => absurd (hSall ':' hm) (by decide))
        ('/' :: '/' :: ((netloc ++ U2) ++ ('?' :: q) ++ '#' :: fragment))]
      dsimp only
      split
      · dsimp only
        rw [hSfix]
        exact urlsplit_rest_eval (c0 :: srest) netloc U2 q fragment ('#' :: fragment)
          hnall hbr1 hbr2 hu2shape hnh hnq hq2 (Or.inr rfl)
      · next hcondfalse =>
        exfalso
        apply hcondfalse
        simp only [Bool.and_eq_true]
        refine ⟨⟨by simp, ?_⟩, List.all_eq_true.mpr hSall⟩
        rw [List.head?_cons]
        dsimp only
        simp [hc0a, hc0alpha]
    · have hse : scheme = [] := by push_neg at hs; exact hs
      subst hse
      rw [if_neg (show ¬(([] : Str) ≠ []) by simp)] at hclean ⊢
      have hstart := urlsplit_clean_start (fun c hc => by
        injection hc with hcc
        rw [← hcc]
        decide) hclean
      rw [urlsplit.eq_def]
      dsimp only
      rw [hstart]
      cases hcol : splitFirst ':' ((('/' :: '/' :: (netloc ++ U2)) ++ '?' :: q) ++
          '#' :: fragment) with
      | none =>
        dsimp only
        rw [hsd]
        have hT : (('/' :: '/' :: (netloc ++ U2)) ++ '?' :: q) ++ '#' :: fragment =
            '/' :: '/' :: ((netloc ++ U2) ++ ('?' :: q) ++ '#' :: fragment) := by simp
        rw [hT]
        exact urlsplit_rest_eval [] netloc U2 q fragment ('#' :: fragment)
          hnall hbr1 hbr2 hu2shape hnh hnq hq2 (Or.inr rfl)
      | some pr =>
        obtain ⟨bef, aft⟩ := pr
        dsimp only
        obtain ⟨h1, -⟩ := splitFirst_eq_some hcol
        obtain ⟨befs, rfl⟩ : ∃ befs, bef = '/' :: befs := by
          cases bef with
          | nil =>
            rw [List.nil_append] at h1
            injection h1 with hx hy
            exact absurd hx (by decide)
          | cons b bs =>
            rw [List.cons_append] at h1
            injection h1 with hx hy
            exact ⟨bs, by rw [hx]⟩
        split
        · next hcondtrue =>
          exfalso
          simp only [Bool.and_eq_true] at hcondtrue
          have hm := hcondtrue.1.2
          rw [List.head?_cons] at hm
          dsimp only at hm
          simp at hm
        · dsimp only
          rw [hsd]
          have hT : (('/' :: '/' :: (netloc ++ U2)) ++ '?' :: q) ++ '#' :: fragment =
              '/' :: '/' :: ((netloc ++ U2) ++ ('?' :: q) ++ '#' :: fragment) := by simp
          rw [hT]
          exact urlsplit_rest_eval [] netloc U2 q fragment ('#' :: fragment)
            hnall hbr1 hbr2 hu2shape hnh hnq hq2 (Or.inr rfl)
  · have hfe : fragment = [] := by push_neg at hf; exact hf
    subst hfe
    rw [if_neg (show ¬(([] : Str) ≠ []) by simp)] at hclean ⊢
    by_cases hs : scheme ≠ []
    · rw [if_pos hs] at hclean ⊢
      obtain ⟨c0, hc0head, hc0a, hc0alpha⟩ := hShead hs
      obtain ⟨srest, hsch⟩ : ∃ srest, scheme = c0 :: srest := by
        cases scheme with
        | nil => exact absurd rfl hs
        | cons a l =>
          rw [List.head?_cons] at hc0head
          injection hc0head with hh
          exact ⟨l, by rw [hh]⟩
      subst hsch
      have hstart := urlsplit_clean_start (fun c hc => by
        injection hc with hcc
        rw [← hcc, isC0OrSpace]
        have hb : 65 ≤ c0.toNat := by
          rcases toNat_of_isAlpha hc0alpha with ⟨hbb, -⟩ | ⟨hbb, -⟩ <;> omega
        exact decide_eq_false (by omega)) hclean
      rw [urlsplit.eq_def]
      dsimp only
      rw [hstart]
      have hT : ((c0 :: srest) ++ ':' :: ('/' :: '/' :: (netloc ++ U2))) ++ '?' :: q =
          (c0 :: srest) ++ ':' :: ('/' :: '/' :: ((netloc ++ U2) ++ ('?' :: q) ++
            ([] : Str))) := by
        simp
      rw [hT]
      rw [splitFirst_of_not_mem (show (':' : Char) ∉ c0 :: srest from
        fun hm => absurd (hSall ':' hm) (by decide))
        ('/' :: '/' :: ((netloc ++ U2) ++ ('?' :: q) ++ ([] : Str)))]
      dsimp only
      split
      · dsimp only
        rw [hSfix]
        exact urlsplit_rest_eval (c0 :: srest) netloc U2 q [] ([] : Str)
          hnall hbr1 hbr2 hu2shape hnh hnq hq2 (Or.inl ⟨rfl, rfl⟩)
      · next hcondfalse =>
        exfalso
        apply hcondfalse
        simp only [Bool.and_eq_true]
        refine ⟨⟨by simp, ?_⟩, List.all_eq_true.mpr hSall⟩
        rw [List.head?_cons]
        dsimp only
        simp [hc0a, hc0alpha]
    · have hse : scheme = [] := by push_neg at hs; exact hs
      subst hse
      rw [if_neg (show ¬(([] : Str) ≠ []) by simp)] at hclean ⊢
      have hstart := urlsplit_clean_start (fun c hc => by
        injection hc with hcc
        rw [← hcc]
        decide) hclean
      rw [urlsplit.eq_def]
      dsimp only
      rw [hstart]
      cases hcol : splitFirst ':' (('/' :: '/' :: (netloc ++ U2)) ++ '?' :: q) with
      | none =>
        dsimp only
        rw [hsd]
        have hT : ('/' :: '/' :: (netloc ++ U2)) ++ '?' :: q =
            '/' :: '/' :: ((netloc ++ U2) ++ ('?' :: q) ++ ([] : Str)) := by simp
        rw [hT]
        exact urlsplit_rest_eval [] netloc U2 q [] ([] : Str)
          hnall hbr1 hbr2 hu2shape hnh hnq hq2 (Or.inl ⟨rfl, rfl⟩)
      | some pr =>
        obtain ⟨bef, aft⟩ := pr
        dsimp only
        obtain ⟨h1, -⟩ := splitFirst_eq_some hcol
        obtain ⟨befs, rfl⟩ : ∃ befs, bef = '/' :: befs := by
          cases bef with
          | nil =>
            rw [List.nil_append] at h1
            injection h1 with hx hy
            exact absurd hx (by decide)
          | cons b bs =>
            rw [List.cons_append] at h1
            injection h1 with hx hy
            exact ⟨bs, by rw [hx]⟩
        split
        · next hcondtrue =>
          exfalso
          simp only [Bool.and_eq_true] at hcondtrue
          have hm := hcondtrue.1.2
          rw [List.head?_cons] at hm
          dsimp only at hm
          simp at hm
        · dsimp only
          rw [hsd]
          have hT : ('/' :: '/' :: (netloc ++ U2)) ++ '?' :: q =
              '/' :: '/' :: ((netloc ++ U2) ++ ('?' :: q) ++ ([] : Str)) := by simp
          rw [hT]
          exact urlsplit_rest_eval [] netloc U2 q [] ([] : Str)
            hnall hbr1 hbr2 hu2shape hnh hnq hq2 (Or.inl ⟨rfl, rfl⟩)

end Scraper

namespace Scraper

/-! ### Grouping pairs back into the dictionary, and dictSet idempotence -/

/-- qsInsert under a fresh head entry. -/
theorem qsInsert_cons_of_ne {e : Str × List Str} {d : List (Str × List Str)} {n v : Str}
    (h : e.1 ≠ n) : qsInsert (e :: d) n v = e :: qsInsert d n v := by
  rw [qsInsert, qsInsert, List.any_cons]
  have he : (decide (e.1 = n)) = false := by simp [h]
  rw [he, Bool.false_or]
  split
  · rw [List.map_cons, if_neg h]
  · rw [List.cons_append]

/-- Folding qsInsert over pairs whose keys avoid the head entry keeps the head
in place. -/
theorem foldl_qsInsert_cons {e : Str × List Str} :
    ∀ (ps : List (Str × Str)) (d : List (Str × List Str)), (∀ p ∈ ps, p.1 ≠ e.1) →
      ps.foldl (fun acc p => qsInsert acc p.1 p.2) (e :: d) =
        e :: ps.foldl (fun acc p => qsInsert acc p.1 p.2) d := by
  intro ps
  induction ps with
  | nil => intro d _; rfl
  | cons p pr ih =>
    intro d hne
    rw [List.foldl_cons, List.foldl_cons,
      qsInsert_cons_of_ne (fun hh => hne p (by simp) hh.symm)]
    exact ih _ (fun x hx => hne x (by simp [hx]))

/-- Folding the values of one key into its singleton entry accumulates them in
order. -/
theorem foldl_qsInsert_values (k : Str) :
    ∀ (vs : List Str) (a : List Str),
      (vs.map (fun v => (k, v))).foldl (fun d p => qsInsert d p.1 p.2) [(k, a)] =
        [(k, a ++ vs)] := by
  intro vs
  induction vs with
  | nil => intro a; simp
  | cons v vr ih =>
    intro a
    rw [List.map_cons, List.foldl_cons]
    have hstep : qsInsert [(k, a)] k v = [(k, a ++ [v])] := by
      rw [qsInsert, if_pos (by simp)]
      simp
    rw [hstep, ih]
    simp

/-- Folding the pairs of one entry from the empty dictionary rebuilds the
entry. -/
theorem foldl_qsInsert_entry (k : Str) (vs : List Str) (hvs : vs ≠ []) :
    (vs.map (fun v => (k, v))).foldl (fun d p => qsInsert d p.1 p.2) [] = [(k, vs)] := by
  cases vs with
  | nil => exact absurd rfl hvs
  | cons v vr =>
    rw [List.map_cons, List.foldl_cons]
    have h0 : qsInsert [] k v = [(k, [v])] := rfl
    rw [h0, foldl_qsInsert_values]
    simp

/-- Grouping the pair listing of a dictionary with distinct keys and non-empty
value lists rebuilds the dictionary. -/
theorem group_pairsOf :
    ∀ (d : List (Str × List Str)), (d.map Prod.fst).Nodup → (∀ e ∈ d, e.2 ≠ []) →
      (pairsOf d).foldl (fun acc p => qsInsert acc p.1 p.2) [] = d := by
  intro d
  induction d with
  | nil => intro _ _; rfl
  | cons e es ih =>
    intro hnd hvs
    have hp : pairsOf (e :: es) = e.2.map (fun v => (e.1, v)) ++ pairsOf es := rfl
    rw [hp, List.foldl_append, foldl_qsInsert_entry e.1 e.2 (hvs e (by simp))]
    rw [List.map_cons, List.nodup_cons] at hnd
    have hkeys : ∀ p ∈ pairsOf es, p.1 ≠ (e.1, e.2).1 := by
      intro p hpm
      rw [pairsOf, List.mem_flatMap] at hpm
      obtain ⟨x, hx, hpx⟩ := hpm
      rw [List.mem_map] at hpx
      obtain ⟨v, -, rfl⟩ := hpx
      intro hh
      exact hnd.1 (hh ▸ List.mem_map_of_mem Prod.fst hx)
    rw [foldl_qsInsert_cons (pairsOf es) [] hkeys]
    rw [ih hnd.2 (fun x hx => hvs x (by simp [hx]))]

/-- All value lists of a parse_qs dictionary are non-empty. -/
theorem parse_qs_lists_ne_nil {qs : Str} : ∀ e ∈ parse_qs qs, e.2 ≠ [] := by
  rw [parse_qs]
  have hgen : ∀ (l : List (Str × Str)) (d : List (Str × List Str)), (∀ e ∈ d, e.2 ≠ []) →
      ∀ e ∈ l.foldl (fun d p => qsInsert d p.1 p.2) d, e.2 ≠ [] := by
    intro l
    induction l with
    | nil => intro d hd; simpa using hd
    | cons p ps ih =>
      intro d hd
      rw [List.foldl_cons]
      refine ih _ ?_
      intro e he
      rw [qsInsert] at he
      split at he
      · rw [List.mem_map] at he
        obtain ⟨x, hx, hxe⟩ := he
        by_cases hxk : x.1 = p.1
        · rw [if_pos hxk] at hxe
          rw [← hxe]
          simp
        · rw [if_neg hxk] at hxe
          rw [← hxe]
          exact hd x hx
      · rcases List.mem_append.mp he with he1 | he1
        · exact hd e he1
        · rw [List.mem_singleton] at he1
          rw [he1]
          simp
  exact hgen _ [] (by simp)

/-- dictSet keeps the dictionary keys distinct. -/
theorem dictSet_keys_nodup {d : List (Str × List Str)} {k : Str} {vs : List Str}
    (h : (d.map Prod.fst).Nodup) : ((dictSet d k vs).map Prod.fst).Nodup := by
  rw [dictSet]
  split
  · have hkeys : (d.map (fun e => if e.1 = k then (e.1, vs) else e)).map Prod.fst =
        d.map Prod.fst := by
      rw [List.map_map]
      apply List.map_congr_left
      intro e _
      by_cases he : e.1 = k
      · simp [he]
      · simp [he]
    rw [hkeys]
    exact h
  · next hany =>
    rw [List.map_append]
    refine List.Nodup.append h (by simp) ?_
    intro a ha hb
    simp only [List.map_cons, List.map_nil, List.mem_singleton] at hb
    subst hb
    rw [List.mem_map] at ha
    obtain ⟨e, he, hfst⟩ := ha
    exact hany (List.any_eq_true.mpr ⟨e, he, by simp [hfst]⟩)

/-- dictSet of a non-empty value list keeps all value lists non-empty. -/
theorem dictSet_lists_ne_nil {d : List (Str × List Str)} {k : Str} {vs : List Str}
    (hd : ∀ e ∈ d, e.2 ≠ []) (hvs : vs ≠ []) : ∀ e ∈ dictSet d k vs, e.2 ≠ [] := by
  intro e he
  rw [dictSet] at he
  split at he
  · rw [List.mem_map] at he
    obtain ⟨x, hx, hxe⟩ := he
    by_cases hxk : x.1 = k
    · rw [if_pos hxk] at hxe
      rw [← hxe]
      exact hvs
    · rw [if_neg hxk] at hxe
      rw [← hxe]
      exact hd x hx
  · rcases List.mem_append.mp he with he1 | he1
    · exact hd e he1
    · rw [List.mem_singleton] at he1
      rw [he1]
      exact hvs

/-- Assigning the same key and values twice is the same as once. -/
theorem dictSet_dictSet (d : List (Str × List Str)) (k : Str) (vs : List Str) :
    dictSet (dictSet d k vs) k vs = dictSet d k vs := by
  by_cases hany : d.any (fun e => e.1 = k) = true
  · have hin : dictSet d k vs = d.map (fun e => if e.1 = k then (e.1, vs) else e) := by
      rw [dictSet, if_pos hany]
    have hany2 : ((d.map (fun e => if e.1 = k then (e.1, vs) else e)).any
        (fun e => e.1 = k)) = true := by
      rw [List.any_eq_true] at hany ⊢
      obtain ⟨x, hx, hxk⟩ := hany
      refine ⟨(x.1, vs), ?_, ?_⟩
      · rw [List.mem_map]
        exact ⟨x, hx, by rw [if_pos (of_decide_eq_true hxk)]⟩
      · simpa using of_decide_eq_true hxk
    rw [hin, dictSet, if_pos hany2, List.map_map]
    apply List.map_congr_left
    intro x _
    by_cases hxk : x.1 = k
    · simp [hxk]
    · simp [hxk]
  · have hin : dictSet d k vs = d ++ [(k, vs)] := by
      rw [dictSet, if_neg hany]
    have hany2 : ((d ++ [(k, vs)]).any (fun e => e.1 = k)) = true := by
      rw [List.any_eq_true]
      exact ⟨(k, vs), by simp, by simp⟩
    rw [hin, dictSet, if_pos hany2, List.map_append]
    have hmap : d.map (fun e => if e.1 = k then (e.1, vs) else e) = d := by
      have hcongr : ∀ x ∈ d, (if x.1 = k then (x.1, vs) else x) = id x := by
        intro x hx
        rw [if_neg, id]
        intro hxx
        exact hany (List.any_eq_true.mpr ⟨x, hx, by simp [hxx]⟩)
      rw [List.map_congr_left hcongr, List.map_id]
    rw [hmap]
    simp

end Scraper

namespace Scraper

/-! ### Resplitting behaviour of splitparams -/

/-- A failing splitLastChar means the character is absent. -/
theorem splitLastChar_none {c : Char} {l : Str} (h : splitLastChar c l = none) : c ∉ l := by
  rw [splitLastChar] at h
  cases hs : splitFirst c l.reverse with
  | none =>
    have := splitFirst_eq_none hs
    simpa using this
  | some pr => rw [hs] at h; exact absurd h (by simp)

/-- Computing splitLastChar on a decomposed list whose tail avoids the
character. -/
theorem splitLastChar_of_not_mem {c : Char} {a b : Str} (h : c ∉ b) :
    splitLastChar c (a ++ c :: b) = some (a, b) := by
  rw [splitLastChar]
  have hrev : (a ++ c :: b).reverse = b.reverse ++ c :: a.reverse := by simp
  rw [hrev, splitFirst_of_not_mem (by simpa using h) a.reverse]
  simp

/-- The tail of a successful splitLastChar avoids the character. -/
theorem splitLastChar_not_mem_snd {c : Char} {l a b : Str}
    (h : splitLastChar c l = some (a, b)) : c ∉ b := by
  rw [splitLastChar] at h
  cases hs : splitFirst c l.reverse with
  | none => rw [hs] at h; exact absurd h (by simp)
  | some pr =>
    rw [hs] at h
    simp only [Option.map_some'] at h
    injection h with h
    obtain ⟨h1, h2⟩ := Prod.mk.injEq .. ▸ h
    have h3 := (splitFirst_eq_some hs).2
    rw [← h2]
    simpa using h3

/-- Shape of the splitparams output: the path keeps a semicolon-free last
segment (or is slash- and semicolon-free), and the params are slash-free. -/
theorem splitparams_shape {y pa pr : Str} (h : splitparams y = (pa, pr)) :
    ((∃ a b1, pa = a ++ '/' :: b1 ∧ '/' ∉ b1 ∧ ';' ∉ b1) ∨ ('/' ∉ pa ∧ ';' ∉ pa)) ∧
      '/' ∉ pr := by
  rw [splitparams] at h
  split at h
  · next hcont =>
    have hmem : '/' ∈ y := by simpa [List.elem_iff] using hcont
    cases hs : splitLastChar '/' y with
    | none => exact absurd hmem (splitLastChar_none hs)
    | some pr0 =>
      obtain ⟨a, b⟩ := pr0
      rw [hs] at h
      dsimp only at h
      have hbs : '/' ∉ b := splitLastChar_not_mem_snd hs
      have hy := splitLastChar_eq_some hs
      cases hsf : splitFirst ';' b with
      | none =>
        rw [hsf] at h
        dsimp only at h
        obtain ⟨rfl, rfl⟩ := Prod.mk.injEq .. ▸ h
        exact ⟨Or.inl ⟨a, b, hy, hbs, splitFirst_eq_none hsf⟩, by simp⟩
      | some qr =>
        obtain ⟨b1, b2⟩ := qr
        rw [hsf] at h
        dsimp only at h
        obtain ⟨rfl, rfl⟩ := Prod.mk.injEq .. ▸ h
        obtain ⟨hb, hb1c⟩ := splitFirst_eq_some hsf
        constructor
        · exact Or.inl ⟨a, b1, rfl, fun hm => hbs (hb ▸ List.mem_append.mpr (Or.inl hm)), hb1c⟩
        · intro hm
          exact hbs (hb ▸ List.mem_append.mpr (Or.inr (List.mem_cons.mpr (Or.inr hm))))
  · next hcont =>
    have hnmem : '/' ∉ y := by
      intro hm
      exact hcont (by simpa [List.elem_iff] using hm)
    cases hsf : splitFirst ';' y with
    | none =>
      rw [hsf] at h
      dsimp only at h
      obtain ⟨rfl, rfl⟩ := Prod.mk.injEq .. ▸ h
      exact ⟨Or.inr ⟨hnmem, splitFirst_eq_none hsf⟩, by simp⟩
    | some qr =>
      obtain ⟨u1, u2⟩ := qr
      rw [hsf] at h
      dsimp only at h
      obtain ⟨rfl, rfl⟩ := Prod.mk.injEq .. ▸ h
      obtain ⟨hy2, hu1c⟩ := splitFirst_eq_some hsf
      refine ⟨Or.inr ⟨?_, hu1c⟩, ?_⟩
      · intro hm
        exact hnmem (hy2 ▸ List.mem_append.mpr (Or.inl hm))
      · intro hm
        exact hnmem (hy2 ▸ List.mem_append.mpr (Or.inr (List.mem_cons.mpr (Or.inr hm))))

/-- splitparams splits a path of the output shape rejoined with non-empty
params right back apart. -/
theorem splitparams_resplit {pa pr2 : Str}
    (hshape : (∃ a b1, pa = a ++ '/' :: b1 ∧ '/' ∉ b1 ∧ ';' ∉ b1) ∨ ('/' ∉ pa ∧ ';' ∉ pa))
    (hpr : '/' ∉ pr2) :
    splitparams (pa ++ ';' :: pr2) = (pa, pr2) := by
  rcases hshape with ⟨a, b1, rfl, hb1s, hb1c⟩ | ⟨hps, hpc⟩
  · have hform : (a ++ '/' :: b1) ++ ';' :: pr2 = a ++ '/' :: (b1 ++ ';' :: pr2) := by simp
    rw [hform, splitparams]
    rw [if_pos (by simp [List.elem_iff])]
    rw [splitLastChar_of_not_mem (show ('/' : Char) ∉ b1 ++ ';' :: pr2 by
      simp only [List.mem_append, List.mem_cons, not_or]
      exact ⟨hb1s, by decide, hpr⟩)]
    dsimp only
    rw [splitFirst_of_not_mem hb1c pr2]
  · rw [splitparams]
    rw [if_neg (show ¬((pa ++ ';' :: pr2).contains '/' = true) by
      intro hm
      have hmm : ('/' : Char) ∈ pa ++ ';' :: pr2 := by simpa [List.elem_iff] using hm
      rcases List.mem_append.mp hmm with h | h
      · exact hps h
      · rcases List.mem_cons.mp h with h | h
        · exact absurd h (by decide)
        · exact hpr h)]
    rw [splitFirst_of_not_mem hpc pr2]

/-- splitparams of an already-split path finds no further params. -/
theorem splitparams_shapeA_eval {a b1 : Str} (hb1s : '/' ∉ b1) (hb1c : ';' ∉ b1) :
    splitparams (a ++ '/' :: b1) = (a ++ '/' :: b1, []) := by
  rw [splitparams]
  rw [if_pos (by simp [List.elem_iff])]
  rw [splitLastChar_of_not_mem hb1s]
  dsimp only
  rw [splitFirst_none_of_not_mem hb1c]

/-- Prepending a slash preserves the path output shape (always in the
slash-carrying form). -/
theorem shape_slash_cons {pa : Str}
    (hshape : (∃ a b1, pa = a ++ '/' :: b1 ∧ '/' ∉ b1 ∧ ';' ∉ b1) ∨ ('/' ∉ pa ∧ ';' ∉ pa)) :
    ∃ a b1, '/' :: pa = a ++ '/' :: b1 ∧ '/' ∉ b1 ∧ ';' ∉ b1 := by
  rcases hshape with ⟨a, b1, rfl, hb1s, hb1c⟩ | ⟨hps, hpc⟩
  · exact ⟨'/' :: a, b1, by simp, hb1s, hb1c⟩
  · exact ⟨[], pa, by simp, hps, hpc⟩

/-- The slash prefixing of urlunsplit is idempotent on its own output. -/
theorem slash_prefix_idem {Y : Str} (h : Y = [] ∨ ∃ t, Y = '/' :: t) :
    (if decide (Y ≠ []) && decide (Y.take 1 ≠ ['/']) then '/' :: Y else Y) = Y := by
  rcases h with rfl | ⟨t, rfl⟩
  · simp
  · rw [if_neg (by simp [List.take_succ_cons, List.take_zero])]

/-- The base URL rebuilt around a non-empty netloc, in closed form. -/
theorem urlunsplit_base_eval (scheme netloc X : Str) (hnet : netloc ≠ []) :
    urlunsplit scheme netloc X [] [] =
      (if scheme ≠ [] then scheme ++ ':' :: ('/' :: '/' :: (netloc ++
        (if decide (X ≠ []) && decide (X.take 1 ≠ ['/']) then '/' :: X else X)))
       else '/' :: '/' :: (netloc ++
        (if decide (X ≠ []) && decide (X.take 1 ≠ ['/']) then '/' :: X else X))) := by
  rw [urlunsplit.eq_def]
  dsimp only
  rw [if_neg (show ¬(([] : Str) ≠ []) by simp), if_neg (show ¬(([] : Str) ≠ []) by simp)]
  rw [if_pos (show (decide (netloc ≠ []) || (decide (scheme ≠ []) &&
    uses_netloc.contains scheme && decide (X.take 2 ≠ ['/', '/']))) = true by simp [hnet])]

/-- urlencode output carries none of the removed bytes. -/
theorem urlencode_clean {d : List (Str × List Str)} :
    ∀ c ∈ urlencode d, ¬(c = '\t' ∨ c = '\r' ∨ c = '\n') := by
  intro c hc hor
  have h48 : 43 ≤ c.toNat ∨ c ∈ (['_', '.', '-', '~', '+', '%', '&', '='] : List Char) := by
    rcases mem_urlencode hc with h | h
    · left
      rw [Char.isAlphanum] at h
      rcases Bool.or_eq_true_iff.mp h with h | h
      · rcases toNat_of_isAlpha h with ⟨hb, -⟩ | ⟨hb, -⟩ <;> omega
      · simp only [Char.isDigit, Bool.and_eq_true, decide_eq_true_eq, Char.le_def,
          UInt32.le_def, BitVec.le_def] at h
        have hg : c.toNat = c.val.toBitVec.toNat := rfl
        have h0 : (UInt32.toBitVec 48).toNat = 48 := rfl
        omega
    · right
      exact h
  rcases hor with rfl | rfl | rfl <;> rcases h48 with hb | hb <;> exact absurd hb (by decide)

end Scraper

namespace Scraper

/-- splitparams of a slash- and semicolon-free string finds no params. -/
theorem splitparams_shapeB_eval {y : Str} (h1 : '/' ∉ y) (h2 : ';' ∉ y) :
    splitparams y = (y, []) := by
  rw [splitparams]
  rw [if_neg (fun hm => h1 (by simpa [List.elem_iff] using hm))]
  rw [splitFirst_none_of_not_mem h2]

/-- The slash-prefixed path built by urlunsplit is empty or starts with a
slash. -/
theorem slashPrefix_shape (X : Str) :
    (if decide (X ≠ []) && decide (X.take 1 ≠ ['/']) then '/' :: X else X) = [] ∨
      ∃ t, (if decide (X ≠ []) && decide (X.take 1 ≠ ['/']) then '/' :: X else X) = '/' :: t := by
  cases X with
  | nil => left; simp
  | cons c t =>
    by_cases hc : c = '/'
    · subst hc
      right
      rw [if_neg (by simp [List.take_succ_cons, List.take_zero])]
      exact ⟨t, rfl⟩
    · right
      rw [if_pos (by simp [List.take_succ_cons, List.take_zero, hc])]
      exact ⟨c :: t, rfl⟩

/-- Characters of the slash-prefixed path come from the path or are the
slash. -/
theorem mem_slashPrefix {X : Str} {c : Char}
    (h : c ∈ (if decide (X ≠ []) && decide (X.take 1 ≠ ['/']) then '/' :: X else X)) :
    c ∈ X ∨ c = '/' := by
  split at h
  · rcases List.mem_cons.mp h with rfl | h2
    · exact Or.inr rfl
    · exact Or.inl h2
  · exact Or.inl h

/-- Splitting the params off the slash-prefixed rejoined path of a previous
splitparams result and rejoining is the identity. -/
theorem second_splitparams {path params X XP : Str}
    (hshape : (∃ a b1, path = a ++ '/' :: b1 ∧ '/' ∉ b1 ∧ ';' ∉ b1) ∨ ('/' ∉ path ∧ ';' ∉ path))
    (hpr : '/' ∉ params)
    (hX : X = if params ≠ [] then path ++ ';' :: params else path)
    (hXP : XP = if decide (X ≠ []) && decide (X.take 1 ≠ ['/']) then '/' :: X else X) :
    (if (splitparams XP).2 ≠ [] then (splitparams XP).1 ++ ';' :: (splitparams XP).2
     else (splitparams XP).1) = XP := by
  by_cases hpe : params = []
  · subst hpe
    rw [if_neg (by simp)] at hX
    subst hX
    have hshapeXP : (∃ a b1, XP = a ++ '/' :: b1 ∧ '/' ∉ b1 ∧ ';' ∉ b1) ∨
        ('/' ∉ XP ∧ ';' ∉ XP) := by
      rw [hXP]
      split
      · exact Or.inl (shape_slash_cons hshape)
      · exact hshape
    rcases hshapeXP with ⟨a, b1, hE, hb1s, hb1c⟩ | ⟨hps, hpc⟩
    · rw [hE, splitparams_shapeA_eval hb1s hb1c]
      simp
    · rw [splitparams_shapeB_eval hps hpc]
      simp
  · rw [if_pos hpe] at hX
    subst hX
    rw [hXP]
    split
    · have hform : '/' :: (path ++ ';' :: params) = ('/' :: path) ++ ';' :: params := by simp
      rw [hform, splitparams_resplit (Or.inl (shape_slash_cons hshape)) hpr]
      simp [hpe]
    · rw [splitparams_resplit hshape hpr]
      simp [hpe]

/-- urlunsplit with a non-empty netloc depends on the path only through its
slash-prefixed form. -/
theorem urlunsplit_ext (scheme netloc X2 X q fragment : Str) (hnet : netloc ≠ [])
    (h : (if decide (X2 ≠ []) && decide (X2.take 1 ≠ ['/']) then '/' :: X2 else X2) =
         (if decide (X ≠ []) && decide (X.take 1 ≠ ['/']) then '/' :: X else X)) :
    urlunsplit scheme netloc X2 q fragment = urlunsplit scheme netloc X q fragment := by
  rw [urlunsplit.eq_def, urlunsplit.eq_def]
  dsimp only
  rw [if_pos (show (decide (netloc ≠ []) || (decide (scheme ≠ []) &&
        uses_netloc.contains scheme && decide (X2.take 2 ≠ ['/', '/']))) = true by simp [hnet]),
      if_pos (show (decide (netloc ≠ []) || (decide (scheme ≠ []) &&
        uses_netloc.contains scheme && decide (X.take 2 ≠ ['/', '/']))) = true by simp [hnet]),
      h]

end Scraper

namespace Scraper

/-- C10 (amended): affiliate rewriting is idempotent on URLs carrying an
authority: for every non-empty URL accepted by urlparse whose netloc is
non-empty and every non-empty affiliate id, _add_affiliate_tag maps its own
output back to itself, so rewriting an already-rewritten URL never changes
it or duplicates the tag.  The unrestricted form of the claim, over all
URLs, is false: a netloc-free URL whose path starts with two slashes
re-parses with part of the path read as a netloc, so the second rewrite
drops characters. -/
theorem claim10_idempotent_on_authority (affiliate_id url r : Str) (p : ParseResult)
    (hid : affiliate_id ≠ []) (hurl : url ≠ [])
    (hp : urlparse url [] = some p) (hnet : p.netloc ≠ [])
    (h : _add_affiliate_tag affiliate_id url = some r) :
    _add_affiliate_tag affiliate_id r = some r := by
  rw [_add_affiliate_tag, if_neg (by push_neg; exact ⟨hurl, hid⟩), hp] at h
  simp only [Option.map_some'] at h
  injection h with h
  obtain ⟨⟨hs1, hs2⟩, ⟨hn1, hn2⟩, ⟨hp1, hp2⟩, ⟨hpr1, hpr2⟩⟩ := urlparse_no_delims hp
  have hkey : ∃ rs : SplitResult, urlsplit url [] = some rs ∧
      p.scheme = rs.scheme ∧ p.netloc = rs.netloc ∧ p.fragment = rs.fragment ∧
      (splitparams rs.path = (p.path, p.params) ∨
        (p.params = [] ∧ p.path = rs.path ∧
          (uses_params.contains rs.scheme && rs.path.contains ';') = false)) := by
    rw [urlparse] at hp
    cases hsrs : urlsplit url [] with
    | none => rw [hsrs] at hp; exact absurd hp (by simp)
    | some rs =>
      rw [hsrs] at hp
      simp only [Option.map_some'] at hp
      injection hp with hp
      split at hp
      · exact ⟨rs, rfl, by rw [← hp], by rw [← hp], by rw [← hp], Or.inl (by rw [← hp])⟩
      · next hcond =>
        exact ⟨rs, rfl, by rw [← hp], by rw [← hp], by rw [← hp],
          Or.inr ⟨by rw [← hp], by rw [← hp], by simpa using hcond⟩⟩
  obtain ⟨rs, hsrs, hes, hen, hef, hpar⟩ := hkey
  obtain ⟨hrN1, hbr1, hbr2, hSfix, hSall, hShead, hcleanN, hcleanP, hcleanF⟩ :=
    urlsplit_more_facts hsrs
  set Q := urlencode (dictSet (parse_qs p.query) (strL "tag") [affiliate_id]) with hQ
  set X := (if p.params ≠ [] then p.path ++ ';' :: p.params else p.path) with hXdef
  have hmemPa : ∀ c ∈ p.path, c ∈ rs.path ∨ c = '/' := by
    rcases hpar with hsp | ⟨hpe, hpath, hcf⟩
    · intro c hc
      exact (@splitparams_mem rs.path).1 c (by rw [hsp]; exact hc)
    · intro c hc
      exact Or.inl (hpath ▸ hc)
  have hmemPr : ∀ c ∈ p.params, c ∈ rs.path := by
    rcases hpar with hsp | ⟨hpe, hpath, hcf⟩
    · intro c hc
      exact (@splitparams_mem rs.path).2 c (by rw [hsp]; exact hc)
    · intro c hc
      rw [hpe] at hc
      exact absurd hc (List.not_mem_nil c)
  have hX1 : '#' ∉ X := by
    rw [hXdef]
    by_cases hpp : p.params ≠ []
    · rw [if_pos hpp]
      intro hm
      rcases List.mem_append.mp hm with h2 | h2
      · exact hp1 h2
      · rcases List.mem_cons.mp h2 with h3 | h3
        · exact absurd h3 (by decide)
        · exact hpr1 h3
    · rw [if_neg hpp]
      exact hp1
  have hX2 : '?' ∉ X := by
    rw [hXdef]
    by_cases hpp : p.params ≠ []
    · rw [if_pos hpp]
      intro hm
      rcases List.mem_append.mp hm with h2 | h2
      · exact hp2 h2
      · rcases List.mem_cons.mp h2 with h3 | h3
        · exact absurd h3 (by decide)
        · exact hpr2 h3
    · rw [if_neg hpp]
      exact hp2
  have hcleanX : ∀ c ∈ X, ¬(c = '\t' ∨ c = '\r' ∨ c = '\n') := by
    rw [hXdef]
    intro c hc
    have hslash : ¬(('/' : Char) = '\t' ∨ ('/' : Char) = '\r' ∨ ('/' : Char) = '\n') := by
      decide
    by_cases hpp : p.params ≠ []
    · rw [if_pos hpp] at hc
      rcases List.mem_append.mp hc with h2 | h2
      · rcases hmemPa c h2 with h3 | h3
        · exact hcleanP c h3
        · subst h3
          exact hslash
      · rcases List.mem_cons.mp h2 with h3 | h3
        · subst h3
          decide
        · exact hcleanP c (hmemPr c h3)
    · rw [if_neg hpp] at hc
      rcases hmemPa c hc with h3 | h3
      · exact hcleanP c h3
      · subst h3
        exact hslash
  have hcleanS : ∀ c ∈ p.scheme, ¬(c = '\t' ∨ c = '\r' ∨ c = '\n') := by
    intro c hc hor
    have h43 := schemeChar_toNat (hSall c (hes ▸ hc))
    rcases hor with rfl | rfl | rfl <;> exact absurd h43 (by decide)
  have hvals : ∀ e ∈ dictSet (parse_qs p.query) (strL "tag") [affiliate_id],
      ∀ w ∈ e.2, w ≠ [] :=
    dictSet_vals parse_qs_vals
      (fun w hw => by rw [List.mem_singleton] at hw; subst hw; exact hid)
  have hmem : (strL "tag", [affiliate_id]) ∈
      dictSet (parse_qs p.query) (strL "tag") [affiliate_id] := by
    have hx : (strL "tag", [affiliate_id]) ∈
        (dictSet (parse_qs p.query) (strL "tag") [affiliate_id]).filter
          (fun e => e.1 = strL "tag") := by
      rw [dictSet_filter parse_qs_keys_nodup]
      exact List.mem_singleton.mpr rfl
    exact List.mem_of_mem_filter hx
  have hQne : Q ≠ [] := by
    rw [hQ, urlencode]
    apply joinSep_ne_nil
    · intro hnil
      have h0 := List.flatMap_eq_nil_iff.mp hnil _ hmem
      simp at h0
    · intro q2 hq2m
      rw [List.mem_flatMap] at hq2m
      obtain ⟨e, -, he⟩ := hq2m
      rw [List.mem_map] at he
      obtain ⟨v, -, rfl⟩ := he
      simp
  have hQh : '#' ∉ Q := by
    rw [hQ]
    exact not_mem_urlencode (by decide) (by decide)
  have hshapeU := urlunsplit_split p.scheme p.netloc X Q p.fragment hQne
  have hcleanQc : ∀ c ∈ Q, ¬(c = '\t' ∨ c = '\r' ∨ c = '\n') := by
    rw [hQ]
    exact urlencode_clean
  have hcleanR : ∀ c ∈ urlunsplit p.scheme p.netloc X Q p.fragment,
      ¬(c = '\t' ∨ c = '\r' ∨ c = '\n') := by
    intro c hc
    rw [hshapeU] at hc
    have hbase : c ∈ urlunsplit p.scheme p.netloc X [] [] →
        ¬(c = '\t' ∨ c = '\r' ∨ c = '\n') := by
      intro hb
      rcases mem_urlunsplit_base hb with hh | hh | hh | hh | hh
      · exact hcleanS c hh
      · exact hcleanN c (hen ▸ hh)
      · exact hcleanX c hh
      · subst hh
        decide
      · subst hh
        decide
    by_cases hf : p.fragment ≠ []
    · rw [if_pos hf] at hc
      rcases List.mem_append.mp hc with h2 | h2
      · rcases List.mem_append.mp h2 with h3 | h3
        · exact hbase h3
        · rcases List.mem_cons.mp h3 with h4 | h4
          · subst h4
            decide
          · exact hcleanQc c h4
      · rcases List.mem_cons.mp h2 with h3 | h3
        · subst h3
          decide
        · exact hcleanF c (hef ▸ h3)
    · rw [if_neg hf] at hc
      rcases List.mem_append.mp hc with h2 | h2
      · exact hbase h2
      · rcases List.mem_cons.mp h2 with h3 | h3
        · subst h3
          decide
        · exact hcleanQc c h3
  set XP := (if decide (X ≠ []) && decide (X.take 1 ≠ ['/']) then '/' :: X else X) with hXPdef
  have hsplit2 : urlsplit (urlunsplit p.scheme p.netloc X Q p.fragment) [] =
      some ⟨p.scheme, p.netloc, XP, Q, p.fragment⟩ := by
    rw [hXPdef]
    exact urlsplit_rebuilt p.scheme p.netloc X Q p.fragment hnet
      (by rw [hes]; exact hSfix)
      (fun c hc => hSall c (hes ▸ hc))
      (by rw [hes]; exact hShead)
      (fun hm => hrN1 (hen ▸ hm)) hn2 hn1
      (by rw [hen]; exact hbr1) (by rw [hen]; exact hbr2)
      hX1 hX2 hQne hQh hcleanR
  have hr : urlunsplit p.scheme p.netloc X Q p.fragment = r := by
    rw [hXdef]
    exact h
  have hrne : r ≠ [] := by
    rw [← hr, hshapeU]
    by_cases hf : p.fragment ≠ []
    · rw [if_pos hf]
      simp
    · rw [if_neg hf]
      simp
  have hXPshape : XP = [] ∨ ∃ t, XP = '/' :: t := by
    rw [hXPdef]
    exact slashPrefix_shape X
  have hXPfix : (if decide (XP ≠ []) && decide (XP.take 1 ≠ ['/']) then '/' :: XP else XP) =
      XP := slash_prefix_idem hXPshape
  have hQfix : urlencode (dictSet (parse_qs Q) (strL "tag") [affiliate_id]) = Q := by
    have h1 : parse_qsl Q =
        pairsOf (dictSet (parse_qs p.query) (strL "tag") [affiliate_id]) := by
      rw [hQ]
      exact parse_qsl_urlencode _ hvals
    have h2 : parse_qs Q = dictSet (parse_qs p.query) (strL "tag") [affiliate_id] := by
      rw [parse_qs, h1]
      exact group_pairsOf _ (dictSet_keys_nodup parse_qs_keys_nodup)
        (dictSet_lists_ne_nil parse_qs_lists_ne_nil (by simp))
    rw [h2, dictSet_dictSet, ← hQ]
  rw [hr] at hsplit2
  rw [_add_affiliate_tag, if_neg (by push_neg; exact ⟨hrne, hid⟩), urlparse, hsplit2]
  simp only [Option.map_some']
  by_cases hcond2 : (uses_params.contains p.scheme && XP.contains ';') = true
  · rw [if_pos hcond2]
    dsimp only
    rw [hQfix]
    rcases hpar with hsp | ⟨hpe, hpath, hcf⟩
    · obtain ⟨hshapeP, hprP⟩ := splitparams_shape hsp
      have hX2eq := second_splitparams hshapeP hprP hXdef hXPdef
      rw [urlunparse, hX2eq, urlunsplit_ext p.scheme p.netloc XP X Q p.fragment hnet
        (by rw [hXPfix]), hr]
    · rw [Bool.and_eq_true] at hcond2
      have hsemiXP : (';' : Char) ∈ XP := by simpa [List.elem_iff] using hcond2.2
      have hsemiX : (';' : Char) ∈ X := by
        rcases mem_slashPrefix (hXPdef ▸ hsemiXP) with h2 | h2
        · exact h2
        · exact absurd h2 (by decide)
      have hsemiP : (';' : Char) ∈ rs.path := by
        rw [hXdef, if_neg (by simp [hpe])] at hsemiX
        exact hpath ▸ hsemiX
      have htrue : (uses_params.contains rs.scheme && rs.path.contains ';') = true := by
        rw [Bool.and_eq_true]
        exact ⟨hes ▸ hcond2.1, by simpa [List.elem_iff] using hsemiP⟩
      rw [htrue] at hcf
      exact absurd hcf (by simp)
  · rw [if_neg hcond2]
    dsimp only
    rw [hQfix]
    rw [urlunparse, if_neg (by simp), urlunsplit_ext p.scheme p.netloc XP X Q p.fragment hnet
      (by rw [hXPfix]), hr]

end Scraper

namespace Scraper

/-- Counterexample to the unrestricted C10 idempotence over all URLs: on the
slashes-only URL the first rewrite's output is not a fixed point of a second
rewrite, because the rebuilt URL re-parses with an empty netloc absorbing
two slashes. -/
theorem claim10_counterexample :
    _add_affiliate_tag (strL "X") (strL "////") = some (strL "//?tag=X") ∧
    _add_affiliate_tag (strL "X") (strL "//?tag=X") = some (strL "?tag=X") ∧
    (strL "//?tag=X" : Str) ≠ strL "?tag=X" := by
  decide

/-- Witness for the amended C10 at a concrete authority URL already carrying
a different tag: the rewritten URL is a fixed point of a second rewrite. -/
theorem claim10_witness :
    strL "newtag-20" ≠ [] ∧
    strL "https://www.amazon.com/dp/B08N5WRWNW?tag=old-20" ≠ [] ∧
    urlparse (strL "https://www.amazon.com/dp/B08N5WRWNW?tag=old-20") [] =
      some ⟨strL "https", strL "www.amazon.com", strL "/dp/B08N5WRWNW", [],
        strL "tag=old-20", []⟩ ∧
    (strL "www.amazon.com" : Str) ≠ [] ∧
    _add_affiliate_tag (strL "newtag-20")
        (strL "https://www.amazon.com/dp/B08N5WRWNW?tag=old-20") =
      some (strL "https://www.amazon.com/dp/B08N5WRWNW?tag=newtag-20") ∧
    _add_affiliate_tag (strL "newtag-20")
        (strL "https://www.amazon.com/dp/B08N5WRWNW?tag=newtag-20") =
      some (strL "https://www.amazon.com/dp/B08N5WRWNW?tag=newtag-20") :=
  ⟨by decide, by decide, by decide, by decide, by decide,
   claim10_idempotent_on_authority (strL "newtag-20")
     (strL "https://www.amazon.com/dp/B08N5WRWNW?tag=old-20")
     (strL "https://www.amazon.com/dp/B08N5WRWNW?tag=newtag-20")
     ⟨strL "https", strL "www.amazon.com", strL "/dp/B08N5WRWNW", [], strL "tag=old-20", []⟩
     (by decide) (by decide) (by decide) (by decide) (by decide)⟩

end Scraper
